import Mathlib

/-!
# midival: the realtime player

A shallow embedding of `src/src/player.c` and `src/src/player_tables.c`:
the voice pool with its index-linked lists, the event dispatcher `do_event`,
the tick clock and the per-frame mixer of `mdv_get_audio`.

Conventions of the embedding.

* Machine integers are `Nat` (unsigned) or `Int` (signed); every operation
  that can leave the range of its C type is reduced explicitly.
* A C function that can dereference a null pointer, index outside an array or
  divide by zero returns `Option`; `none` stands for that undefined behaviour
  (and, in the loops that walk a linked list, for a walk that is longer than
  the pool, which only a cyclic chain of `next` indices can cause).
* The header `midieval.h` is not part of the sources. Its record types are
  rebuilt from the fields that `player.c` reads and writes.
* The floating-point part of the volume computation and the contents of the
  lookup tables are parameters of the model (`Tables`).
-/

namespace Midival

/-! ## Machine arithmetic -/

/-- Conversion of an integer to the signed two's-complement type of `w` bits. -/
def wrap_signed (w : Nat) (x : Int) : Int :=
  (x + 2 ^ (w - 1)) % 2 ^ w - 2 ^ (w - 1)

/-- Output rate in Hz, the macro `SAMPLE_RATE`. -/
def SAMPLE_RATE : Nat := 48000

/-! ## Types of `midieval.h`, as used by `player.c` -/

/-- Event types switched on by `do_event`; every type it does not name is
`other`. -/
inductive MDV_Event_Type where
  | MDV_NOTE_OFF
  | MDV_NOTE_ON
  | MDV_CONTROLLER
  | MDV_PROGRAM_CHANGE
  | MDV_PITCH_BEND
  | MDV_SET_TEMPO
  | other (code : Nat)
  deriving DecidableEq, Repr

/-- Modelled from the spec: the controller number `MDV_VOLUME` of the missing
header `midieval.h` (cc 7). -/
def MDV_VOLUME : Nat := 7

/-- Modelled from the spec: the controller number `MDV_EXPRESSION` of the
missing header `midieval.h` (cc 11). -/
def MDV_EXPRESSION : Nat := 11

/-- Modelled from the spec: the controller number `MDV_PAN` of the missing
header `midieval.h` (cc 10). -/
def MDV_PAN : Nat := 10

/-- An event: its type and three byte fields. -/
structure MDV_Event where
  type : MDV_Event_Type
  channel : Nat
  param1 : Nat
  param2 : Nat
  deriving DecidableEq, Repr

/-- An event with its tick time (`uint32_t`). -/
structure MDV_Timed_Event where
  time : Nat
  event : MDV_Event
  deriving DecidableEq, Repr

/-- A sequence: `events` is the array `events[0 .. n_events)`. -/
structure MDV_Sequence where
  tpb : Nat
  events : List MDV_Timed_Event
  deriving DecidableEq, Repr

/-- One recorded waveform of a patch. `data` is the array
`data[0 .. data_size)`; the two envelope arrays have six entries. -/
structure MDV_Sample where
  high_freq : Nat
  sample_rate : Nat
  root_freq : Nat
  loop : Bool
  pingpong : Bool
  loop_start : Nat
  loop_end : Nat
  envelope_rates : List Nat
  envelope_offsets : List Nat
  tremolo_sweep_increment : Int
  tremolo_phase_increment : Int
  tremolo_depth : Int
  data : List Int
  deriving DecidableEq, Repr

/-- An instrument. `note` is negative when the patch has no fixed note;
`samples` is the array `samples[0 .. n_samples)`. -/
structure MDV_Patch where
  note : Int
  keep_envelope : Bool
  keep_loop : Bool
  volume : Nat
  samples : List MDV_Sample
  deriving DecidableEq, Repr

/-- The bank: the arrays `patches[0..128]` and `drums[0..128]`; an absent
entry is a null pointer. Only the entries below 128 are part of the arrays:
the code reads them through `patch_at` and `drum_at`, which are undefined from
index 128 on. -/
structure MDV_Bank where
  patches : Nat → Option MDV_Patch
  drums : Nat → Option MDV_Patch

/-- Entry `bank.patches[i]` of the 128-entry array: `none` for a read outside
the array, otherwise the entry, which may be a null pointer. -/
def patch_at (bank : MDV_Bank) (i : Nat) : Option (Option MDV_Patch) :=
  if i < 128 then some (bank.patches i) else none

/-- Entry `bank.drums[i]` of the 128-entry array: `none` for a read outside
the array, otherwise the entry, which may be a null pointer. -/
def drum_at (bank : MDV_Bank) (i : Nat) : Option (Option MDV_Patch) :=
  if i < 128 then some (bank.drums i) else none

/-! ## Types of `player.c` -/

/-- A voice of the pool. `next` is the index of the next voice on the same
list, 255 at the end. -/
structure Voice where
  next : Nat
  note : Nat
  velocity : Nat
  sample_index : Nat
  backwards : Nat
  envelope_phase : Nat
  envelope_value : Nat
  tremolo_sweep_position : Int
  tremolo_phase : Int
  sample_pos : Nat
  patch : Option MDV_Patch
  deriving DecidableEq, Repr

/-- A channel. `voices` is the index of the first voice of the channel,
255 when there is none. -/
structure Channel where
  program : Nat
  volume : Nat
  expression : Nat
  pan : Int
  pitch_bend : Int
  voices : Nat
  no_envelope : Nat
  no_loop : Nat
  deriving DecidableEq, Repr

/-- The player. `current` is the index in `seq.events` that the C pointer
`current` points at; `channels` has 16 entries and `voices` 255. -/
structure MDV_Player where
  tick_length : Nat
  seq : Option MDV_Sequence
  bank : MDV_Bank
  current : Nat
  samples_to_tick : Nat
  ticks_to_event : Nat
  done : Bool
  channels : Nat → Channel
  inactive : Nat
  voices : Nat → Voice
  clip_count : Nat

/-- One output frame. -/
structure Samp where
  l : Int
  r : Int
  deriving DecidableEq, Repr

/-! ## `player_tables.c` -/

/-- The lookup tables. `freqs` (256 entries of `uint16_t`) and `vols`
(128 entries of `uint16_t`) are filled by floating-point code at start-up, so
their contents are parameters. `fvolume gain e s d` is the `uint32_t` that the
floating-point product
`gain * pows[e] * (1.0 + (1.0 + sines[s] * d * 38 / 2^17) / 2000000.0)`
is converted to. -/
structure Tables where
  freqs : Nat → Nat
  vols : Nat → Nat
  fvolume : Nat → Nat → Int → Int → Nat

/-- Frequency in milliHz of a note in 8:8 fixed point: `get_freq`. The
argument is converted to `uint16_t`, the table entry is a `uint16_t` and the
result a `uint32_t`. -/
def get_freq (t : Tables) (note : Nat) : Nat :=
  let note2 := (note % 65536) / 12
  ((t.freqs (note2 % 256) % 65536) <<< (note2 / 256)) % 2 ^ 32

/-- Entry `vols[i]` of the 128-entry table. -/
def vols_at (t : Tables) (i : Nat) : Option Nat :=
  if i < 128 then some (t.vols i % 65536) else none

/-! ## `mdv_reset_player`, `mdv_play_sequence` -/

/-- The function `mdv_reset_player`: it writes four fields of every channel,
the links of the pool and the clip counter, and nothing else. -/
def mdv_reset_player (p : MDV_Player) : MDV_Player :=
  { p with
    channels := fun i =>
      if i < 16 then
        { p.channels i with
          volume := 127, expression := 127, pitch_bend := 0, pan := 0, voices := 255 }
      else p.channels i
    inactive := 0
    voices := fun i =>
      if i < 255 then { p.voices i with next := i + 1 } else p.voices i
    clip_count := 0 }

/-- The function `mdv_play_sequence`. It divides by `seq->tpb` and reads
`seq->events[0].time`. -/
def mdv_play_sequence (player : MDV_Player) (seq : MDV_Sequence) : Option MDV_Player :=
  if seq.tpb = 0 then none
  else
    match seq.events[0]? with
    | none => none
    | some ev =>
      let tick_length := SAMPLE_RATE / seq.tpb / 2
      some { player with
        tick_length := tick_length
        seq := some seq
        current := 0
        samples_to_tick := tick_length
        ticks_to_event := ev.time
        done := false }

/-- The function `mdv_currently_playing`. -/
def mdv_currently_playing (player : MDV_Player) : Bool :=
  player.seq.isSome && !player.done

/-! ## `do_event` -/

/-- The loop of the `MDV_NOTE_OFF` case: walk the list that starts at index
`i` and put the first voice with the given note and `envelope_phase < 3` into
phase 3. The first argument bounds the number of voices visited. -/
def note_off_scan (note : Nat) : Nat → Nat → (Nat → Voice) → Option (Nat → Voice)
  | 0, i, voices => if i = 255 then some voices else none
  | fuel + 1, i, voices =>
    if i = 255 then some voices
    else
      let v := voices i
      if v.note = note ∧ v.envelope_phase < 3 then
        some (Function.update voices i { v with envelope_phase := 3 })
      else note_off_scan note fuel v.next voices

/-- The code at the label `do_note_off`. -/
def do_note_off (player : MDV_Player) (event : MDV_Event) : Option MDV_Player :=
  if event.channel ≠ 9 then
    if event.channel < 16 then
      (note_off_scan event.param1 255 (player.channels event.channel).voices
          player.voices).map
        fun voices => { player with voices := voices }
    else none
  else some player

/-- The sample choice of the `MDV_NOTE_ON` case: the loop over
`samples[i]`, `i = 0, 1, ...`, that stores `i` and stops at the first sample
with `high_freq > freq`; `sample_index` is what the field holds so far. -/
def choose_sample (freq : Nat) : List MDV_Sample → Nat → Nat → Nat
  | [], _, sample_index => sample_index
  | s :: rest, i, sample_index =>
    if s.high_freq > freq then i else choose_sample freq rest (i + 1) sample_index

/-- The loop of the `MDV_PROGRAM_CHANGE` case: while channel `c` has a first
voice, unlink it and push it on the inactive list. The first argument bounds
the number of iterations. -/
def silence_channel (c : Nat) : Nat → MDV_Player → Option MDV_Player
  | 0, player => if (player.channels c).voices = 255 then some player else none
  | fuel + 1, player =>
    let i := (player.channels c).voices
    if i = 255 then some player
    else
      let v := player.voices i
      silence_channel c fuel
        { player with
          channels := Function.update player.channels c
            { player.channels c with voices := v.next }
          voices := Function.update player.voices i { v with next := player.inactive }
          inactive := i }

/-- The read `event->channel == 9 ? bank.drums[v->note] : bank.patches[ch->program]`
of the `MDV_NOTE_ON` case: `none` when the index is outside the 128-entry
array. -/
def bank_patch (bank : MDV_Bank) (channel note program : Nat) : Option (Option MDV_Patch) :=
  if channel = 9 then drum_at bank note else patch_at bank program

/-- The fields that the `MDV_NOTE_ON` case writes to the voice it allocates:
`next` is the old head of the channel list and `patch` the entry read from the
bank. The note is the patch's fixed note when it has one, and the sample index
is the one the selection loop computes for `get_freq(v->note << 8)`. -/
def new_voice (t : Tables) (next : Nat) (event : MDV_Event) (patch : Option MDV_Patch) : Voice :=
  let note :=
    match patch with
    | some pt => if pt.note ≥ 0 then (pt.note % 256).toNat else event.param1
    | none => event.param1
  let sample_index :=
    match patch with
    | some pt => choose_sample (get_freq t (note <<< 8)) pt.samples 0 0
    | none => 0
  { next := next
    note := note
    velocity := event.param2
    backwards := 0
    sample_pos := 0
    sample_index := sample_index
    envelope_phase := 0
    envelope_value := 0
    tremolo_sweep_position := 0
    tremolo_phase := 0
    patch := patch }

/-- The function `do_event`. -/
def do_event (t : Tables) (player : MDV_Player) (event : MDV_Event) : Option MDV_Player :=
  match event.type with
  | .MDV_NOTE_OFF => do_note_off player event
  | .MDV_NOTE_ON =>
    if event.param2 = 0 then do_note_off player event
    else if player.inactive ≠ 255 then
      if event.channel < 16 then
        let i := player.inactive
        let v := player.voices i
        let ch := player.channels event.channel
        match bank_patch player.bank event.channel event.param1 ch.program with
        | none => none
        | some patch =>
          some { player with
            inactive := v.next
            channels := Function.update player.channels event.channel { ch with voices := i }
            voices := Function.update player.voices i (new_voice t ch.voices event patch) }
      else none
    else some player
  | .MDV_CONTROLLER =>
    if event.param1 = MDV_VOLUME then
      if event.channel < 16 then
        some { player with
          channels := Function.update player.channels event.channel
            { player.channels event.channel with volume := event.param2 } }
      else none
    else if event.param1 = MDV_EXPRESSION then
      if event.channel < 16 then
        some { player with
          channels := Function.update player.channels event.channel
            { player.channels event.channel with expression := event.param2 } }
      else none
    else if event.param1 = MDV_PAN then
      if event.channel < 16 then
        some { player with
          channels := Function.update player.channels event.channel
            { player.channels event.channel with
              pan := wrap_signed 8 ((event.param2 : Int) - 64) } }
      else none
    else some player
  | .MDV_PROGRAM_CHANGE =>
    if event.channel < 16 then
      (silence_channel event.channel 255 player).map fun p =>
        { p with
          channels := Function.update p.channels event.channel
            { p.channels event.channel with program := event.param1 } }
    else none
  | .MDV_PITCH_BEND =>
    if event.channel < 16 then
      some { player with
        channels := Function.update player.channels event.channel
          { player.channels event.channel with
            pitch_bend :=
              wrap_signed 16 (((event.param2 <<< 7 ||| event.param1 : Nat) : Int) - 8192) } }
    else none
  | .MDV_SET_TEMPO =>
    match player.seq with
    | none => none
    | some seq =>
      if seq.tpb = 0 then none
      else
        let ms_per_beat :=
          (event.channel <<< 16 ||| event.param1 <<< 8 ||| event.param2) % 2 ^ 32
        some { player with
          tick_length := (SAMPLE_RATE * ms_per_beat / 1000000 / seq.tpb) % 2 ^ 32 }
  | .other _ => some player

/-! ## The voice renderer of `mdv_get_audio` -/

/-- Outcome of the loop body for one voice: either the jump to
`delete_voice`, with the fields of the voice as they are at the jump, or the
voice after the frame and the two accumulators. -/
inductive Rendered where
  | deleted (v : Voice)
  | mixed (v : Voice) (left right : Int)
  deriving DecidableEq, Repr

/-- The voice of an outcome. -/
def Rendered.voice : Rendered → Voice
  | Rendered.deleted v => v
  | Rendered.mixed v _ _ => v

/-- The envelope of one voice for one frame. The result is `none` for a read
outside the six-entry arrays, `some none` for the jump to `delete_voice`, and
otherwise the new `envelope_value` and `envelope_phase`. -/
def envelope_step (sample : MDV_Sample) (v : Voice) : Option (Option (Nat × Nat)) :=
  match sample.envelope_rates[v.envelope_phase]?, sample.envelope_offsets[v.envelope_phase]? with
  | some rate0, some target0 =>
    let rate := rate0 % 2 ^ 32
    let target := target0 % 2 ^ 32
    let advance := if v.envelope_phase ≠ 2 then (v.envelope_phase + 1) % 256 else v.envelope_phase
    if target > v.envelope_value then
      if (v.envelope_value + rate) % 2 ^ 32 < target then
        some (some ((v.envelope_value + rate) % 2 ^ 32, v.envelope_phase))
      else if v.envelope_phase = 5 then some none
      else some (some (target, advance))
    else
      if (target + rate) % 2 ^ 32 < v.envelope_value then
        some (some ((v.envelope_value + 2 ^ 32 - rate) % 2 ^ 32, v.envelope_phase))
      else if v.envelope_phase = 5 ∨ target = 0 then some none
      else some (some (target, advance))
  | _, _ => none

/-- The stride `0x100000000LL * sample_rate / SAMPLE_RATE * freq / root_freq`,
computed in `long long`. -/
def stride (sample : MDV_Sample) (freq : Nat) : Option Int :=
  if sample.root_freq = 0 then none
  else
    some (Int.tdiv
      (wrap_signed 64
        (Int.tdiv (wrap_signed 64 (2 ^ 32 * (sample.sample_rate : Int))) (SAMPLE_RATE : Int)
          * (freq : Int)))
      (sample.root_freq : Int))

/-- The part "Do envelopes" of the voice loop. The result is `none` for a
read outside the envelope arrays, `some none` for the jump to `delete_voice`
and otherwise the voice with its new envelope. -/
def envelope_stage (no_envelope : Bool) (sample : MDV_Sample) (v : Voice) :
    Option (Option Voice) :=
  if no_envelope then some (some { v with envelope_value := 1023 <<< 20 })
  else
    match envelope_step sample v with
    | none => none
    | some none => some none
    | some (some (envelope_value, envelope_phase)) =>
      some (some { v with envelope_value := envelope_value, envelope_phase := envelope_phase })

/-- The part "Tremolo" of the voice loop: the two tremolo fields of the
voice. -/
def tremolo_stage (sample : MDV_Sample) (v : Voice) : Voice :=
  let sweep0 := wrap_signed 32 (v.tremolo_sweep_position + sample.tremolo_sweep_increment)
  let sweep : Int := if sweep0 > 65536 then 65536 else sweep0
  { v with
    tremolo_sweep_position := sweep
    tremolo_phase := wrap_signed 32 (v.tremolo_phase + sample.tremolo_phase_increment) }

/-- The local `tremolo_depth`, from the voice after `tremolo_stage`. -/
def tremolo_depth (sample : MDV_Sample) (v : Voice) : Int :=
  wrap_signed 32 (sample.tremolo_depth * 128 * v.tremolo_sweep_position)

/-- The part "Calculate new position": `sample_pos` minus or plus the stride,
in `uint64_t`. -/
def next_position (sample : MDV_Sample) (freq : Nat) (v : Voice) : Option Nat :=
  match stride sample freq with
  | none => none
  | some st =>
    if v.backwards ≠ 0 then some (((v.sample_pos : Int) - st) % 2 ^ 64).toNat
    else some (((v.sample_pos : Int) + st) % 2 ^ 64).toNat

/-- The part "Loop" of the voice loop, with the end-of-sample test of its
`else if`. The result is `none` for the jump to `delete_voice` and otherwise
the voice (its `backwards` flag may change) and the next position. -/
def loop_stage (no_loop : Bool) (sample : MDV_Sample) (v : Voice) (next_pos : Nat) :
    Option (Voice × Nat) :=
  if sample.loop ∧ ¬ no_loop then
    if v.backwards ≠ 0 then
      if next_pos ≤ (sample.loop_start * 2 ^ 32) % 2 ^ 64 then
        some ({ v with backwards := 0 },
          ((2 * sample.loop_start) % 2 ^ 32 * 2 ^ 32 + 2 ^ 64 - next_pos) % 2 ^ 64)
      else some (v, next_pos)
    else
      if v.sample_pos ≥ (sample.loop_end * 2 ^ 32) % 2 ^ 64 then
        if sample.pingpong then
          some ({ v with backwards := 1 },
            ((2 * sample.loop_end) % 2 ^ 32 * 2 ^ 32 + 2 ^ 64 - next_pos) % 2 ^ 64)
        else
          let loop_length := (sample.loop_end + 2 ^ 32 - sample.loop_start % 2 ^ 32) % 2 ^ 32
          some (v, (next_pos + 2 ^ 64 - loop_length * 2 ^ 32) % 2 ^ 64)
      else some (v, next_pos)
  else if v.sample_pos ≥ (sample.data.length * 2 ^ 32 + 2 ^ 64 - 1) % 2 ^ 64 then none
  else some (v, next_pos)

/-- The parts "Linear interpolation" and "Volume calculation": the (`int64_t`)
interpolated sample `samp` at `sample_pos`. -/
def interpolate (sample : MDV_Sample) (v : Voice) : Option Int :=
  match sample.data[v.sample_pos / 2 ^ 32]?, sample.data[v.sample_pos / 2 ^ 32 + 1]? with
  | some d0, some d1 =>
    let frac : Int := ((v.sample_pos % 2 ^ 32 : Nat) : Int)
    let samp0 := wrap_signed 64 ((d0 * (2 ^ 32 - frac)) % 2 ^ 64)
    some (wrap_signed 64 (samp0 + (d1 * frac) % 2 ^ 64))
  | _, _ => none

/-- The clamp of `envelope_value` before the volume is computed. -/
def clamp_envelope (v : Voice) : Voice :=
  if v.envelope_value > 1023 <<< 20 then { v with envelope_value := 1023 <<< 20 } else v

/-- The local `volume` (`uint32_t`): the integer gain of patch, channel and
velocity, scaled by the floating-point envelope and tremolo factors. -/
def voice_volume (t : Tables) (ch : Channel) (patch : MDV_Patch) (sample : MDV_Sample)
    (v : Voice) : Option Nat :=
  match vols_at t ch.volume, vols_at t ch.expression, vols_at t v.velocity with
  | some vol_c, some vol_e, some vol_v =>
    let gain :=
      ((((patch.volume % 2 ^ 32 * 128) % 2 ^ 32 * vol_c) % 2 ^ 32 / 65535 * vol_e)
          % 2 ^ 32 / 65535 * vol_v) % 2 ^ 32 / 65535
    some ((t.fvolume gain (v.envelope_value >>> 20)
      (Int.tmod (v.tremolo_phase / 32) 1024) (tremolo_depth sample v)) % 2 ^ 32)
  | _, _, _ => none

/-- The end of the patched branch: the value `val` (`uint64_t`) of the voice
is panned into the accumulators and the voice moves to `next_pos`. -/
def output_stage (t : Tables) (ch : Channel) (patch : MDV_Patch) (sample : MDV_Sample)
    (v : Voice) (next_pos : Nat) (left right : Int) : Option Rendered :=
  match interpolate sample v with
  | none => none
  | some samp =>
    let v1 := clamp_envelope v
    match voice_volume t ch patch sample v1 with
    | none => none
    | some volume =>
      let val : Int :=
        (Int.tdiv (wrap_signed 64 (Int.tdiv samp (2 ^ 32) * (volume : Int))) 65535) % 2 ^ 64
      let left1 := wrap_signed 32 (left + (val * ((64 + ch.pan) % 2 ^ 64) % 2 ^ 64) / 64)
      let right1 := wrap_signed 32 (right + (val * ((64 - ch.pan) % 2 ^ 64) % 2 ^ 64) / 64)
      some (Rendered.mixed { v1 with sample_pos := next_pos } left1 right1)

/-- The branch `if (v->patch)` of the voice loop, for a voice with patch
`patch`. -/
def render_patched (t : Tables) (ch : Channel) (no_envelope no_loop : Bool)
    (patch : MDV_Patch) (v : Voice) (left right : Int) : Option Rendered :=
  match patch.samples[v.sample_index]? with
  | none => none
  | some sample =>
    -- Account for pitch bend
    let freq := get_freq t (((v.note : Int) * 256 + Int.tdiv ch.pitch_bend 16) % 65536).toNat
    match envelope_stage no_envelope sample v with
    | none => none
    | some none => some (Rendered.deleted v)
    | some (some v1) =>
      let v2 := tremolo_stage sample v1
      match next_position sample freq v2 with
      | none => none
      | some next_pos0 =>
        match loop_stage no_loop sample v2 next_pos0 with
        | none => some (Rendered.deleted v2)
        | some (v3, next_pos) => output_stage t ch patch sample v3 next_pos left right

/-- The branch `else` of the voice loop: a square wave for a voice without a
patch. -/
def render_square (t : Tables) (ch : Channel) (v : Voice) (left right : Int) : Rendered :=
  let pos := v.sample_pos % 2 ^ 32
  let sign : Int := if pos < 2 ^ 31 then -1 else 1
  let val : Int :=
    (Int.tdiv (sign * v.velocity * ch.volume * ch.expression) (32 * 127)) % 2 ^ 32
  let freq := get_freq t (v.note <<< 8)
  let step :=
    Int.tdiv (Int.tdiv (wrap_signed 64 (2 ^ 32 * (freq : Int))) 1000) (SAMPLE_RATE : Int)
  Rendered.mixed { v with sample_pos := (((pos : Int) + step) % 2 ^ 64).toNat }
    (wrap_signed 32 (left + val)) (wrap_signed 32 (right + val))

/-- The body of the voice loop for the voice `v` of channel number `c`
(`ch` is that channel): first the read of `keep_envelope` and `keep_loop`
through `v->patch` on channel 9, then the test `if (v->patch)`. -/
def render_voice (t : Tables) (c : Nat) (ch : Channel) (v : Voice) (left right : Int) :
    Option Rendered :=
  let flags : Option (Bool × Bool) :=
    if c = 9 then
      match v.patch with
      | none => none
      | some patch => some (!patch.keep_envelope, !patch.keep_loop)
    else some (false, false)
  match flags with
  | none => none
  | some (no_envelope, no_loop) =>
    match v.patch with
    | some patch => render_patched t ch no_envelope no_loop patch v left right
    | none => some (render_square t ch v left right)

/-! ## The frame loop of `mdv_get_audio` -/

/-- The pointer `ip` of the voice loop: it points at the `voices` field of a
channel or at the `next` field of a voice. -/
inductive Slot where
  | head (c : Nat)
  | next (i : Nat)
  deriving DecidableEq, Repr

/-- The read `*ip`. -/
def ip_read (p : MDV_Player) : Slot → Nat
  | Slot.head c => (p.channels c).voices
  | Slot.next i => (p.voices i).next

/-- The write `*ip = x`. -/
def ip_write (p : MDV_Player) (ip : Slot) (x : Nat) : MDV_Player :=
  match ip with
  | Slot.head c =>
    { p with channels := Function.update p.channels c { p.channels c with voices := x } }
  | Slot.next i =>
    { p with voices := Function.update p.voices i { p.voices i with next := x } }

/-- The block `delete_voice` for the voice `i = *ip`: unlink it through `ip`
and push it on the inactive list. -/
def delete_voice (p : MDV_Player) (ip : Slot) (i : Nat) : MDV_Player :=
  let p1 := ip_write p ip (p.voices i).next
  { p1 with
    voices := Function.update p1.voices i { p1.voices i with next := p1.inactive }
    inactive := i }

/-- The voice loop of channel number `c`, from the pointer `ip` on, with the
accumulators `left` and `right`. The first argument bounds the number of
iterations. -/
def mix_channel (t : Tables) (c : Nat) :
    Nat → Slot → MDV_Player → Int → Int → Option (MDV_Player × Int × Int)
  | 0, ip, p, left, right => if ip_read p ip = 255 then some (p, left, right) else none
  | fuel + 1, ip, p, left, right =>
    let i := ip_read p ip
    if i = 255 then some (p, left, right)
    else
      match render_voice t c (p.channels c) (p.voices i) left right with
      | none => none
      | some (Rendered.deleted v) =>
        mix_channel t c fuel ip
          (delete_voice { p with voices := Function.update p.voices i v } ip i) left right
      | some (Rendered.mixed v left1 right1) =>
        mix_channel t c fuel (Slot.next i)
          { p with voices := Function.update p.voices i v } left1 right1

/-- The channel loop: channels `c, c + 1, ..., c + n - 1` in turn. -/
def mix_channels (t : Tables) :
    Nat → Nat → MDV_Player → Int → Int → Option (MDV_Player × Int × Int)
  | 0, _, p, left, right => some (p, left, right)
  | n + 1, c, p, left, right =>
    match mix_channel t c 255 (Slot.head c) p left right with
    | none => none
    | some (p1, left1, right1) => mix_channels t n (c + 1) p1 left1 right1

/-- Clipping of an accumulator to `int16_t`. -/
def clip (x : Int) : Int :=
  if x > 32767 then 32767 else if x < -32768 then -32768 else x

/-- The part of the frame after the comment "Now mix voices": all 16
channels, then the clipped frame and the clip counter. -/
def mix_voices (t : Tables) (p : MDV_Player) : Option (MDV_Player × Samp) :=
  match mix_channels t 16 0 p 0 0 with
  | none => none
  | some (p1, left, right) =>
    let l := clip left
    let r := clip right
    let n1 := if l = 32767 ∨ l = -32768 then 1 else 0
    let n2 := if r = 32767 ∨ r = -32768 then 1 else 0
    some ({ p1 with clip_count := ((p1.clip_count + n1) % 2 ^ 64 + n2) % 2 ^ 64 }, ⟨l, r⟩)

/-- The end of the body of the inner `while`, after `do_event`: `current`
moves to the next event; past the end of the array `done` is set, otherwise
`ticks_to_event` becomes the time of the new current event minus `old_time`,
in `uint32_t`. -/
def next_event (seq : MDV_Sequence) (old_time : Nat) (p : MDV_Player) : Option MDV_Player :=
  let p2 := { p with current := p.current + 1 }
  if p2.current ≥ seq.events.length then some { p2 with done := true }
  else
    match seq.events[p2.current]? with
    | none => none
    | some nxt =>
      some { p2 with
        ticks_to_event := (((nxt.time : Int) - (old_time : Int)) % 2 ^ 32).toNat }

/-- The inner `while` of the tick clock: dispatch the event at `current`
while the player is not done and `ticks_to_event` is 0. The result carries
the events handed to `do_event`, in order. The first argument bounds the
number of iterations. -/
def drain_events (t : Tables) (seq : MDV_Sequence) :
    Nat → MDV_Player → Option (MDV_Player × List MDV_Event)
  | 0, _ => none
  | fuel + 1, p =>
    if ¬ p.done ∧ p.ticks_to_event = 0 then
      match seq.events[p.current]? with
      | none => none
      | some cur =>
        match do_event t p cur.event with
        | none => none
        | some p1 =>
          match next_event seq cur.time p1 with
          | none => none
          | some p3 =>
            match drain_events t seq fuel p3 with
            | none => none
            | some (q, log) => some (q, cur.event :: log)
    else some (p, [])

/-- The part of the frame before the comment "Now mix voices": the tick
clock. The result carries the events dispatched in this frame. -/
def advance_timeline (t : Tables) (seq : MDV_Sequence) (p : MDV_Player) :
    Option (MDV_Player × List MDV_Event) :=
  let r : Option (MDV_Player × List MDV_Event) :=
    if ¬ p.done ∧ p.samples_to_tick = 0 then
      match drain_events t seq (seq.events.length + 1) p with
      | none => none
      | some (p1, log) =>
        some ({ p1 with
          ticks_to_event := (p1.ticks_to_event + 2 ^ 32 - 1) % 2 ^ 32
          samples_to_tick := p1.tick_length }, log)
    else some (p, [])
  match r with
  | none => none
  | some (p2, log) =>
    some ({ p2 with samples_to_tick := (p2.samples_to_tick + 2 ^ 32 - 1) % 2 ^ 32 }, log)

/-- What one iteration of the frame loop produces: the frame written to the
buffer and the events that were dispatched before it was mixed. -/
structure Frame where
  out : Samp
  dispatched : List MDV_Event
  deriving DecidableEq, Repr

/-- One iteration of the frame loop. -/
def render_frame (t : Tables) (seq : MDV_Sequence) (p : MDV_Player) :
    Option (MDV_Player × Frame) :=
  match advance_timeline t seq p with
  | none => none
  | some (p1, log) =>
    match mix_voices t p1 with
    | none => none
    | some (p2, out) => some (p2, ⟨out, log⟩)

/-- The frame loop: `n` frames. -/
def get_audio_frames (t : Tables) (seq : MDV_Sequence) :
    Nat → MDV_Player → Option (MDV_Player × List Frame)
  | 0, p => some (p, [])
  | n + 1, p =>
    match render_frame t seq p with
    | none => none
    | some (p1, f) =>
      match get_audio_frames t seq n p1 with
      | none => none
      | some (p2, fs) => some (p2, f :: fs)

/-- The function `mdv_get_audio` for a buffer of `len` bytes: the frames
written to the buffer, each with the events dispatched for it. -/
def mdv_get_audio (t : Tables) (player : MDV_Player) (len : Int) :
    Option (MDV_Player × List Frame) :=
  let n := (Int.tdiv len 4).toNat
  match player.seq with
  | none => some (player, List.replicate n ⟨⟨0, 0⟩, []⟩)
  | some seq =>
    if player.done then some (player, List.replicate n ⟨⟨0, 0⟩, []⟩)
    else get_audio_frames t seq n player

/-! ## `mdv_fast_forward_to_note` -/

/-- The loop of `mdv_fast_forward_to_note`. The result carries the events
handed to `do_event`, in order. The first argument bounds the number of
iterations. -/
def fast_forward_loop (t : Tables) (seq : MDV_Sequence) :
    Nat → MDV_Player → Option (MDV_Player × List MDV_Event)
  | 0, _ => none
  | fuel + 1, p =>
    if p.done then some (p, [])
    else
      match seq.events[p.current]? with
      | none => none
      | some cur =>
        if cur.event.type = MDV_Event_Type.MDV_NOTE_ON then some (p, [])
        else
          match do_event t p cur.event with
          | none => none
          | some p1 =>
            let p2 := { p1 with current := p1.current + 1 }
            let p3 := if p2.current ≥ seq.events.length then { p2 with done := true } else p2
            match fast_forward_loop t seq fuel p3 with
            | none => none
            | some (q, log) => some (q, cur.event :: log)

/-- The function `mdv_fast_forward_to_note`. -/
def mdv_fast_forward_to_note (t : Tables) (player : MDV_Player) :
    Option (MDV_Player × List MDV_Event) :=
  match player.seq with
  | none => some (player, [])
  | some seq =>
    fast_forward_loop t seq (seq.events.length + 1)
      { player with samples_to_tick := 1, ticks_to_event := 0 }

/-! ## The linked lists of the pool -/

/-- The chain of `next` indices: `Chain voices h l t` says that the walk that
starts at index `h` visits exactly the voices `l`, in this order, each of them
a slot of the pool (an index below 255), and then arrives at `t`. -/
def Chain (voices : Nat → Voice) : Nat → List Nat → Nat → Prop
  | h, [], t => h = t
  | h, a :: l, t => h = a ∧ a < 255 ∧ Chain voices (voices a).next l t

/-- A list of the pool: a chain that ends in the sentinel 255. Such a list is
finite, so the chain has no cycle. -/
def IsList (voices : Nat → Voice) (h : Nat) (l : List Nat) : Prop :=
  Chain voices h l 255

/-- The pool partition: `free` is the inactive list, `act c` the list of
channel `c`, no voice is on two of these 17 lists and every slot of the pool is
on one of them. -/
structure Pool (p : MDV_Player) (free : List Nat) (act : Nat → List Nat) : Prop where
  free_list : IsList p.voices p.inactive free
  act_list : ∀ c, c < 16 → IsList p.voices (p.channels c).voices (act c)
  free_act : ∀ c, c < 16 → ∀ i, i ∈ act c → i ∉ free
  act_act : ∀ c d, c < 16 → d < 16 → c ≠ d → ∀ i, i ∈ act c → i ∉ act d
  cover : ∀ i, i < 255 → i ∈ free ∨ ∃ c, c < 16 ∧ i ∈ act c

/-- All indices on the 17 lists, the inactive list first. -/
def all_listed (free : List Nat) (act : Nat → List Nat) : List Nat :=
  free ++ (List.range 16).flatMap act

instance Chain.decidable (voices : Nat → Voice) :
    (h : Nat) → (l : List Nat) → (t : Nat) → Decidable (Chain voices h l t)
  | h, [], t => inferInstanceAs (Decidable (h = t))
  | h, a :: l, t =>
    have := Chain.decidable voices (voices a).next l t
    inferInstanceAs (Decidable (h = a ∧ a < 255 ∧ Chain voices (voices a).next l t))

instance IsList.decidable (voices : Nat → Voice) (h : Nat) (l : List Nat) :
    Decidable (IsList voices h l) :=
  Chain.decidable voices h l 255

/-- The pointer `ip` of the voice loop of channel `c` after the voices `pre`
of the channel's list have been passed: it is the channel's head field when
`pre` is empty and the `next` field of the last voice of `pre` otherwise. -/
def SlotAt (c : Nat) (ip : Slot) (pre : List Nat) : Prop :=
  (ip = Slot.head c ∧ pre = []) ∨ ∃ j front, ip = Slot.next j ∧ pre = front ++ [j]

/-- The fields of the player that only the tick clock and
`mdv_play_sequence` write: `seq`, `current`, `samples_to_tick`,
`ticks_to_event` and `done`. -/
def clock (p : MDV_Player) : Option MDV_Sequence × Nat × Nat × Nat × Bool :=
  (p.seq, p.current, p.samples_to_tick, p.ticks_to_event, p.done)

/-- Some partition of the pool exists. -/
def PoolOK (p : MDV_Player) : Prop := ∃ free act, Pool p free act

/-! ## Concrete states for the examples -/

/-- Tables for the examples: a flat frequency table, linear volumes, and the
gain itself for the floating-point volume. -/
def tables0 : Tables :=
  { freqs := fun _ => 8176, vols := fun i => 516 * i, fvolume := fun gain _ _ _ => gain }

/-- A voice with all fields zero. -/
def voice0 : Voice :=
  { next := 0, note := 0, velocity := 0, sample_index := 0, backwards := 0,
    envelope_phase := 0, envelope_value := 0, tremolo_sweep_position := 0,
    tremolo_phase := 0, sample_pos := 0, patch := none }

/-- A channel with all fields zero. -/
def channel0 : Channel :=
  { program := 0, volume := 0, expression := 0, pan := 0, pitch_bend := 0, voices := 0,
    no_envelope := 0, no_loop := 0 }

/-- A player with an empty bank, no sequence and all fields zero. -/
def player0 : MDV_Player :=
  { tick_length := 0, seq := none, bank := { patches := fun _ => none, drums := fun _ => none },
    current := 0, samples_to_tick := 0, ticks_to_event := 0, done := false,
    channels := fun _ => channel0, inactive := 0, voices := fun _ => voice0, clip_count := 0 }

/-- The player `player0` after `mdv_reset_player`. -/
def fresh_player : MDV_Player := mdv_reset_player player0

/-- The event `NoteOn(ch, note, vel)`. -/
def note_on (ch note vel : Nat) : MDV_Event := ⟨MDV_Event_Type.MDV_NOTE_ON, ch, note, vel⟩

/-- The event `NoteOff(ch, note, p2)`. -/
def note_off (ch note p2 : Nat) : MDV_Event := ⟨MDV_Event_Type.MDV_NOTE_OFF, ch, note, p2⟩

/-- The event `ProgramChange(ch, prog, p2)`. -/
def program_change (ch prog p2 : Nat) : MDV_Event :=
  ⟨MDV_Event_Type.MDV_PROGRAM_CHANGE, ch, prog, p2⟩

/-- The event `SetTempo` with its three byte fields. -/
def set_tempo (b0 b1 b2 : Nat) : MDV_Event := ⟨MDV_Event_Type.MDV_SET_TEMPO, b0, b1, b2⟩

/-- Dispatch a list of events in order. -/
def do_events (t : Tables) : List MDV_Event → MDV_Player → Option MDV_Player
  | [], p => some p
  | e :: es, p =>
    match do_event t p e with
    | none => none
    | some q => do_events t es q

/-- The fresh player after `NoteOn(0, 60, 100)`, `NoteOn(0, 60, 90)` and
`NoteOn(3, 64, 80)`: channel 0 holds the voices 1 and 0, channel 3 the voice 2. -/
def three_notes : MDV_Player :=
  (do_events tables0 [note_on 0 60 100, note_on 0 60 90, note_on 3 64 80] fresh_player).getD
    player0

/-- A player whose pool is full: the free-list head is the sentinel. -/
def full_player : MDV_Player := { fresh_player with inactive := 255 }

/-- The event `Controller(ch, cc, val)`. -/
def controller (ch cc val : Nat) : MDV_Event := ⟨MDV_Event_Type.MDV_CONTROLLER, ch, cc, val⟩

/-- The event `PitchBend(ch, lo7, hi7)`. -/
def pitch_bend (ch lo7 hi7 : Nat) : MDV_Event := ⟨MDV_Event_Type.MDV_PITCH_BEND, ch, lo7, hi7⟩

/-- Tables for the examples whose frequency table is not flat. -/
def tables1 : Tables :=
  { freqs := fun i => 8176 + 32 * i, vols := fun i => 516 * i, fvolume := fun gain _ _ _ => gain }

/-- A sample whose `high_freq` is 0, so that no played frequency is below it. -/
def low_sample : MDV_Sample :=
  { high_freq := 0, sample_rate := 48000, root_freq := 440000, loop := false, pingpong := false,
    loop_start := 0, loop_end := 0, envelope_rates := [0, 0, 0, 0, 0, 0],
    envelope_offsets := [0, 0, 0, 0, 0, 0], tremolo_sweep_increment := 0,
    tremolo_phase_increment := 0, tremolo_depth := 0, data := [0, 0] }

/-- A sample whose `high_freq` is above every frequency of the examples. -/
def high_sample : MDV_Sample := { low_sample with high_freq := 4000000000 }

/-- A patch with two samples, none of which has `high_freq` above any
frequency. -/
def low_patch : MDV_Patch :=
  { note := -1, keep_envelope := false, keep_loop := false, volume := 100,
    samples := [low_sample, low_sample] }

/-- A patch whose second sample is the first with a high `high_freq`. -/
def split_patch : MDV_Patch := { low_patch with samples := [low_sample, high_sample] }

/-- The fresh player with `low_patch` as program 0 of every channel. -/
def low_player : MDV_Player :=
  { fresh_player with
    channels := fun c => { fresh_player.channels c with program := 0 }
    bank := { patches := fun i => if i = 0 then some low_patch else none, drums := fun _ => none } }

/-- The fresh player with `split_patch` as program 0 of every channel. -/
def split_player : MDV_Player :=
  { fresh_player with
    channels := fun c => { fresh_player.channels c with program := 0 }
    bank :=
      { patches := fun i => if i = 0 then some split_patch else none, drums := fun _ => none } }

/-- A sequence at 480 ticks per beat: a `SetTempo` of 500000 microseconds per
beat at tick 0 and a `NoteOn` one tick later. -/
def tempo_seq : MDV_Sequence :=
  { tpb := 480, events := [⟨0, set_tempo 7 161 32⟩, ⟨1, note_on 0 69 100⟩] }

/-- The fresh player after `mdv_play_sequence` on `tempo_seq`. -/
def tempo_player : MDV_Player := (mdv_play_sequence fresh_player tempo_seq).getD player0

/-- A channel with the controllers of a fresh player and the largest upward
pitch bend. -/
def bent_channel : Channel := { fresh_player.channels 0 with pitch_bend := 8191 }

/-- A voice without a patch that plays note 69. -/
def square_voice : Voice := { voice0 with next := 255, note := 69, velocity := 100 }

/-- The states of the player that can be reached from `mdv_reset_player` by
calls of `mdv_play_sequence`, `do_event`, `mdv_fast_forward_to_note` and
`mdv_get_audio` that return. -/
inductive Reachable (t : Tables) : MDV_Player → Prop where
  | reset (p : MDV_Player) : Reachable t (mdv_reset_player p)
  | play {p q : MDV_Player} (seq : MDV_Sequence) :
    Reachable t p → mdv_play_sequence p seq = some q → Reachable t q
  | event {p q : MDV_Player} (e : MDV_Event) :
    Reachable t p → do_event t p e = some q → Reachable t q
  | forward {p q : MDV_Player} (log : List MDV_Event) :
    Reachable t p → mdv_fast_forward_to_note t p = some (q, log) → Reachable t q
  | audio {p q : MDV_Player} (len : Int) (fs : List Frame) :
    Reachable t p → mdv_get_audio t p len = some (q, fs) → Reachable t q

/-- The player `three_notes` after `mdv_play_sequence` on `tempo_seq`. -/
def three_playing : MDV_Player := (mdv_play_sequence three_notes tempo_seq).getD player0

/-- The player `three_playing` after `mdv_get_audio` for a buffer of 8 bytes
(two frames). -/
def three_mixed : MDV_Player :=
  ((mdv_get_audio tables0 three_playing 8).map Prod.fst).getD player0

/-- A NoteOn with non-zero velocity on channel `ch`: the only event that
gives channel `ch` a voice. -/
def allocates_on (ch : Nat) (e : MDV_Event) : Prop :=
  e.type = MDV_Event_Type.MDV_NOTE_ON ∧ e.channel = ch ∧ e.param2 ≠ 0

/-- The runs of the player in which no NoteOn with non-zero velocity on channel
`ch` is dispatched: events given to `do_event` directly and whole frames of the
frame loop. -/
inductive QuietRun (t : Tables) (ch : Nat) : MDV_Player → MDV_Player → Prop where
  | refl (p : MDV_Player) : QuietRun t ch p p
  | event {p q s : MDV_Player} (e : MDV_Event) :
    QuietRun t ch p q → ¬ allocates_on ch e → do_event t q e = some s → QuietRun t ch p s
  | frame {p q s : MDV_Player} (seq : MDV_Sequence) (f : Frame) :
    QuietRun t ch p q → (∀ e, e ∈ f.dispatched → ¬ allocates_on ch e) →
    render_frame t seq q = some (s, f) → QuietRun t ch p s

/-- The events `events[a .. b)` of a sequence, in array order. -/
def event_slice (seq : MDV_Sequence) (a b : Nat) : List MDV_Event :=
  ((seq.events.drop a).take (b - a)).map (fun te => te.event)

/-- An event whose channel is inside `channels`: every event type that indexes
`channels` comes with a channel below 16. On a pool that is partitioned
`do_event` can take such an event when it is not a NoteOn, which also reads the
bank. -/
def dispatchable (e : MDV_Event) : Prop :=
  e.type = MDV_Event_Type.MDV_SET_TEMPO ∨ (∃ code, e.type = MDV_Event_Type.other code) ∨
    e.channel < 16

/-- A sequence with two events before its first NoteOn. -/
def forward_seq : MDV_Sequence :=
  { tpb := 480,
    events := [⟨0, set_tempo 7 161 32⟩, ⟨0, controller 0 7 100⟩, ⟨10, note_on 0 60 100⟩,
      ⟨20, note_off 0 60 0⟩] }

/-- The fresh player after `mdv_play_sequence` on `forward_seq`. -/
def forward_player : MDV_Player := (mdv_play_sequence fresh_player forward_seq).getD player0

/-- The local `ms_per_beat` of the `MDV_SET_TEMPO` case: the three byte fields
of the event packed into a `uint32_t`. -/
def ms_per_beat (e : MDV_Event) : Nat :=
  (e.channel <<< 16 ||| e.param1 <<< 8 ||| e.param2) % 2 ^ 32

/-- A tempo that is not faster than one tick per sample: for a SetTempo event
the number of samples per beat, `floor(48000 * usec / 1000000)`, is at least the
number of ticks per beat. Events of other types satisfy this trivially. -/
def slow_enough (tpb : Nat) (e : MDV_Event) : Prop :=
  e.type = MDV_Event_Type.MDV_SET_TEMPO → tpb ≤ SAMPLE_RATE * ms_per_beat e / 1000000

/-- The states reached from `mdv_play_sequence` on `seq` by dispatching events
whose tempo is slow enough, by fast-forwarding and by rendering frames. -/
inductive ClockRun (t : Tables) (seq : MDV_Sequence) : MDV_Player → Prop where
  | play {p q : MDV_Player} : mdv_play_sequence p seq = some q → ClockRun t seq q
  | event {p q : MDV_Player} (e : MDV_Event) :
    ClockRun t seq p → slow_enough seq.tpb e → do_event t p e = some q → ClockRun t seq q
  | forward {p q : MDV_Player} (log : List MDV_Event) :
    ClockRun t seq p → mdv_fast_forward_to_note t p = some (q, log) → ClockRun t seq q
  | audio {p q : MDV_Player} (len : Int) (fs : List Frame) :
    ClockRun t seq p → mdv_get_audio t p len = some (q, fs) → ClockRun t seq q

/-- A sequence with more ticks per beat than the default tempo has samples per
beat. -/
def fine_seq : MDV_Sequence := { tpb := 30000, events := [⟨0, note_on 0 60 100⟩] }

/-- A sequence at 24000 ticks per beat (one sample per tick at the default
tempo) with two pairs of simultaneous events. -/
def order_seq : MDV_Sequence :=
  { tpb := 24000,
    events := [⟨0, set_tempo 7 161 32⟩, ⟨0, note_on 0 69 100⟩, ⟨1, note_off 0 69 0⟩,
      ⟨1, note_on 1 60 90⟩] }

/-- The fresh player after `mdv_play_sequence` on `order_seq`. -/
def order_player : MDV_Player := (mdv_play_sequence fresh_player order_seq).getD player0

/-- The player `order_player` after `mdv_get_audio` for 16 bytes. -/
def order_played : MDV_Player :=
  ((mdv_get_audio tables0 order_player 16).map Prod.fst).getD player0

/-- The four frames that `mdv_get_audio` gives for 16 bytes on `order_player`. -/
def order_frames : List Frame :=
  ((mdv_get_audio tables0 order_player 16).map Prod.snd).getD []

/-- A player that waits for a tick of the sequence `seq`: the sequence is
bound, `done` is not set, no channel has a voice, and the clock holds the given
tick length, event index and countdowns. -/
structure Waiting (seq : MDV_Sequence) (p : MDV_Player) (len cur tte stt : Nat) : Prop where
  seq_bound : p.seq = some seq
  not_done : p.done = false
  tick : p.tick_length = len
  at_event : p.current = cur
  ticks : p.ticks_to_event = tte
  samples : p.samples_to_tick = stt
  silent : ∀ c, c < 16 → (p.channels c).voices = 255
  programs : ∀ c, c < 16 → (p.channels c).program < 128

/-- The sequence of the timing scenario: a `SetTempo` of 500000 microseconds
per beat at tick 0, followed `gap` ticks later by the event `e`. -/
def timing_seq (tpb gap : Nat) (e : MDV_Event) : MDV_Sequence :=
  { tpb := tpb, events := [⟨0, set_tempo 7 161 32⟩, ⟨gap, e⟩] }

/-- A frame of silence for which nothing was dispatched. -/
def idle_frame : Frame := ⟨⟨0, 0⟩, []⟩

/-- The envelope bounds of a voice: a phase that indexes the six-entry
envelope arrays and a value of at most `1023 << 20`. -/
def env_ok (v : Voice) : Prop := v.envelope_phase ≤ 5 ∧ v.envelope_value ≤ 1023 <<< 20

/-- The pool partition exists and every voice on a channel list has
`env_ok`. -/
def EnvOK (p : MDV_Player) : Prop :=
  ∃ free act, Pool p free act ∧ ∀ c, c < 16 → ∀ i, i ∈ act c → env_ok (p.voices i)

/-- A sample of two points, played at one point per frame for note 60 of
`tables0`, whose envelope targets are the largest `uint32_t`. With `loop` set
the loop is the whole sample. -/
def ramp_sample (loop : Bool) : MDV_Sample :=
  { high_freq := 0, sample_rate := 48000, root_freq := 261632, loop := loop, pingpong := false,
    loop_start := 0, loop_end := 2,
    envelope_rates := [4294967295, 4294967295, 4294967295, 4294967295, 4294967295, 4294967295],
    envelope_offsets := [4294967295, 4294967295, 4294967295, 4294967295, 4294967295, 4294967295],
    tremolo_sweep_increment := 0, tremolo_phase_increment := 0, tremolo_depth := 0,
    data := [0, 1000] }

/-- A patch whose only sample is `ramp_sample loop`. -/
def ramp_patch (loop : Bool) : MDV_Patch :=
  { note := -1, keep_envelope := true, keep_loop := true, volume := 100,
    samples := [ramp_sample loop] }

/-- A player with `ramp_patch loop` as program 0 of its bank. -/
def ramp_loaded (loop : Bool) : MDV_Player :=
  { player0 with
    bank :=
      { patches := fun i => if i = 0 then some (ramp_patch loop) else none,
        drums := fun _ => none } }

/-- The player `ramp_loaded loop` after `mdv_reset_player`. -/
def ramp_fresh (loop : Bool) : MDV_Player := mdv_reset_player (ramp_loaded loop)

/-- The player `ramp_fresh loop` after `NoteOn(0, 60, 100)` and
`mdv_play_sequence` on `tempo_seq`. -/
def ramp_player (loop : Bool) : MDV_Player :=
  ((do_event tables0 (ramp_fresh loop) (note_on 0 60 100)).bind
    (fun p => mdv_play_sequence p tempo_seq)).getD player0

/-- The player `ramp_player loop` after `mdv_get_audio` for one frame. -/
def ramp_mixed (loop : Bool) : MDV_Player :=
  ((mdv_get_audio tables0 (ramp_player loop) 4).map Prod.fst).getD player0

/-- The tick clock of a player that plays `timing_seq T N e`, with tick length
`len`, `r` frames before the frame for which `e` is dispatched: either the
`SetTempo` at index 0 is still to come, at the next tick, and `N` ticks of `len`
frames follow it, or `current` is at `e` and `ticks_to_event` ticks remain. No
field of the voice pool or of a channel is constrained. -/
structure Countdown (seq : MDV_Sequence) (N len : Nat) (p : MDV_Player) (r : Nat) : Prop where
  seq_bound : p.seq = some seq
  not_done : p.done = false
  tick : p.tick_length = len
  samples : p.samples_to_tick ≤ len
  phase : (p.current = 0 ∧ p.ticks_to_event = 0 ∧ r = p.samples_to_tick + N * len) ∨
    (p.current = 1 ∧ p.ticks_to_event ≤ N ∧ r = p.samples_to_tick + p.ticks_to_event * len)

/-- The fresh player after `mdv_play_sequence` on the timing sequence with
12000 ticks per beat (a tick of 2 frames) and `NoteOn(0, 69, 100)` one tick
after the `SetTempo`. -/
def timing_player : MDV_Player :=
  (mdv_play_sequence fresh_player (timing_seq 12000 1 (note_on 0 69 100))).getD player0

/-! ## Facts about chains -/

theorem chain_congr {v w : Nat → Voice} {l : List Nat} {h t : Nat}
    (hw : ∀ a, a ∈ l → (w a).next = (v a).next) (hc : Chain v h l t) : Chain w h l t := by
  induction l generalizing h with
  | nil => exact hc
  | cons a l ih =>
    obtain ⟨h1, h2, h3⟩ := hc
    refine ⟨h1, h2, ?_⟩
    rw [hw a (List.mem_cons_self a l)]
    exact ih (fun b hb => hw b (List.mem_cons_of_mem a hb)) h3

theorem chain_lt {v : Nat → Voice} {l : List Nat} {h t : Nat} (hc : Chain v h l t) :
    ∀ a, a ∈ l → a < 255 := by
  induction l generalizing h with
  | nil => intro a ha; cases ha
  | cons b l ih =>
    obtain ⟨_, h2, h3⟩ := hc
    intro a ha
    rcases List.mem_cons.mp ha with rfl | ha
    · exact h2
    · exact ih h3 a ha

theorem chain_append {v : Nat → Voice} {l1 l2 : List Nat} {h t : Nat} :
    Chain v h (l1 ++ l2) t ↔ ∃ m, Chain v h l1 m ∧ Chain v m l2 t := by
  induction l1 generalizing h with
  | nil =>
    constructor
    · intro hc; exact ⟨h, rfl, hc⟩
    · rintro ⟨m, hm, hc⟩
      have : h = m := hm
      subst this; exact hc
  | cons a l1 ih =>
    constructor
    · rintro ⟨h1, h2, h3⟩
      obtain ⟨m, hm1, hm2⟩ := ih.mp h3
      exact ⟨m, ⟨h1, h2, hm1⟩, hm2⟩
    · rintro ⟨m, ⟨h1, h2, h3⟩, hm2⟩
      exact ⟨h1, h2, ih.mpr ⟨m, h3, hm2⟩⟩

theorem chain_unique {v : Nat → Voice} {l1 l2 : List Nat} {h : Nat}
    (h1 : Chain v h l1 255) (h2 : Chain v h l2 255) : l1 = l2 := by
  induction l1 generalizing h l2 with
  | nil =>
    cases l2 with
    | nil => rfl
    | cons b l2 =>
      have e1 : h = 255 := h1
      obtain ⟨e2, e3, _⟩ := h2
      omega
  | cons a l1 ih =>
    cases l2 with
    | nil =>
      have e1 : h = 255 := h2
      obtain ⟨e2, e3, _⟩ := h1
      omega
    | cons b l2 =>
      obtain ⟨a1, _, a3⟩ := h1
      obtain ⟨b1, _, b3⟩ := h2
      have hab : a = b := by omega
      subst hab
      rw [ih a3 b3]

theorem chain_nodup {v : Nat → Voice} {l : List Nat} {h : Nat} (hc : Chain v h l 255) :
    l.Nodup := by
  induction l generalizing h with
  | nil => exact List.nodup_nil
  | cons a l ih =>
    obtain ⟨_, _, h3⟩ := hc
    refine List.nodup_cons.mpr ⟨?_, ih h3⟩
    intro ha
    obtain ⟨l1, l2, rfl⟩ := List.append_of_mem ha
    obtain ⟨m, _, hm2⟩ := chain_append.mp h3
    obtain ⟨_, _, h4⟩ := hm2
    have := congrArg List.length (chain_unique h3 h4)
    simp at this
    omega

theorem chain_length_le {v : Nat → Voice} {l : List Nat} {h : Nat} (hc : Chain v h l 255) :
    l.length ≤ 255 := by
  have hsub : l ⊆ List.range 255 := fun a ha => List.mem_range.mpr (chain_lt hc a ha)
  have := (List.subperm_of_subset (chain_nodup hc) hsub).length_le
  simpa using this

theorem chain_head {v : Nat → Voice} {l : List Nat} {h : Nat} (hc : Chain v h l 255)
    (hh : h ≠ 255) : ∃ rest, l = h :: rest ∧ h < 255 ∧ Chain v (v h).next rest 255 := by
  cases l with
  | nil => exact absurd hc hh
  | cons a rest =>
    obtain ⟨h1, h2, h3⟩ := hc
    subst h1
    exact ⟨rest, rfl, h2, h3⟩

/-! ## NoteOn and NoteOff -/

theorem note_off_scan_spec (note : Nat) (v : Nat → Voice) :
    ∀ (l : List Nat) (fuel h : Nat), Chain v h l 255 → l.length ≤ fuel →
      note_off_scan note fuel h v = some
        (match l.find? (fun i => decide ((v i).note = note ∧ (v i).envelope_phase < 3)) with
         | some i => Function.update v i { v i with envelope_phase := 3 }
         | none => v) := by
  intro l
  induction l with
  | nil =>
    intro fuel h hc _
    have hh : h = 255 := hc
    subst hh
    cases fuel <;> simp [note_off_scan]
  | cons a l ih =>
    intro fuel h hc hlen
    obtain ⟨h1, h2, h3⟩ := hc
    subst h1
    cases fuel with
    | zero => simp at hlen
    | succ fuel =>
      have hne : h ≠ 255 := by omega
      by_cases hm : (v h).note = note ∧ (v h).envelope_phase < 3
      · simp [note_off_scan, hne, hm, List.find?]
      · have hm2 : ¬ ((v h).note = note ∧ (v h).envelope_phase < 3) := hm
        simp only [note_off_scan, hne, if_false, hm2]
        rw [ih fuel (v h).next h3 (by simpa using hlen)]
        simp [List.find?, hm2]

theorem bank_patch_inside (bank : MDV_Bank) (ch note program : Nat)
    (hnote : ch = 9 → note < 128) (hprog : ch ≠ 9 → program < 128) :
    bank_patch bank ch note program
      = some (if ch = 9 then bank.drums note else bank.patches program) := by
  unfold bank_patch drum_at patch_at
  by_cases h9 : ch = 9
  · simp only [h9, if_true, hnote h9]
  · simp only [h9, if_false, hprog h9, if_true]

/-- C2. NoteOn allocation: with a free voice (`inactive != 255`), a non-zero
velocity, a channel below 16 and an index inside the 128-entry array of the bank
that the event reads (the note on channel 9, the channel's program elsewhere),
`do_event` pops the head of the inactive list (`inactive` becomes its old
`next`), makes it the head of the channel's list with the previous list as its
tail, initialises all its fields (the patch is `bank.drums[note]` on channel 9
and `bank.patches[program]` elsewhere, the note is the patch's fixed note when
it has one, the sample index is the one the selection loop computes), and
leaves every other voice, every other channel, the other fields of the channel
and the rest of the player as they were. With the index outside the array the
read is outside the bank and `do_event` is undefined. -/
theorem note_on_allocates (t : Tables) (p : MDV_Player) (ch note vel : Nat)
    (hfree : p.inactive ≠ 255) (hvel : vel ≠ 0) (hch : ch < 16)
    (hnote : ch = 9 → note < 128) (hprog : ch ≠ 9 → (p.channels ch).program < 128) :
    ∃ q, do_event t p (note_on ch note vel) = some q ∧
      q.inactive = (p.voices p.inactive).next ∧
      (q.channels ch).voices = p.inactive ∧
      (q.voices p.inactive).next = (p.channels ch).voices ∧
      (q.voices p.inactive).backwards = 0 ∧
      (q.voices p.inactive).sample_pos = 0 ∧
      (q.voices p.inactive).envelope_phase = 0 ∧
      (q.voices p.inactive).envelope_value = 0 ∧
      (q.voices p.inactive).tremolo_sweep_position = 0 ∧
      (q.voices p.inactive).tremolo_phase = 0 ∧
      (q.voices p.inactive).velocity = vel ∧
      (q.voices p.inactive).patch =
        (if ch = 9 then p.bank.drums note else p.bank.patches (p.channels ch).program) ∧
      (∀ pt, (q.voices p.inactive).patch = some pt → 0 ≤ pt.note →
        ((q.voices p.inactive).note : Int) = pt.note % 256) ∧
      (∀ pt, (q.voices p.inactive).patch = some pt → pt.note < 0 →
        (q.voices p.inactive).note = note) ∧
      ((q.voices p.inactive).patch = none → (q.voices p.inactive).note = note) ∧
      (∀ pt, (q.voices p.inactive).patch = some pt →
        (q.voices p.inactive).sample_index =
          choose_sample (get_freq t ((q.voices p.inactive).note <<< 8)) pt.samples 0 0) ∧
      ((q.voices p.inactive).patch = none → (q.voices p.inactive).sample_index = 0) ∧
      (∀ j, j ≠ p.inactive → q.voices j = p.voices j) ∧
      (∀ c, c ≠ ch → q.channels c = p.channels c) ∧
      q.channels ch = { p.channels ch with voices := p.inactive } ∧
      q.tick_length = p.tick_length ∧ q.seq = p.seq ∧ q.bank = p.bank ∧
      q.current = p.current ∧ q.samples_to_tick = p.samples_to_tick ∧
      q.ticks_to_event = p.ticks_to_event ∧ q.done = p.done ∧
      q.clip_count = p.clip_count := by
  simp only [do_event, note_on, hvel, hfree, hch, if_true, if_false, ne_eq, not_false_eq_true,
    bank_patch_inside p.bank ch note _ hnote hprog]
  refine ⟨_, rfl, ?_⟩
  · simp only [Function.update_same, true_and, new_voice]
    generalize (if ch = 9 then p.bank.drums note else p.bank.patches (p.channels ch).program)
      = patch
    refine ⟨?_, ?_, ?_, ?_, ?_, ?_, ?_⟩
    · intro pt hpt hn
      subst hpt
      simp only [ge_iff_le, hn, if_true]
      rw [Int.toNat_of_nonneg (Int.emod_nonneg _ (by norm_num))]
    · intro pt hpt hn
      subst hpt
      have : ¬ (0 ≤ pt.note) := by omega
      simp only [ge_iff_le, this, if_false]
    · intro hpt
      subst hpt
      rfl
    · intro pt hpt
      subst hpt
      rfl
    · intro hpt
      subst hpt
      rfl
    · intro j hj
      exact Function.update_noteq hj _ _
    · exact ⟨fun c hc => Function.update_noteq hc _ _, trivial⟩

/-- C2, witness: on the fresh player, `NoteOn(0, 60, 100)` takes voice 0 from
the inactive list. -/
theorem note_on_allocates_witness :
    fresh_player.inactive ≠ 255 ∧ (100 : Nat) ≠ 0 ∧ (0 : Nat) < 16 ∧
    ((0 : Nat) = 9 → (60 : Nat) < 128) ∧
    ((0 : Nat) ≠ 9 → (fresh_player.channels 0).program < 128) ∧
    ∃ q, do_event tables0 fresh_player (note_on 0 60 100) = some q ∧
      q.inactive = 1 ∧ (q.channels 0).voices = 0 ∧ (q.voices 0).next = 255 ∧
      (q.voices 0).velocity = 100 := by
  refine ⟨by decide, by decide, by decide, by decide, by decide, ?_⟩
  obtain ⟨q, h, h1, h2, h3, _, _, _, _, _, _, h4, _⟩ :=
    note_on_allocates tables0 fresh_player 0 60 100 (by decide) (by decide) (by decide)
      (by decide) (by decide)
  exact ⟨q, h, h1, h2, h3, h4⟩

/-- C3. NoteOff release: on a channel `ch != 9` (below 16) whose voice list is
`l`, `do_event` puts into phase 3 the first voice of `l`, in list order, whose
note is the event's note and whose `envelope_phase` is below 3, and changes
nothing else in the player; when `l` has no such voice the player is
unchanged. -/
theorem note_off_releases_first (t : Tables) (p : MDV_Player) (ch note p2 : Nat)
    (l : List Nat) (hch : ch < 16) (h9 : ch ≠ 9)
    (hl : IsList p.voices (p.channels ch).voices l) :
    do_event t p (note_off ch note p2) = some
      (match l.find? (fun i =>
          decide ((p.voices i).note = note ∧ (p.voices i).envelope_phase < 3)) with
       | some i =>
         { p with voices := Function.update p.voices i { p.voices i with envelope_phase := 3 } }
       | none => p) := by
  simp only [do_event, note_off, do_note_off, h9, hch, ne_eq, not_false_eq_true, if_true]
  rw [note_off_scan_spec note p.voices l 255 _ hl (chain_length_le hl)]
  cases l.find? (fun i => decide ((p.voices i).note = note ∧ (p.voices i).envelope_phase < 3))
    <;> rfl

/-- C4. A full pool drops the note: when `inactive` is 255, a NoteOn with a
non-zero velocity leaves the whole player unchanged. -/
theorem note_on_full_pool_dropped (t : Tables) (p : MDV_Player) (ch note vel : Nat)
    (hvel : vel ≠ 0) (hfull : p.inactive = 255) :
    do_event t p (note_on ch note vel) = some p := by
  simp [do_event, note_on, hvel, hfull]

/-- C4, witness: `NoteOn(0, 60, 100)` on a player with a full pool. -/
theorem note_on_full_pool_dropped_witness :
    (100 : Nat) ≠ 0 ∧ full_player.inactive = 255 ∧
    do_event tables0 full_player (note_on 0 60 100) = some full_player :=
  ⟨by decide, rfl, note_on_full_pool_dropped tables0 full_player 0 60 100 (by decide) rfl⟩

/-- C3, witness: in `three_notes` channel 0 holds the voices 1 and 0, both
with note 60 in phase 0; `NoteOff(0, 60, 0)` releases voice 1 only. -/
theorem note_off_releases_first_witness :
    (0 : Nat) < 16 ∧ (0 : Nat) ≠ 9 ∧
    IsList three_notes.voices (three_notes.channels 0).voices [1, 0] ∧
    do_event tables0 three_notes (note_off 0 60 0) = some
      { three_notes with
        voices := Function.update three_notes.voices 1
          { three_notes.voices 1 with envelope_phase := 3 } } :=
  ⟨by decide, by decide, by decide,
    note_off_releases_first tables0 three_notes 0 60 0 [1, 0] (by decide) (by decide)
      (by decide)⟩

/-! ## The pool partition is preserved -/

theorem chain_range (v : Nat → Voice) (hv : ∀ i, i < 255 → (v i).next = i + 1) :
    ∀ (n k : Nat), k + n = 255 → Chain v k (List.range' k n) 255 := by
  intro n
  induction n with
  | zero => intro k hk; simpa [Chain, List.range'] using hk
  | succ n ih =>
    intro k hk
    refine ⟨rfl, by omega, ?_⟩
    rw [hv k (by omega)]
    exact ih (k + 1) (by omega)

theorem pool_reset (p : MDV_Player) :
    Pool (mdv_reset_player p) (List.range 255) (fun _ => []) := by
  refine ⟨?_, ?_, ?_, ?_, ?_⟩
  · rw [List.range_eq_range']
    refine chain_range _ ?_ 255 0 (by omega)
    intro i hi
    simp [mdv_reset_player, hi]
  · intro c hc
    simp [mdv_reset_player, hc, IsList, Chain]
  · intro c _ i hi
    cases hi
  · intro c d _ _ _ i hi
    cases hi
  · intro i hi
    exact Or.inl (List.mem_range.mpr hi)

theorem pool_congr {p q : MDV_Player} {free : List Nat} {act : Nat → List Nat}
    (hp : Pool p free act) (hi : q.inactive = p.inactive)
    (hc : ∀ c, c < 16 → (q.channels c).voices = (p.channels c).voices)
    (hv : ∀ i, (q.voices i).next = (p.voices i).next) : Pool q free act := by
  refine ⟨?_, ?_, hp.free_act, hp.act_act, hp.cover⟩
  · have := hp.free_list
    unfold IsList at this ⊢
    rw [hi]
    exact chain_congr (fun a _ => hv a) this
  · intro c hc16
    have := hp.act_list c hc16
    unfold IsList at this ⊢
    rw [hc c hc16]
    exact chain_congr (fun a _ => hv a) this

theorem pool_note_on {p : MDV_Player} {free : List Nat} {act : Nat → List Nat}
    (hp : Pool p free act) (hfree : p.inactive ≠ 255) {ch : Nat} (hch : ch < 16) (v : Voice)
    (hv : v.next = (p.channels ch).voices) :
    Pool
      { p with
        inactive := (p.voices p.inactive).next
        channels := Function.update p.channels ch { p.channels ch with voices := p.inactive }
        voices := Function.update p.voices p.inactive v }
      free.tail (Function.update act ch (p.inactive :: act ch)) := by
  obtain ⟨rest, hrest, hlt, hchain⟩ := chain_head hp.free_list hfree
  have hnd : (p.inactive :: rest).Nodup := hrest ▸ chain_nodup hp.free_list
  have hnot : p.inactive ∉ rest := (List.nodup_cons.mp hnd).1
  have hfa : ∀ c, c < 16 → p.inactive ∉ act c := by
    intro c hc hmem
    exact hp.free_act c hc _ hmem (by rw [hrest]; exact List.mem_cons_self _ _)
  refine ⟨?_, ?_, ?_, ?_, ?_⟩
  · show Chain _ _ _ 255
    rw [hrest]
    refine chain_congr ?_ hchain
    intro a ha
    have : a ≠ p.inactive := fun h => hnot (h ▸ ha)
    simp [Function.update_noteq this]
  · intro c hc
    show Chain _ _ _ 255
    by_cases hcc : c = ch
    · subst hcc
      simp only [Function.update_same]
      refine ⟨rfl, hlt, ?_⟩
      rw [Function.update_same, hv]
      refine chain_congr ?_ (hp.act_list c hc)
      intro a ha
      have : a ≠ p.inactive := fun h => hfa c hc (h ▸ ha)
      simp [Function.update_noteq this]
    · simp only [Function.update_noteq hcc]
      refine chain_congr ?_ (hp.act_list c hc)
      intro a ha
      have : a ≠ p.inactive := fun h => hfa c hc (h ▸ ha)
      simp [Function.update_noteq this]
  · intro c hc i hi hmem
    rw [hrest] at hmem
    simp only [List.tail_cons] at hmem
    by_cases hcc : c = ch
    · subst hcc
      simp only [Function.update_same] at hi
      rcases List.mem_cons.mp hi with rfl | hi
      · exact hnot hmem
      · exact hp.free_act c hc i hi (by rw [hrest]; exact List.mem_cons_of_mem _ hmem)
    · simp only [Function.update_noteq hcc] at hi
      exact hp.free_act c hc i hi (by rw [hrest]; exact List.mem_cons_of_mem _ hmem)
  · intro c d hc hd hcd i hi hmem
    by_cases hcc : c = ch
    · subst hcc
      have hdc : d ≠ c := fun h => hcd h.symm
      simp only [Function.update_same] at hi
      simp only [Function.update_noteq hdc] at hmem
      rcases List.mem_cons.mp hi with rfl | hi
      · exact hfa d hd hmem
      · exact hp.act_act c d hc hd hcd i hi hmem
    · simp only [Function.update_noteq hcc] at hi
      by_cases hdd : d = ch
      · subst hdd
        simp only [Function.update_same] at hmem
        rcases List.mem_cons.mp hmem with rfl | hmem
        · exact hfa c hc hi
        · exact hp.act_act c d hc hd hcd i hi hmem
      · simp only [Function.update_noteq hdd] at hmem
        exact hp.act_act c d hc hd hcd i hi hmem
  · intro i hi
    rcases hp.cover i hi with hfr | ⟨c, hc, hmem⟩
    · rw [hrest] at hfr
      rcases List.mem_cons.mp hfr with rfl | hfr
      · exact Or.inr ⟨ch, hch, by simp⟩
      · exact Or.inl (by rw [hrest]; simpa using hfr)
    · refine Or.inr ⟨c, hc, ?_⟩
      by_cases hcc : c = ch
      · subst hcc
        simp [hmem]
      · simpa [Function.update_noteq hcc] using hmem

theorem chain_snoc {v : Nat → Voice} {l : List Nat} {h j m : Nat} :
    Chain v h (l ++ [j]) m ↔ Chain v h l j ∧ j < 255 ∧ (v j).next = m := by
  rw [chain_append]
  constructor
  · rintro ⟨k, h1, h2, h3, h4⟩
    have h4 : (v j).next = m := h4
    subst h2
    exact ⟨h1, h3, h4⟩
  · rintro ⟨h1, h2, h3⟩
    exact ⟨j, h1, rfl, h2, h3⟩

theorem slot_chain {p : MDV_Player} {c : Nat} {ip : Slot} {pre rest : List Nat}
    (hip : SlotAt c ip pre) (hc : Chain p.voices (p.channels c).voices (pre ++ rest) 255) :
    Chain p.voices (ip_read p ip) rest 255 := by
  rcases hip with ⟨rfl, rfl⟩ | ⟨j, front, rfl, rfl⟩
  · simpa [ip_read] using hc
  · obtain ⟨m, h1, h2⟩ := chain_append.mp hc
    obtain ⟨_, _, h3⟩ := chain_snoc.mp h1
    simpa [ip_read, h3] using h2

theorem pool_delete {p : MDV_Player} {free : List Nat} {act : Nat → List Nat}
    (hp : Pool p free act) {c : Nat} (hc : c < 16) {ip : Slot} {pre rest : List Nat} {i : Nat}
    (hact : act c = pre ++ i :: rest) (hip : SlotAt c ip pre) :
    Pool (delete_voice p ip i) (i :: free) (Function.update act c (pre ++ rest)) := by
  have hcl : Chain p.voices (p.channels c).voices (pre ++ i :: rest) 255 := by
    have := hp.act_list c hc
    rwa [hact] at this
  have hnd : (pre ++ i :: rest).Nodup := chain_nodup hcl
  have hnd2 := List.nodup_middle.mp hnd
  have hi_not : i ∉ pre ++ rest := (List.nodup_cons.mp hnd2).1
  have hilt : i < 255 := chain_lt hcl i (by simp)
  have himem : i ∈ act c := by simp [hact]
  have hifree : i ∉ free := hp.free_act c hc i himem
  have hiact : ∀ d, d < 16 → d ≠ c → i ∉ act d :=
    fun d hd hdc => hp.act_act c d hc hd (Ne.symm hdc) i himem
  have hsub : ∀ d, d < 16 → ∀ x, x ∈ Function.update act c (pre ++ rest) d →
      x ∈ act d ∧ x ≠ i := by
    intro d hd x hx
    by_cases hdc : d = c
    · subst hdc
      simp only [Function.update_same] at hx
      refine ⟨?_, fun h => hi_not (h ▸ hx)⟩
      rw [hact]
      rcases List.mem_append.mp hx with h | h
      · exact List.mem_append_left _ h
      · exact List.mem_append_right _ (List.mem_cons_of_mem _ h)
    · simp only [Function.update_noteq hdc] at hx
      exact ⟨hx, fun h => hiact d hd hdc (h ▸ hx)⟩
  have hsup : ∀ d, ∀ x, x ∈ act d → x ≠ i → x ∈ Function.update act c (pre ++ rest) d := by
    intro d x hx hxi
    by_cases hdc : d = c
    · subst hdc
      simp only [Function.update_same]
      rw [hact] at hx
      rcases List.mem_append.mp hx with h | h
      · exact List.mem_append_left _ h
      · rcases List.mem_cons.mp h with h | h
        · exact absurd h hxi
        · exact List.mem_append_right _ h
    · simpa [Function.update_noteq hdc] using hx
  -- the links of the voices other than `i` and the voice behind `ip`
  have hfree_chain : ∀ w : Nat → Voice, (∀ a, a ∈ free → (w a).next = (p.voices a).next) →
      (w i).next = p.inactive → Chain w i (i :: free) 255 := by
    intro w hw hwi
    refine ⟨rfl, hilt, ?_⟩
    rw [hwi]
    exact chain_congr hw hp.free_list
  refine ⟨?_, ?_, ?_, ?_, ?_⟩
  · rcases hip with ⟨rfl, rfl⟩ | ⟨j, front, rfl, rfl⟩
    · refine hfree_chain _ ?_ ?_
      · intro a ha
        have : a ≠ i := fun h => hifree (h ▸ ha)
        simp [delete_voice, ip_write, Function.update_noteq this]
      · simp [delete_voice, ip_write]
    · have hji : j ≠ i := fun h => hi_not (by simp [h])
      have hjmem : j ∈ act c := by simp [hact]
      refine hfree_chain _ ?_ ?_
      · intro a ha
        have h1 : a ≠ i := fun h => hifree (h ▸ ha)
        have h2 : a ≠ j := fun h => hp.free_act c hc j hjmem (h ▸ ha)
        simp [delete_voice, ip_write, Function.update_noteq h1, Function.update_noteq h2]
      · simp [delete_voice, ip_write]
  · intro d hd
    show Chain _ _ _ 255
    rcases hip with ⟨rfl, rfl⟩ | ⟨j, front, rfl, rfl⟩
    · by_cases hdc : d = c
      · subst hdc
        obtain ⟨h1, _, h3⟩ := hcl
        simp only [delete_voice, ip_write, Function.update_same, List.nil_append]
        refine chain_congr ?_ h3
        intro a ha
        have : a ≠ i := fun h => hi_not (by simpa [h] using ha)
        simp [Function.update_noteq this]
      · simp only [delete_voice, ip_write, Function.update_noteq hdc]
        refine chain_congr ?_ (hp.act_list d hd)
        intro a ha
        have : a ≠ i := fun h => hiact d hd hdc (h ▸ ha)
        simp [Function.update_noteq this]
    · have hji : j ≠ i := fun h => hi_not (by simp [h])
      have hjmem : j ∈ act c := by simp [hact]
      by_cases hdc : d = c
      · subst hdc
        obtain ⟨m, h1, h2⟩ := chain_append.mp hcl
        obtain ⟨h3, h4, h5⟩ := chain_snoc.mp h1
        obtain ⟨h6, _, h7⟩ := h2
        have hnd3 : (front ++ [j] ++ rest).Nodup := (List.nodup_cons.mp hnd2).2
        have hj_front : j ∉ front := by
          intro h
          have := List.nodup_append.mp hnd3
          have := List.nodup_append.mp this.1
          exact this.2.2 h (by simp) 
        have hj_rest : j ∉ rest := by
          intro h
          have := List.nodup_append.mp hnd3
          exact this.2.2 (by simp) h
        simp only [delete_voice, ip_write, Function.update_same]
        refine chain_append.mpr ⟨(p.voices i).next, chain_snoc.mpr ⟨?_, h4, ?_⟩, ?_⟩
        · refine chain_congr ?_ h3
          intro a ha
          have e1 : a ≠ i := fun h => hi_not (by simp [← h, ha])
          have e2 : a ≠ j := fun h => hj_front (h ▸ ha)
          simp [Function.update_noteq e1, Function.update_noteq e2]
        · simp [Function.update_noteq hji]
        · refine chain_congr ?_ h7
          intro a ha
          have e1 : a ≠ i := fun h => hi_not (by simp [← h, ha])
          have e2 : a ≠ j := fun h => hj_rest (h ▸ ha)
          simp [Function.update_noteq e1, Function.update_noteq e2]
      · simp only [delete_voice, ip_write, Function.update_noteq hdc]
        refine chain_congr ?_ (hp.act_list d hd)
        intro a ha
        have e1 : a ≠ i := fun h => hiact d hd hdc (h ▸ ha)
        have e2 : a ≠ j := fun h => hp.act_act c d hc hd (Ne.symm hdc) j hjmem (h ▸ ha)
        simp [Function.update_noteq e1, Function.update_noteq e2]
  · intro d hd x hx hmem
    obtain ⟨h1, h2⟩ := hsub d hd x hx
    rcases List.mem_cons.mp hmem with h | h
    · exact h2 h
    · exact hp.free_act d hd x h1 h
  · intro d e hd he hde x hx hmem
    exact hp.act_act d e hd he hde x (hsub d hd x hx).1 (hsub e he x hmem).1
  · intro x hx
    by_cases hxi : x = i
    · exact Or.inl (by simp [hxi])
    · rcases hp.cover x hx with h | ⟨d, hd, h⟩
      · exact Or.inl (List.mem_cons_of_mem _ h)
      · exact Or.inr ⟨d, hd, hsup d x h hxi⟩

/-! ## The dispatcher: tempo, controllers, pitch bend, note events -/

theorem bytes_or_eq (b0 b1 b2 : Nat) (h1 : b1 < 256) (h2 : b2 < 256) :
    b0 <<< 16 ||| b1 <<< 8 ||| b2 = b0 * 65536 + b1 * 256 + b2 := by
  have e1 : b0 <<< 16 ||| b1 <<< 8 = 2 ^ 16 * b0 + b1 * 256 := by
    rw [Nat.mul_add_lt_is_or (by omega) b0]
    simp only [Nat.shiftLeft_eq]
    congr 1
    ring
  have e2 : 2 ^ 16 * b0 + b1 * 256 = 2 ^ 8 * (256 * b0 + b1) := by ring
  rw [e1, e2, ← Nat.mul_add_lt_is_or (by omega) _]
  ring

theorem or7_eq (hi lo : Nat) (h : lo < 128) : hi <<< 7 ||| lo = hi * 128 + lo := by
  have e : hi <<< 7 = 2 ^ 7 * hi := by rw [Nat.shiftLeft_eq]; ring
  rw [e, ← Nat.mul_add_lt_is_or (by omega) _]
  ring

theorem wrap_signed_8 (x : Int) (h1 : -128 ≤ x) (h2 : x < 128) : wrap_signed 8 x = x := by
  unfold wrap_signed
  norm_num
  omega

theorem wrap_signed_16 (x : Int) (h1 : -32768 ≤ x) (h2 : x < 32768) : wrap_signed 16 x = x := by
  unfold wrap_signed
  norm_num
  omega

/-- C11. SetTempo: with a bound sequence of non-zero `tpb` and byte fields
`b0, b1, b2`, `do_event` sets `tick_length` to
`floor(floor(48000 * usec / 1000000) / tpb)` for
`usec = b0 * 65536 + b1 * 256 + b2` and changes no other field; the product
`48000 * usec` stays below `2^64`. -/
theorem set_tempo_sets_tick_length (t : Tables) (p : MDV_Player) (seq : MDV_Sequence)
    (b0 b1 b2 : Nat) (hseq : p.seq = some seq) (htpb : seq.tpb ≠ 0)
    (h0 : b0 < 256) (h1 : b1 < 256) (h2 : b2 < 256) :
    do_event t p (set_tempo b0 b1 b2) = some
      { p with tick_length := 48000 * (b0 * 65536 + b1 * 256 + b2) / 1000000 / seq.tpb } ∧
    48000 * (b0 * 65536 + b1 * 256 + b2) < 2 ^ 64 := by
  have hb := bytes_or_eq b0 b1 b2 h1 h2
  have hlt : b0 * 65536 + b1 * 256 + b2 < 2 ^ 32 := by omega
  have hdiv : 48000 * (b0 * 65536 + b1 * 256 + b2) / 1000000 / seq.tpb < 2 ^ 32 := by
    have h3 : 48000 * (b0 * 65536 + b1 * 256 + b2) / 1000000 < 2 ^ 32 := by omega
    exact lt_of_le_of_lt (Nat.div_le_self _ _) h3
  refine ⟨?_, by omega⟩
  simp only [do_event, set_tempo, hseq, htpb, if_false, hb, SAMPLE_RATE,
    Nat.mod_eq_of_lt hlt, Nat.mod_eq_of_lt hdiv]

/-- C11, witness: `SetTempo(0x07, 0xA1, 0x20)` at 480 ticks per beat gives a
`tick_length` of 50. -/
theorem set_tempo_sets_tick_length_witness :
    tempo_player.seq = some tempo_seq ∧ tempo_seq.tpb ≠ 0 ∧
    (7 : Nat) < 256 ∧ (161 : Nat) < 256 ∧ (32 : Nat) < 256 ∧
    (do_event tables0 tempo_player (set_tempo 7 161 32)).map (fun q => q.tick_length)
      = some 50 := by
  refine ⟨rfl, by decide, by decide, by decide, by decide, ?_⟩
  rw [(set_tempo_sets_tick_length tables0 tempo_player tempo_seq 7 161 32 rfl (by decide)
    (by decide) (by decide) (by decide)).1]
  rfl

/-- C13. The drum channel ignores NoteOff: `NoteOff(9, note, p2)` leaves the
whole player unchanged, so no voice of channel 9 is put into the release
phase by it. -/
theorem drum_note_off_ignored (t : Tables) (p : MDV_Player) (note p2 : Nat) :
    do_event t p (note_off 9 note p2) = some p := by
  simp [do_event, note_off, do_note_off]

theorem note_off_scan_next (note : Nat) :
    ∀ (fuel i : Nat) (vs ws : Nat → Voice), note_off_scan note fuel i vs = some ws →
      ∀ j, (ws j).next = (vs j).next := by
  intro fuel
  induction fuel with
  | zero =>
    intro i vs ws h j
    simp only [note_off_scan] at h
    split_ifs at h
    cases h
    rfl
  | succ fuel ih =>
    intro i vs ws h j
    simp only [note_off_scan] at h
    split_ifs at h
    · cases h; rfl
    · cases h
      by_cases hj : j = i
      · subst hj; simp
      · simp [Function.update_noteq hj]
    · exact ih _ _ _ h j

/-- C14. NoteOn with velocity 0 is NoteOff: `do_event` gives the same result
on `NoteOn(ch, note, 0)` as on `NoteOff(ch, note, p2)` for every `p2`; the
result has the same inactive head, the same channels and the same links as
the player, so no voice is allocated. -/
theorem note_on_zero_is_note_off (t : Tables) (p : MDV_Player) (ch note p2 : Nat) :
    do_event t p (note_on ch note 0) = do_event t p (note_off ch note p2) ∧
    ∀ q, do_event t p (note_on ch note 0) = some q →
      q.inactive = p.inactive ∧ q.channels = p.channels ∧
      ∀ i, (q.voices i).next = (p.voices i).next := by
  refine ⟨by simp [do_event, note_on, note_off, do_note_off], ?_⟩
  intro q h
  simp only [do_event, note_on, do_note_off, if_true] at h
  split_ifs at h
  · cases hs : note_off_scan note 255 (p.channels ch).voices p.voices with
    | none => simp [hs] at h
    | some ws =>
      simp only [hs, Option.map_some', Option.some.injEq] at h
      subst h
      exact ⟨rfl, rfl, note_off_scan_next note _ _ _ _ hs⟩
  · cases h
    exact ⟨rfl, rfl, fun _ => rfl⟩

/-- C14, witness: `NoteOn(0, 60, 0)` on `three_notes` releases voice 1 and takes
no voice from the inactive list. -/
theorem note_on_zero_is_note_off_witness :
    do_event tables0 three_notes (note_on 0 60 0) = do_event tables0 three_notes (note_off 0 60 7) ∧
    (do_event tables0 three_notes (note_on 0 60 0)).map
      (fun q => (q.inactive, (q.voices 1).envelope_phase)) = some (3, 3) :=
  ⟨(note_on_zero_is_note_off tables0 three_notes 0 60 7).1, by decide⟩

theorem choose_sample_none (freq : Nat) :
    ∀ (l : List MDV_Sample) (i d : Nat), (∀ s, s ∈ l → s.high_freq ≤ freq) →
      choose_sample freq l i d = d := by
  intro l
  induction l with
  | nil => intro i d _; rfl
  | cons s l ih =>
    intro i d h
    have hs : ¬ s.high_freq > freq := by
      have := h s (List.mem_cons_self _ _)
      omega
    simp only [choose_sample, hs, if_false]
    exact ih (i + 1) d (fun s' hs' => h s' (List.mem_cons_of_mem _ hs'))

theorem choose_sample_first (freq : Nat) :
    ∀ (l : List MDV_Sample) (i d k : Nat) (s : MDV_Sample), l[k]? = some s →
      freq < s.high_freq →
      (∀ j s', j < k → l[j]? = some s' → s'.high_freq ≤ freq) →
      choose_sample freq l i d = i + k := by
  intro l
  induction l with
  | nil => intro i d k s h; simp at h
  | cons a l ih =>
    intro i d k s hk hs hbefore
    cases k with
    | zero =>
      simp only [List.getElem?_cons_zero, Option.some.injEq] at hk
      subst hk
      simp [choose_sample, hs]
    | succ k =>
      have ha : ¬ a.high_freq > freq := by
        have := hbefore 0 a (by omega) (by simp)
        omega
      simp only [choose_sample, ha, if_false]
      rw [ih (i + 1) d k s (by simpa using hk) hs
        (fun j s' hj hs' => hbefore (j + 1) s' (by omega) (by simpa using hs'))]
      omega

/-- C15, counterexample: `low_patch` has two samples and none has a
`high_freq` above the played frequency; the NoteOn leaves `sample_index` at 0,
which is not the index of the last sample. -/
theorem sample_choice_not_last :
    (do_event tables0 low_player (note_on 0 60 100)).map
        (fun q => ((q.voices 0).patch, (q.voices 0).sample_index)) = some (some low_patch, 0) ∧
    (∀ s, s ∈ low_patch.samples → ¬ s.high_freq > get_freq tables0 (60 <<< 8)) ∧
    (0 : Nat) ≠ low_patch.samples.length - 1 := by
  refine ⟨by decide, by decide, by decide⟩

/-- C15, amended. Sample selection on NoteOn: when the read of the bank is
inside its 128-entry array and gives the patch `pt` (`bank_patch` is that read:
`drums[note]` for `note < 128` on channel 9, `patches[program]` for
`program < 128` elsewhere), then for the frequency `freq = get_freq(v.note << 8)`
the voice's `sample_index` is the smallest index `k` with
`samples[k].high_freq > freq`, and it is 0 when no sample qualifies. -/
theorem note_on_sample_choice (t : Tables) (p : MDV_Player) (ch note vel : Nat) (pt : MDV_Patch)
    (hfree : p.inactive ≠ 255) (hvel : vel ≠ 0) (hch : ch < 16)
    (hpatch : bank_patch p.bank ch note (p.channels ch).program = some (some pt)) :
    ∃ q, do_event t p (note_on ch note vel) = some q ∧
      (q.voices p.inactive).patch = some pt ∧
      ((∀ s, s ∈ pt.samples → s.high_freq ≤ get_freq t ((q.voices p.inactive).note <<< 8)) →
        (q.voices p.inactive).sample_index = 0) ∧
      (∀ k s, pt.samples[k]? = some s →
        get_freq t ((q.voices p.inactive).note <<< 8) < s.high_freq →
        (∀ j s', j < k → pt.samples[j]? = some s' →
          s'.high_freq ≤ get_freq t ((q.voices p.inactive).note <<< 8)) →
        (q.voices p.inactive).sample_index = k) := by
  simp only [do_event, note_on, hvel, hfree, hch, if_true, if_false, ne_eq, not_false_eq_true,
    hpatch]
  refine ⟨_, rfl, ?_⟩
  simp only [Function.update_same, true_and, new_voice]
  refine ⟨?_, ?_⟩
  · intro h
    exact choose_sample_none _ _ 0 0 h
  · intro k s hk hs hb
    rw [choose_sample_first _ _ 0 0 k s hk hs hb]
    omega

/-- C15, witness: with `split_patch` the second sample is the first that
qualifies, and `NoteOn(0, 60, 100)` selects index 1. -/
theorem note_on_sample_choice_witness :
    split_player.inactive ≠ 255 ∧ (100 : Nat) ≠ 0 ∧ (0 : Nat) < 16 ∧
    bank_patch split_player.bank 0 60 (split_player.channels 0).program
      = some (some split_patch) ∧
    (do_event tables0 split_player (note_on 0 60 100)).map
      (fun q => (q.voices split_player.inactive).sample_index) = some 1 := by
  refine ⟨by decide, by decide, by decide, rfl, ?_⟩
  obtain ⟨q, h, _, _, h2⟩ :=
    note_on_sample_choice tables0 split_player 0 60 100 split_patch (by decide) (by decide)
      (by decide) rfl
  have hnote : (do_event tables0 split_player (note_on 0 60 100)).map
      (fun q => (q.voices split_player.inactive).note) = some 60 := by decide
  rw [h] at hnote ⊢
  simp only [Option.map_some', Option.some.injEq] at hnote ⊢
  rw [hnote] at h2
  refine h2 1 high_sample rfl (by decide) ?_
  · intro j s hj hs
    have hj0 : j = 0 := by omega
    subst hj0
    have : s = low_sample := by
      have h0 : split_patch.samples[0]? = some low_sample := rfl
      rw [h0] at hs
      exact (Option.some.inj hs).symm
    subst this
    exact Nat.zero_le _

/-- C16. Controller: on a channel below 16 and for a value below 128,
controller 7 sets only `volume`, controller 11 only `expression`, controller 10
only `pan`, to `val - 64`, which lies in -64..63; any other controller leaves
the player unchanged. -/
theorem controller_sets (t : Tables) (p : MDV_Player) (ch val cc : Nat)
    (hch : ch < 16) (hval : val < 128) :
    do_event t p (controller ch 7 val) = some
      { p with channels := Function.update p.channels ch { p.channels ch with volume := val } } ∧
    do_event t p (controller ch 11 val) = some
      { p with
        channels := Function.update p.channels ch { p.channels ch with expression := val } } ∧
    do_event t p (controller ch 10 val) = some
      { p with
        channels := Function.update p.channels ch
          { p.channels ch with pan := (val : Int) - 64 } } ∧
    (-64 ≤ (val : Int) - 64 ∧ (val : Int) - 64 ≤ 63) ∧
    (cc ≠ 7 → cc ≠ 11 → cc ≠ 10 → do_event t p (controller ch cc val) = some p) := by
  refine ⟨?_, ?_, ?_, ⟨by omega, by omega⟩, ?_⟩
  · simp [do_event, controller, MDV_VOLUME, hch]
  · simp [do_event, controller, MDV_VOLUME, MDV_EXPRESSION, hch]
  · simp only [do_event, controller, MDV_VOLUME, MDV_EXPRESSION, MDV_PAN, hch]
    rw [wrap_signed_8 _ (by omega) (by omega)]
    simp
  · intro h1 h2 h3
    simp [do_event, controller, MDV_VOLUME, MDV_EXPRESSION, MDV_PAN, h1, h2, h3]

/-- C16, witness: controllers 7, 11, 10 and 1 on channel 0 of the fresh
player with value 100. -/
theorem controller_sets_witness :
    (0 : Nat) < 16 ∧ (100 : Nat) < 128 ∧
    (do_event tables0 fresh_player (controller 0 10 100)).map (fun q => (q.channels 0).pan)
      = some 36 ∧
    do_event tables0 fresh_player (controller 0 1 100) = some fresh_player := by
  have h := controller_sets tables0 fresh_player 0 100 1 (by decide) (by decide)
  refine ⟨by decide, by decide, ?_, h.2.2.2.2 (by decide) (by decide) (by decide)⟩
  rw [h.2.2.1]
  rfl

/-- C17. PitchBend: for `lo7, hi7` below 128 on a channel below 16, `do_event`
sets only `pitch_bend`, to `hi7 * 128 + lo7 - 8192`; the value lies in
-8192..8191, so the conversion to `int16_t` does not change it. -/
theorem pitch_bend_sets (t : Tables) (p : MDV_Player) (ch lo7 hi7 : Nat)
    (hch : ch < 16) (hlo : lo7 < 128) (hhi : hi7 < 128) :
    do_event t p (pitch_bend ch lo7 hi7) = some
      { p with
        channels := Function.update p.channels ch
          { p.channels ch with pitch_bend := (hi7 : Int) * 128 + (lo7 : Int) - 8192 } } ∧
    -8192 ≤ (hi7 : Int) * 128 + (lo7 : Int) - 8192 ∧
    (hi7 : Int) * 128 + (lo7 : Int) - 8192 ≤ 8191 := by
  refine ⟨?_, by omega, by omega⟩
  simp only [do_event, pitch_bend, hch, or7_eq hi7 lo7 hlo, if_true]
  rw [wrap_signed_16 _ (by push_cast; omega) (by push_cast; omega)]
  push_cast
  rfl

/-- C17, witness: the largest bend, `PitchBend(0, 127, 127)`, stores 8191. -/
theorem pitch_bend_sets_witness :
    (0 : Nat) < 16 ∧ (127 : Nat) < 128 ∧
    (do_event tables0 fresh_player (pitch_bend 0 127 127)).map
      (fun q => (q.channels 0).pitch_bend) = some 8191 := by
  refine ⟨by decide, by decide, ?_⟩
  rw [(pitch_bend_sets tables0 fresh_player 0 127 127 (by decide) (by decide) (by decide)).1]
  rfl

/-- C20. Octave doubling: for every note up to 108 and every content of the
frequency table, `get_freq((note + 12) << 8)` is twice `get_freq(note << 8)`:
the table index is the same, the shift count is one larger and nothing leaves
32 bits. -/
theorem get_freq_octave (t : Tables) (note : Nat) (h : note ≤ 108) :
    get_freq t ((note + 12) <<< 8) = 2 * get_freq t (note <<< 8) := by
  unfold get_freq
  simp only [Nat.shiftLeft_eq]
  have h1 : (note + 12) * 2 ^ 8 % 65536 = note * 2 ^ 8 + 3072 := by omega
  have h2 : note * 2 ^ 8 % 65536 = note * 2 ^ 8 := by omega
  rw [h1, h2]
  have h3 : (note * 2 ^ 8 + 3072) / 12 = note * 2 ^ 8 / 12 + 256 := by omega
  rw [h3]
  have h4 : (note * 2 ^ 8 / 12 + 256) % 256 = note * 2 ^ 8 / 12 % 256 := by omega
  have h5 : (note * 2 ^ 8 / 12 + 256) / 256 = note * 2 ^ 8 / 12 / 256 + 1 := by omega
  rw [h4, h5]
  generalize hf : t.freqs (note * 2 ^ 8 / 12 % 256) % 65536 = f
  have hf2 : f < 65536 := by rw [← hf]; exact Nat.mod_lt _ (by norm_num)
  generalize hk : note * 2 ^ 8 / 12 / 256 = k
  have hk2 : k ≤ 9 := by omega
  have hp : 2 ^ k ≤ 2 ^ 9 := Nat.pow_le_pow_right (by norm_num) hk2
  have hb : f * 2 ^ k < 2 ^ 25 := by
    calc f * 2 ^ k ≤ f * 2 ^ 9 := Nat.mul_le_mul_left _ hp
      _ < 65536 * 2 ^ 9 := by omega
      _ = 2 ^ 25 := by norm_num
  rw [pow_succ, ← Nat.mul_assoc, Nat.mod_eq_of_lt (by omega), Nat.mod_eq_of_lt (by omega)]
  ring

/-- C20, witness: notes 69 and 81 with the table of `tables1`. -/
theorem get_freq_octave_witness :
    (69 : Nat) ≤ 108 ∧ get_freq tables1 ((69 + 12) <<< 8) = 2 * get_freq tables1 (69 <<< 8) :=
  ⟨by decide, get_freq_octave tables1 69 (by decide)⟩

/-! ## Voices without a patch -/

theorem render_voice_square (t : Tables) (c : Nat) (ch : Channel) (v : Voice) (l r : Int)
    (hc : c ≠ 9) (hp : v.patch = none) :
    render_voice t c ch v l r = some (render_square t ch v l r) := by
  simp [render_voice, hc, hp]

theorem render_voice_drum_null (t : Tables) (ch : Channel) (v : Voice) (l r : Int)
    (hp : v.patch = none) : render_voice t 9 ch v l r = none := by
  simp [render_voice, hp]

/-- C6, the failing input. On the fresh player (empty bank) `NoteOn(9, 38, 100)`
allocates voice 0 on channel 9 with a null patch; mixing the next frame fails,
because `keep_envelope` is read through the null patch before the test
`if (v->patch)`. The same note on channel 8 is mixed as a square wave. -/
theorem drum_null_patch_frame :
    ((do_event tables0 fresh_player (note_on 9 38 100)).map
      (fun q => ((q.channels 9).voices, (q.voices 0).patch))) = some (0, none) ∧
    ((do_event tables0 fresh_player (note_on 9 38 100)).bind
      (fun q => mix_voices tables0 q)).isNone = true ∧
    ((do_event tables0 fresh_player (note_on 8 38 100)).bind
      (fun q => mix_voices tables0 q)).isSome = true := by
  refine ⟨by decide, ?_, ?_⟩
  · decide
  · decide

/-- C18, the failing input. A voice without a patch that plays note 69 on a
channel with pitch bend 8191 moves by the stride of the unbent frequency
`get_freq(69 << 8)`, which differs from the stride of
`get_freq(69 * 256 + 8191 / 16)`. -/
theorem square_wave_ignores_bend :
    (render_voice tables1 0 bent_channel square_voice 0 0).map
        (fun res => res.voice.sample_pos)
      = some (2 ^ 32 * get_freq tables1 (69 <<< 8) / 1000 / 48000) ∧
    2 ^ 32 * get_freq tables1 (69 <<< 8) / 1000 / 48000
      ≠ 2 ^ 32 * get_freq tables1 (69 * 256 + 8191 / 16) / 1000 / 48000 := by
  refine ⟨by decide, by decide⟩

/-! ## The idle player and the empty sequence -/

/-- C9. Silence when idle: with no sequence bound or with `done` set,
`mdv_get_audio` writes `len / 4` frames, all zero, dispatches nothing and
returns the player unchanged. -/
theorem idle_audio_is_silence (t : Tables) (p : MDV_Player) (len : Int)
    (h : p.seq = none ∨ p.done = true) :
    mdv_get_audio t p len = some (p, List.replicate (Int.tdiv len 4).toNat ⟨⟨0, 0⟩, []⟩) := by
  unfold mdv_get_audio
  rcases h with h | h
  · simp [h]
  · cases hs : p.seq <;> simp [h]

/-- C9, witness: 19200 bytes on the fresh player, which has no sequence, are
4800 zero frames. -/
theorem idle_audio_is_silence_witness :
    (fresh_player.seq = none ∨ fresh_player.done = true) ∧
    mdv_get_audio tables0 fresh_player 19200 = some (fresh_player, List.replicate 4800 ⟨⟨0, 0⟩, []⟩) :=
  ⟨Or.inl rfl, idle_audio_is_silence tables0 fresh_player 19200 (Or.inl rfl)⟩

/-- C10, the failing input. On a sequence with an empty `events` array
`mdv_play_sequence` reads `events[0].time`, outside the array. -/
theorem play_empty_sequence_reads_outside (p : MDV_Player) (tpb : Nat) :
    mdv_play_sequence p { tpb := tpb, events := [] } = none := by
  unfold mdv_play_sequence
  split_ifs <;> rfl

/-! ## The renderer keeps the links -/

theorem clamp_envelope_next (v : Voice) : (clamp_envelope v).next = v.next := by
  unfold clamp_envelope
  split_ifs <;> rfl

theorem output_stage_next {t : Tables} {ch : Channel} {patch : MDV_Patch} {sample : MDV_Sample}
    {v : Voice} {n : Nat} {l r : Int} {res : Rendered}
    (h : output_stage t ch patch sample v n l r = some res) : res.voice.next = v.next := by
  unfold output_stage at h
  split at h
  · exact absurd h (by simp)
  · dsimp only at h
    split at h
    · exact absurd h (by simp)
    · have h2 := Option.some.inj h
      rw [← h2]
      exact clamp_envelope_next v

theorem envelope_stage_next {ne : Bool} {sample : MDV_Sample} {v w : Voice}
    (h : envelope_stage ne sample v = some (some w)) : w.next = v.next := by
  unfold envelope_stage at h
  split at h
  · cases h; rfl
  · split at h
    · cases h
    · cases h
    · cases h; rfl

theorem loop_stage_next {nl : Bool} {sample : MDV_Sample} {v w : Voice} {n m : Nat}
    (h : loop_stage nl sample v n = some (w, m)) : w.next = v.next := by
  unfold loop_stage at h
  split_ifs at h <;> first | (cases h; rfl)

theorem tremolo_stage_next (sample : MDV_Sample) (v : Voice) :
    (tremolo_stage sample v).next = v.next := rfl

theorem render_patched_next {t : Tables} {ch : Channel} {ne nl : Bool} {patch : MDV_Patch}
    {v : Voice} {l r : Int} {res : Rendered}
    (h : render_patched t ch ne nl patch v l r = some res) : res.voice.next = v.next := by
  unfold render_patched at h
  split at h
  · exact absurd h (by simp)
  · dsimp only at h
    split at h
    · exact absurd h (by simp)
    · rw [← Option.some.inj h]
      rfl
    · rename_i v1 he
      have e1 := envelope_stage_next he
      split at h
      · exact absurd h (by simp)
      · split at h
        · rw [← Option.some.inj h]
          exact (tremolo_stage_next _ _).trans e1
        · rename_i v3 np hl
          rw [output_stage_next h, loop_stage_next hl, tremolo_stage_next]
          exact e1

theorem render_square_form (t : Tables) (ch : Channel) (v : Voice) (l r : Int) :
    ∃ w a b, render_square t ch v l r = Rendered.mixed w a b ∧ w.next = v.next := by
  unfold render_square
  exact ⟨_, _, _, rfl, rfl⟩

theorem render_square_next (t : Tables) (ch : Channel) (v : Voice) (l r : Int) :
    (render_square t ch v l r).voice.next = v.next := by
  obtain ⟨w, a, b, h, hw⟩ := render_square_form t ch v l r
  rw [h]
  exact hw

theorem render_voice_next {t : Tables} {c : Nat} {ch : Channel} {v : Voice} {l r : Int}
    {res : Rendered} (h : render_voice t c ch v l r = some res) : res.voice.next = v.next := by
  unfold render_voice at h
  dsimp only at h
  split at h
  · exact absurd h (by simp)
  · split at h
    · exact render_patched_next h
    · rw [← Option.some.inj h]
      exact render_square_next t ch v l r

/-! ## The voice loop keeps the pool partition -/

theorem mix_channel_pool (t : Tables) {c : Nat} (hc : c < 16) :
    ∀ (fuel : Nat) (ip : Slot) (p : MDV_Player) (l r : Int) (q : MDV_Player) (l' r' : Int)
      (free : List Nat) (act : Nat → List Nat) (pre rest : List Nat),
      Pool p free act → act c = pre ++ rest → SlotAt c ip pre →
      mix_channel t c fuel ip p l r = some (q, l', r') → ∃ free' act', Pool q free' act' := by
  intro fuel
  induction fuel with
  | zero =>
    intro ip p l r q l' r' free act pre rest hp _ _ h
    simp only [mix_channel] at h
    split_ifs at h
    have h2 := Option.some.inj h
    have h3 : p = q := congrArg Prod.fst h2
    subst h3
    exact ⟨free, act, hp⟩
  | succ fuel ih =>
    intro ip p l r q l' r' free act pre rest hp hact hip h
    simp only [mix_channel] at h
    by_cases hi : ip_read p ip = 255
    · simp only [hi, if_true] at h
      have h3 : p = q := congrArg Prod.fst (Option.some.inj h)
      subst h3
      exact ⟨free, act, hp⟩
    · simp only [hi, if_false] at h
      have hchain : Chain p.voices (ip_read p ip) rest 255 :=
        slot_chain hip (hact ▸ hp.act_list c hc)
      obtain ⟨rest', hrest, _, _⟩ := chain_head hchain hi
      cases hr : render_voice t c (p.channels c) (p.voices (ip_read p ip)) l r with
      | none => simp only [hr] at h; exact absurd h (by simp)
      | some res =>
        have hnext := render_voice_next hr
        have hp1 : ∀ v : Voice, v.next = (p.voices (ip_read p ip)).next →
            Pool { p with voices := Function.update p.voices (ip_read p ip) v } free act := by
          intro v hv
          refine pool_congr hp rfl (fun _ _ => rfl) ?_
          intro j
          by_cases hj : j = ip_read p ip
          · subst hj; simpa using hv
          · simp [Function.update_noteq hj]
        cases res with
        | deleted v =>
          simp only [hr] at h
          have hp2 := pool_delete (hp1 v hnext) hc (hact.trans (by rw [hrest])) hip
          exact ih ip _ l r q l' r' _ _ pre rest' hp2 (by simp) hip h
        | mixed v l1 r1 =>
          simp only [hr] at h
          exact ih (Slot.next (ip_read p ip)) _ l1 r1 q l' r' free act (pre ++ [ip_read p ip]) rest'
            (hp1 v hnext) (by simp [hact, hrest]) (Or.inr ⟨_, pre, rfl, rfl⟩) h

/-! ## The dispatcher keeps the pool partition -/

theorem silence_step_eq (c : Nat) (p : MDV_Player) :
    ({ p with
        channels := Function.update p.channels c
          { p.channels c with voices := (p.voices (p.channels c).voices).next }
        voices := Function.update p.voices (p.channels c).voices
          { p.voices (p.channels c).voices with next := p.inactive }
        inactive := (p.channels c).voices } : MDV_Player)
      = delete_voice p (Slot.head c) (p.channels c).voices := by
  rfl

theorem silence_channel_spec {c : Nat} (hc : c < 16) :
    ∀ (fuel : Nat) (p : MDV_Player) (free : List Nat) (act : Nat → List Nat),
      Pool p free act → (act c).length ≤ fuel →
      ∃ q, silence_channel c fuel p = some q ∧
        Pool q ((act c).reverse ++ free) (Function.update act c []) ∧
        q.channels = Function.update p.channels c { p.channels c with voices := 255 } ∧
        q.tick_length = p.tick_length ∧ q.seq = p.seq ∧ q.bank = p.bank ∧
        q.current = p.current ∧ q.samples_to_tick = p.samples_to_tick ∧
        q.ticks_to_event = p.ticks_to_event ∧ q.done = p.done ∧
        q.clip_count = p.clip_count := by
  intro fuel
  induction fuel with
  | zero =>
    intro p free act hp hlen
    have hnil : act c = [] := List.length_eq_zero.mp (Nat.le_zero.mp hlen)
    have hh : (p.channels c).voices = 255 := by
      have := hp.act_list c hc
      rw [hnil] at this
      exact this
    refine ⟨p, by simp [silence_channel, hh], ?_, ?_, rfl, rfl, rfl, rfl, rfl, rfl, rfl, rfl⟩
    · have e1 : (act c).reverse ++ free = free := by simp [hnil]
      have e2 : Function.update act c [] = act := by
        rw [← hnil]
        exact Function.update_eq_self c act
      rw [e1, e2]
      exact hp
    · rw [← hh]
      simp
  | succ fuel ih =>
    intro p free act hp hlen
    by_cases hh : (p.channels c).voices = 255
    · have hnil : act c = [] := by
        have := hp.act_list c hc
        unfold IsList at this
        rw [hh] at this
        cases hl : act c with
        | nil => rfl
        | cons a l =>
          rw [hl] at this
          obtain ⟨h1, h2, _⟩ := this
          omega
      refine ⟨p, by simp [silence_channel, hh], ?_, ?_, rfl, rfl, rfl, rfl, rfl, rfl, rfl, rfl⟩
      · have e1 : (act c).reverse ++ free = free := by simp [hnil]
        have e2 : Function.update act c [] = act := by
          rw [← hnil]
          exact Function.update_eq_self c act
        rw [e1, e2]
        exact hp
      · rw [← hh]
        simp
    · obtain ⟨rest, hrest, _, _⟩ := chain_head (hp.act_list c hc) hh
      have hp2 := @pool_delete _ _ _ hp _ hc _ [] _ _ (by simpa using hrest) (Or.inl ⟨rfl, rfl⟩)
      obtain ⟨q, hq, hpool, hch, h1, h2, h3, h4, h5, h6, h7, h8⟩ :=
        ih (delete_voice p (Slot.head c) (p.channels c).voices) _ _ hp2
          (by simp [hrest] at hlen ⊢; omega)
      refine ⟨q, ?_, ?_, ?_, h1, h2, h3, h4, h5, h6, h7, h8⟩
      · simp only [silence_channel, hh, if_false]
        rw [silence_step_eq]
        exact hq
      · simpa [hrest] using hpool
      · rw [hch]
        simp [delete_voice, ip_write]

theorem silence_channel_clock (c : Nat) :
    ∀ (fuel : Nat) (p q : MDV_Player), silence_channel c fuel p = some q →
      clock q = clock p ∧ q.bank = p.bank ∧ q.clip_count = p.clip_count ∧
      q.tick_length = p.tick_length := by
  intro fuel
  induction fuel with
  | zero =>
    intro p q h
    simp only [silence_channel] at h
    split_ifs at h
    cases h
    exact ⟨rfl, rfl, rfl, rfl⟩
  | succ fuel ih =>
    intro p q h
    simp only [silence_channel] at h
    split_ifs at h
    · cases h
      exact ⟨rfl, rfl, rfl, rfl⟩
    · obtain ⟨a, b, c, d⟩ := ih _ _ h
      exact ⟨a, b, c, d⟩

theorem do_event_clock {t : Tables} {p q : MDV_Player} {e : MDV_Event}
    (h : do_event t p e = some q) :
    clock q = clock p ∧ q.bank = p.bank ∧ q.clip_count = p.clip_count ∧
    (e.type ≠ MDV_Event_Type.MDV_SET_TEMPO → q.tick_length = p.tick_length) := by
  have hoff : ∀ q, do_note_off p e = some q →
      clock q = clock p ∧ q.bank = p.bank ∧ q.clip_count = p.clip_count ∧
      (e.type ≠ MDV_Event_Type.MDV_SET_TEMPO → q.tick_length = p.tick_length) := by
    intro q h
    simp only [do_note_off] at h
    split_ifs at h
    · cases hs : note_off_scan e.param1 255 (p.channels e.channel).voices p.voices with
      | none => simp [hs] at h
      | some ws =>
        simp only [hs, Option.map_some', Option.some.injEq] at h
        subst h
        exact ⟨rfl, rfl, rfl, fun _ => rfl⟩
    · cases h
      exact ⟨rfl, rfl, rfl, fun _ => rfl⟩
  unfold do_event at h
  split at h
  · exact hoff q h
  · by_cases h1 : e.param2 = 0
    · simp only [h1, if_true] at h
      exact hoff q h
    · by_cases h2 : p.inactive ≠ 255
      · by_cases h3 : e.channel < 16
        · simp only [h1, h2, h3, if_true, if_false, ne_eq, not_false_eq_true] at h
          cases hb : bank_patch p.bank e.channel e.param1 (p.channels e.channel).program with
          | none => simp only [hb] at h; exact absurd h (by simp)
          | some patch =>
            simp only [hb] at h
            cases h
            exact ⟨rfl, rfl, rfl, fun _ => rfl⟩
        · simp only [h1, h2, h3, if_true, if_false, ne_eq, not_false_eq_true] at h
          cases h
      · simp only [h1, h2, if_false] at h
        cases h
        exact ⟨rfl, rfl, rfl, fun _ => rfl⟩
  · split_ifs at h <;> cases h <;> exact ⟨rfl, rfl, rfl, fun _ => rfl⟩
  · split_ifs at h
    cases hs : silence_channel e.channel 255 p with
    | none => simp [hs] at h
    | some s =>
      simp only [hs, Option.map_some', Option.some.injEq] at h
      subst h
      obtain ⟨h1, h2, h3, h4⟩ := silence_channel_clock _ _ _ _ hs
      exact ⟨h1, h2, h3, fun _ => h4⟩
  · split_ifs at h
    have := Option.some.inj h
    subst this
    exact ⟨rfl, rfl, rfl, fun _ => rfl⟩
  · rename_i heq
    split at h
    · cases h
    · split_ifs at h
      cases h
      exact ⟨rfl, rfl, rfl, fun hne => absurd heq hne⟩
  · cases h
    exact ⟨rfl, rfl, rfl, fun _ => rfl⟩

theorem do_event_pool {t : Tables} {p q : MDV_Player} {e : MDV_Event} (hp : PoolOK p)
    (h : do_event t p e = some q) : PoolOK q := by
  obtain ⟨free, act, hp⟩ := hp
  have hoff : ∀ q, do_note_off p e = some q → PoolOK q := by
    intro q h
    simp only [do_note_off] at h
    split_ifs at h
    · cases hs : note_off_scan e.param1 255 (p.channels e.channel).voices p.voices with
      | none => simp [hs] at h
      | some ws =>
        simp only [hs, Option.map_some', Option.some.injEq] at h
        subst h
        exact ⟨free, act, pool_congr hp rfl (fun _ _ => rfl) (note_off_scan_next _ _ _ _ _ hs)⟩
    · cases h
      exact ⟨free, act, hp⟩
  have hctl : ∀ (ch : Channel), ch.voices = (p.channels e.channel).voices →
      PoolOK { p with channels := Function.update p.channels e.channel ch } := by
    intro ch hch
    refine ⟨free, act, pool_congr hp rfl ?_ (fun _ => rfl)⟩
    intro c _
    by_cases hc : c = e.channel
    · subst hc; simpa using hch
    · simp [Function.update_noteq hc]
  unfold do_event at h
  split at h
  · exact hoff q h
  · by_cases h1 : e.param2 = 0
    · simp only [h1, if_true] at h
      exact hoff q h
    · by_cases h2 : p.inactive ≠ 255
      · by_cases h3 : e.channel < 16
        · simp only [h1, h2, h3, if_true, if_false, ne_eq, not_false_eq_true] at h
          cases hb : bank_patch p.bank e.channel e.param1 (p.channels e.channel).program with
          | none => simp only [hb] at h; exact absurd h (by simp)
          | some patch =>
            simp only [hb] at h
            cases h
            exact ⟨_, _, pool_note_on hp h2 h3 _ rfl⟩
        · simp only [h1, h2, h3, if_true, if_false, ne_eq, not_false_eq_true] at h
          cases h
      · simp only [h1, h2, if_false] at h
        cases h
        exact ⟨free, act, hp⟩
  · split_ifs at h <;> cases h <;> first | exact hctl _ rfl | exact ⟨free, act, hp⟩
  · split_ifs at h with h1
    obtain ⟨s, hs, hpool, _⟩ :=
      silence_channel_spec h1 255 p free act hp (chain_length_le (hp.act_list _ h1))
    rw [hs] at h
    simp only [Option.map_some', Option.some.injEq] at h
    subst h
    refine ⟨_, _, pool_congr hpool rfl ?_ (fun _ => rfl)⟩
    intro c _
    by_cases hc : c = e.channel
    · rw [hc]; simp
    · simp [Function.update_noteq hc]
  · split_ifs at h
    have := Option.some.inj h
    subst this
    exact hctl _ rfl
  · split at h
    · cases h
    · split_ifs at h
      cases h
      exact ⟨free, act, pool_congr hp rfl (fun _ _ => rfl) (fun _ => rfl)⟩
  · cases h
    exact ⟨free, act, hp⟩

/-! ## What the mixer leaves alone -/

theorem mix_channel_clock (t : Tables) (c : Nat) :
    ∀ (fuel : Nat) (ip : Slot) (p : MDV_Player) (l r : Int) (q : MDV_Player) (l' r' : Int),
      mix_channel t c fuel ip p l r = some (q, l', r') →
      clock q = clock p ∧ q.bank = p.bank ∧ q.clip_count = p.clip_count ∧
      q.tick_length = p.tick_length := by
  intro fuel
  induction fuel with
  | zero =>
    intro ip p l r q l' r' h
    simp only [mix_channel] at h
    split_ifs at h
    have h3 : p = q := congrArg Prod.fst (Option.some.inj h)
    subst h3
    exact ⟨rfl, rfl, rfl, rfl⟩
  | succ fuel ih =>
    intro ip p l r q l' r' h
    simp only [mix_channel] at h
    by_cases hi : ip_read p ip = 255
    · simp only [hi, if_true] at h
      have h3 : p = q := congrArg Prod.fst (Option.some.inj h)
      subst h3
      exact ⟨rfl, rfl, rfl, rfl⟩
    · simp only [hi, if_false] at h
      cases hr : render_voice t c (p.channels c) (p.voices (ip_read p ip)) l r with
      | none => simp only [hr] at h; exact absurd h (by simp)
      | some res =>
        cases res with
        | deleted v =>
          simp only [hr] at h
          obtain ⟨a, b, d, e⟩ := ih _ _ _ _ _ _ _ h
          cases ip <;> exact ⟨a, b, d, e⟩
        | mixed v l1 r1 =>
          simp only [hr] at h
          obtain ⟨a, b, d, e⟩ := ih _ _ _ _ _ _ _ h
          exact ⟨a, b, d, e⟩

theorem mix_channel_others (t : Tables) (c : Nat) :
    ∀ (fuel : Nat) (ip : Slot) (p : MDV_Player) (l r : Int) (q : MDV_Player) (l' r' : Int),
      (ip = Slot.head c ∨ ∃ j, ip = Slot.next j) →
      mix_channel t c fuel ip p l r = some (q, l', r') →
      ∀ d, d ≠ c → q.channels d = p.channels d := by
  intro fuel
  induction fuel with
  | zero =>
    intro ip p l r q l' r' _ h
    simp only [mix_channel] at h
    split_ifs at h
    have h3 : p = q := congrArg Prod.fst (Option.some.inj h)
    subst h3
    exact fun _ _ => rfl
  | succ fuel ih =>
    intro ip p l r q l' r' hip h
    simp only [mix_channel] at h
    by_cases hi : ip_read p ip = 255
    · simp only [hi, if_true] at h
      have h3 : p = q := congrArg Prod.fst (Option.some.inj h)
      subst h3
      exact fun _ _ => rfl
    · simp only [hi, if_false] at h
      cases hr : render_voice t c (p.channels c) (p.voices (ip_read p ip)) l r with
      | none => simp only [hr] at h; exact absurd h (by simp)
      | some res =>
        cases res with
        | deleted v =>
          simp only [hr] at h
          intro d hd
          rw [ih _ _ _ _ _ _ _ hip h d hd]
          rcases hip with rfl | ⟨j, rfl⟩
          · simp [delete_voice, ip_write, Function.update_noteq hd]
          · simp [delete_voice, ip_write]
        | mixed v l1 r1 =>
          simp only [hr] at h
          intro d hd
          rw [ih _ _ _ _ _ _ _ (Or.inr ⟨_, rfl⟩) h d hd]

theorem mix_channel_empty (t : Tables) (c fuel : Nat) (p : MDV_Player) (l r : Int)
    (h : (p.channels c).voices = 255) :
    mix_channel t c fuel (Slot.head c) p l r = some (p, l, r) := by
  cases fuel <;> simp [mix_channel, ip_read, h]

theorem mix_channels_pool (t : Tables) :
    ∀ (n c : Nat) (p : MDV_Player) (l r : Int) (q : MDV_Player) (l' r' : Int),
      c + n ≤ 16 → PoolOK p → mix_channels t n c p l r = some (q, l', r') → PoolOK q := by
  intro n
  induction n with
  | zero =>
    intro c p l r q l' r' _ hp h
    simp only [mix_channels] at h
    have h3 : p = q := congrArg Prod.fst (Option.some.inj h)
    subst h3
    exact hp
  | succ n ih =>
    intro c p l r q l' r' hc hp h
    simp only [mix_channels] at h
    cases hm : mix_channel t c 255 (Slot.head c) p l r with
    | none => simp only [hm] at h; exact absurd h (by simp)
    | some res =>
      obtain ⟨p1, l1, r1⟩ := res
      simp only [hm] at h
      obtain ⟨free, act, hpool⟩ := hp
      have hp1 := mix_channel_pool t (c := c) (by omega) 255 (Slot.head c) p l r p1 l1 r1 free act
        [] (act c) hpool rfl (Or.inl ⟨rfl, rfl⟩) hm
      exact ih (c + 1) p1 l1 r1 q l' r' (by omega) hp1 h

theorem mix_channels_clock (t : Tables) :
    ∀ (n c : Nat) (p : MDV_Player) (l r : Int) (q : MDV_Player) (l' r' : Int),
      mix_channels t n c p l r = some (q, l', r') →
      clock q = clock p ∧ q.bank = p.bank ∧ q.clip_count = p.clip_count ∧
      q.tick_length = p.tick_length := by
  intro n
  induction n with
  | zero =>
    intro c p l r q l' r' h
    simp only [mix_channels] at h
    have h3 : p = q := congrArg Prod.fst (Option.some.inj h)
    subst h3
    exact ⟨rfl, rfl, rfl, rfl⟩
  | succ n ih =>
    intro c p l r q l' r' h
    simp only [mix_channels] at h
    cases hm : mix_channel t c 255 (Slot.head c) p l r with
    | none => simp only [hm] at h; exact absurd h (by simp)
    | some res =>
      obtain ⟨p1, l1, r1⟩ := res
      simp only [hm] at h
      obtain ⟨a1, a2, a3, a4⟩ := mix_channel_clock t c _ _ _ _ _ _ _ _ hm
      obtain ⟨b1, b2, b3, b4⟩ := ih _ _ _ _ _ _ _ h
      exact ⟨b1.trans a1, b2.trans a2, b3.trans a3, b4.trans a4⟩

theorem mix_channels_quiet (t : Tables) (ch : Nat) :
    ∀ (n c : Nat) (p : MDV_Player) (l r : Int) (q : MDV_Player) (l' r' : Int),
      (p.channels ch).voices = 255 → mix_channels t n c p l r = some (q, l', r') →
      (q.channels ch).voices = 255 := by
  intro n
  induction n with
  | zero =>
    intro c p l r q l' r' hq h
    simp only [mix_channels] at h
    have h3 : p = q := congrArg Prod.fst (Option.some.inj h)
    subst h3
    exact hq
  | succ n ih =>
    intro c p l r q l' r' hq h
    simp only [mix_channels] at h
    cases hm : mix_channel t c 255 (Slot.head c) p l r with
    | none => simp only [hm] at h; exact absurd h (by simp)
    | some res =>
      obtain ⟨p1, l1, r1⟩ := res
      simp only [hm] at h
      refine ih (c + 1) p1 l1 r1 q l' r' ?_ h
      by_cases hc : ch = c
      · subst hc
        rw [mix_channel_empty t ch 255 p l r hq] at hm
        have h3 : p = p1 := congrArg Prod.fst (Option.some.inj hm)
        subst h3
        exact hq
      · rw [mix_channel_others t c _ _ _ _ _ _ _ _ (Or.inl rfl) hm ch hc]
        exact hq

/-! ## The frame loop keeps the pool partition -/

theorem mix_voices_pool {t : Tables} {p q : MDV_Player} {out : Samp} (hp : PoolOK p)
    (h : mix_voices t p = some (q, out)) : PoolOK q := by
  unfold mix_voices at h
  cases hm : mix_channels t 16 0 p 0 0 with
  | none => simp only [hm] at h; exact absurd h (by simp)
  | some res =>
    obtain ⟨p1, l1, r1⟩ := res
    simp only [hm] at h
    have hp1 := mix_channels_pool t 16 0 p 0 0 p1 l1 r1 (by omega) hp hm
    have h3 := congrArg Prod.fst (Option.some.inj h)
    simp only at h3
    subst h3
    obtain ⟨free, act, hpool⟩ := hp1
    exact ⟨free, act, pool_congr hpool rfl (fun _ _ => rfl) (fun _ => rfl)⟩

theorem mix_voices_clock {t : Tables} {p q : MDV_Player} {out : Samp}
    (h : mix_voices t p = some (q, out)) :
    clock q = clock p ∧ q.bank = p.bank ∧ q.tick_length = p.tick_length := by
  unfold mix_voices at h
  cases hm : mix_channels t 16 0 p 0 0 with
  | none => simp only [hm] at h; exact absurd h (by simp)
  | some res =>
    obtain ⟨p1, l1, r1⟩ := res
    simp only [hm] at h
    obtain ⟨a1, a2, _, a4⟩ := mix_channels_clock t 16 0 p 0 0 p1 l1 r1 hm
    have h3 := congrArg Prod.fst (Option.some.inj h)
    simp only at h3
    subst h3
    exact ⟨a1, a2, a4⟩

theorem mix_voices_quiet {t : Tables} {p q : MDV_Player} {out : Samp} (ch : Nat)
    (hq : (p.channels ch).voices = 255) (h : mix_voices t p = some (q, out)) :
    (q.channels ch).voices = 255 := by
  unfold mix_voices at h
  cases hm : mix_channels t 16 0 p 0 0 with
  | none => simp only [hm] at h; exact absurd h (by simp)
  | some res =>
    obtain ⟨p1, l1, r1⟩ := res
    simp only [hm] at h
    have := mix_channels_quiet t ch 16 0 p 0 0 p1 l1 r1 hq hm
    have h3 := congrArg Prod.fst (Option.some.inj h)
    simp only at h3
    subst h3
    exact this

theorem drain_events_inv {t : Tables} {seq : MDV_Sequence} {fuel : Nat} {p q : MDV_Player}
    {log : List MDV_Event} (h : drain_events t seq (fuel + 1) p = some (q, log)) :
    ((p.done = true ∨ p.ticks_to_event ≠ 0) ∧ q = p ∧ log = []) ∨
    (p.done = false ∧ p.ticks_to_event = 0 ∧
      ∃ cur p1 p3 rest, seq.events[p.current]? = some cur ∧ do_event t p cur.event = some p1 ∧
        next_event seq cur.time p1 = some p3 ∧ drain_events t seq fuel p3 = some (q, rest) ∧
        log = cur.event :: rest) := by
  simp only [drain_events] at h
  by_cases hc : ¬ p.done ∧ p.ticks_to_event = 0
  · simp only [hc, not_false_eq_true, and_self, if_true] at h
    right
    refine ⟨by simpa using hc.1, hc.2, ?_⟩
    cases h1 : seq.events[p.current]? with
    | none => simp only [h1] at h; exact absurd h (by simp)
    | some cur =>
      simp only [h1] at h
      cases h2 : do_event t p cur.event with
      | none => simp only [h2] at h; exact absurd h (by simp)
      | some p1 =>
        simp only [h2] at h
        cases h3 : next_event seq cur.time p1 with
        | none => simp only [h3] at h; exact absurd h (by simp)
        | some p3 =>
          simp only [h3] at h
          cases h4 : drain_events t seq fuel p3 with
          | none => simp only [h4] at h; exact absurd h (by simp)
          | some res =>
            obtain ⟨q', rest⟩ := res
            simp only [h4] at h
            have e := Option.some.inj h
            have e1 : q' = q := congrArg Prod.fst e
            have e2 : cur.event :: rest = log := congrArg Prod.snd e
            subst e1
            exact ⟨cur, p1, p3, rest, by first | exact h1 | rfl, h2, h3, h4, e2.symm⟩
  · simp only [hc, if_false] at h
    have e := Option.some.inj h
    left
    refine ⟨?_, (congrArg Prod.fst e).symm, (congrArg Prod.snd e).symm⟩
    by_cases hd : p.done = true
    · exact Or.inl hd
    · right
      intro h0
      exact hc ⟨by simpa using hd, h0⟩

theorem next_event_inv {seq : MDV_Sequence} {old_time : Nat} {p q : MDV_Player}
    (h : next_event seq old_time p = some q) :
    q.current = p.current + 1 ∧ q.tick_length = p.tick_length ∧ q.seq = p.seq ∧
    q.bank = p.bank ∧ q.samples_to_tick = p.samples_to_tick ∧ q.channels = p.channels ∧
    q.inactive = p.inactive ∧ q.voices = p.voices ∧ q.clip_count = p.clip_count ∧
    ((seq.events.length ≤ p.current + 1 ∧ q.done = true ∧ q.ticks_to_event = p.ticks_to_event) ∨
     (∃ nxt, seq.events[p.current + 1]? = some nxt ∧ q.done = p.done ∧
        q.ticks_to_event = (((nxt.time : Int) - (old_time : Int)) % 2 ^ 32).toNat)) := by
  simp only [next_event] at h
  split_ifs at h with hc
  · have e := Option.some.inj h
    subst e
    exact ⟨rfl, rfl, rfl, rfl, rfl, rfl, rfl, rfl, rfl, Or.inl ⟨hc, rfl, rfl⟩⟩
  · cases hn : seq.events[p.current + 1]? with
    | none => simp only [hn] at h; exact absurd h (by simp)
    | some nxt =>
      simp only [hn] at h
      have e := Option.some.inj h
      subst e
      exact ⟨rfl, rfl, rfl, rfl, rfl, rfl, rfl, rfl, rfl, Or.inr ⟨nxt, rfl, rfl, rfl⟩⟩

theorem next_event_pool {seq : MDV_Sequence} {old_time : Nat} {p q : MDV_Player}
    (hp : PoolOK p) (h : next_event seq old_time p = some q) : PoolOK q := by
  obtain ⟨_, _, _, _, _, h1, h2, h3, _⟩ := next_event_inv h
  obtain ⟨free, act, hpl⟩ := hp
  exact ⟨free, act, pool_congr hpl h2 (fun c _ => by rw [h1]) (fun i => by rw [h3])⟩

theorem drain_events_pool (t : Tables) (seq : MDV_Sequence) :
    ∀ (fuel : Nat) (p q : MDV_Player) (log : List MDV_Event), PoolOK p →
      drain_events t seq fuel p = some (q, log) → PoolOK q := by
  intro fuel
  induction fuel with
  | zero => intro p q log _ h; simp [drain_events] at h
  | succ fuel ih =>
    intro p q log hp h
    rcases drain_events_inv h with ⟨_, rfl, _⟩ | ⟨_, _, cur, p1, p3, rest, _, h2, h3, h4, _⟩
    · exact hp
    · exact ih p3 q rest (next_event_pool (do_event_pool hp h2) h3) h4

theorem advance_timeline_inv {t : Tables} {seq : MDV_Sequence} {p q : MDV_Player}
    {log : List MDV_Event} (h : advance_timeline t seq p = some (q, log)) :
    ((p.done = true ∨ p.samples_to_tick ≠ 0) ∧ log = [] ∧
      q = { p with samples_to_tick := (p.samples_to_tick + 2 ^ 32 - 1) % 2 ^ 32 }) ∨
    (p.done = false ∧ p.samples_to_tick = 0 ∧
      ∃ p1, drain_events t seq (seq.events.length + 1) p = some (p1, log) ∧
        q = { p1 with
          ticks_to_event := (p1.ticks_to_event + 2 ^ 32 - 1) % 2 ^ 32
          samples_to_tick := (p1.tick_length + 2 ^ 32 - 1) % 2 ^ 32 }) := by
  simp only [advance_timeline] at h
  by_cases hc : ¬ p.done ∧ p.samples_to_tick = 0
  · simp only [hc, not_false_eq_true, and_self, if_true] at h
    right
    refine ⟨by simpa using hc.1, hc.2, ?_⟩
    cases hd : drain_events t seq (seq.events.length + 1) p with
    | none => simp only [hd] at h; exact absurd h (by simp)
    | some res =>
      obtain ⟨p1, log1⟩ := res
      simp only [hd] at h
      have e := Option.some.inj h
      have e1 := congrArg Prod.fst e
      have e2 : log1 = log := congrArg Prod.snd e
      subst e2
      exact ⟨p1, rfl, e1.symm⟩
  · simp only [hc, if_false] at h
    have e := Option.some.inj h
    left
    refine ⟨?_, (congrArg Prod.snd e).symm, (congrArg Prod.fst e).symm⟩
    by_cases hd : p.done = true
    · exact Or.inl hd
    · right
      intro h0
      exact hc ⟨by simpa using hd, h0⟩

theorem advance_timeline_pool {t : Tables} {seq : MDV_Sequence} {p q : MDV_Player}
    {log : List MDV_Event} (hp : PoolOK p) (h : advance_timeline t seq p = some (q, log)) :
    PoolOK q := by
  rcases advance_timeline_inv h with ⟨_, _, rfl⟩ | ⟨_, _, p1, hd, rfl⟩
  · obtain ⟨free, act, hpl⟩ := hp
    exact ⟨free, act, pool_congr hpl rfl (fun _ _ => rfl) (fun _ => rfl)⟩
  · obtain ⟨free, act, hpl⟩ := drain_events_pool t seq _ p p1 log hp hd
    exact ⟨free, act, pool_congr hpl rfl (fun _ _ => rfl) (fun _ => rfl)⟩

theorem render_frame_inv {t : Tables} {seq : MDV_Sequence} {p q : MDV_Player} {f : Frame}
    (h : render_frame t seq p = some (q, f)) :
    ∃ p1, advance_timeline t seq p = some (p1, f.dispatched) ∧
      mix_voices t p1 = some (q, f.out) := by
  simp only [render_frame] at h
  cases ha : advance_timeline t seq p with
  | none => simp only [ha] at h; exact absurd h (by simp)
  | some res =>
    obtain ⟨p1, log⟩ := res
    simp only [ha] at h
    cases hm : mix_voices t p1 with
    | none => simp only [hm] at h; exact absurd h (by simp)
    | some res2 =>
      obtain ⟨p2, out⟩ := res2
      simp only [hm] at h
      have e := Option.some.inj h
      have e1 : p2 = q := congrArg Prod.fst e
      have e2 : (⟨out, log⟩ : Frame) = f := congrArg Prod.snd e
      subst e1 e2
      exact ⟨p1, rfl, hm⟩

theorem get_audio_frames_inv {t : Tables} {seq : MDV_Sequence} {n : Nat} {p q : MDV_Player}
    {fs : List Frame} (h : get_audio_frames t seq (n + 1) p = some (q, fs)) :
    ∃ p1 f rest, render_frame t seq p = some (p1, f) ∧
      get_audio_frames t seq n p1 = some (q, rest) ∧ fs = f :: rest := by
  simp only [get_audio_frames] at h
  cases ha : render_frame t seq p with
  | none => simp only [ha] at h; exact absurd h (by simp)
  | some res =>
    obtain ⟨p1, f⟩ := res
    simp only [ha] at h
    cases hm : get_audio_frames t seq n p1 with
    | none => simp only [hm] at h; exact absurd h (by simp)
    | some res2 =>
      obtain ⟨p2, rest⟩ := res2
      simp only [hm] at h
      have e := Option.some.inj h
      have e1 : p2 = q := congrArg Prod.fst e
      have e2 : f :: rest = fs := congrArg Prod.snd e
      subst e1
      exact ⟨p1, f, rest, rfl, hm, e2.symm⟩

theorem get_audio_frames_pool (t : Tables) (seq : MDV_Sequence) :
    ∀ (n : Nat) (p q : MDV_Player) (fs : List Frame), PoolOK p →
      get_audio_frames t seq n p = some (q, fs) → PoolOK q := by
  intro n
  induction n with
  | zero =>
    intro p q fs hp h
    simp only [get_audio_frames] at h
    have e : p = q := congrArg Prod.fst (Option.some.inj h)
    subst e
    exact hp
  | succ n ih =>
    intro p q fs hp h
    obtain ⟨p1, f, rest, h1, h2, _⟩ := get_audio_frames_inv h
    obtain ⟨p0, ha, hm⟩ := render_frame_inv h1
    exact ih p1 q rest (mix_voices_pool (advance_timeline_pool hp ha) hm) h2

theorem mdv_get_audio_pool {t : Tables} {p q : MDV_Player} {len : Int} {fs : List Frame}
    (hp : PoolOK p) (h : mdv_get_audio t p len = some (q, fs)) : PoolOK q := by
  simp only [mdv_get_audio] at h
  cases hs : p.seq with
  | none =>
    simp only [hs] at h
    have e : p = q := congrArg Prod.fst (Option.some.inj h)
    subst e
    exact hp
  | some seq =>
    simp only [hs] at h
    split_ifs at h
    · have e : p = q := congrArg Prod.fst (Option.some.inj h)
      subst e
      exact hp
    · exact get_audio_frames_pool t seq _ p q fs hp h

theorem fast_forward_loop_inv {t : Tables} {seq : MDV_Sequence} {fuel : Nat}
    {p q : MDV_Player} {log : List MDV_Event}
    (h : fast_forward_loop t seq (fuel + 1) p = some (q, log)) :
    (p.done = true ∧ q = p ∧ log = []) ∨
    (p.done = false ∧ ∃ cur, seq.events[p.current]? = some cur ∧
      ((cur.event.type = MDV_Event_Type.MDV_NOTE_ON ∧ q = p ∧ log = []) ∨
       (cur.event.type ≠ MDV_Event_Type.MDV_NOTE_ON ∧
        ∃ p1 rest, do_event t p cur.event = some p1 ∧
          fast_forward_loop t seq fuel
            (if p1.current + 1 ≥ seq.events.length then
              { p1 with current := p1.current + 1, done := true }
             else { p1 with current := p1.current + 1 }) = some (q, rest) ∧
          log = cur.event :: rest))) := by
  simp only [fast_forward_loop] at h
  by_cases hd : p.done = true
  · simp only [hd, if_true] at h
    have e := Option.some.inj h
    exact Or.inl ⟨hd, (congrArg Prod.fst e).symm, (congrArg Prod.snd e).symm⟩
  · simp only [hd, if_false] at h
    right
    refine ⟨by simpa using hd, ?_⟩
    cases h1 : seq.events[p.current]? with
    | none => simp only [h1] at h; exact absurd h (by simp)
    | some cur =>
      simp only [h1] at h
      refine ⟨cur, rfl, ?_⟩
      by_cases hn : cur.event.type = MDV_Event_Type.MDV_NOTE_ON
      · simp only [hn, if_true] at h
        have e := Option.some.inj h
        exact Or.inl ⟨hn, (congrArg Prod.fst e).symm, (congrArg Prod.snd e).symm⟩
      · simp only [hn, if_false] at h
        right
        refine ⟨hn, ?_⟩
        cases h2 : do_event t p cur.event with
        | none => simp only [h2] at h; exact absurd h (by simp)
        | some p1 =>
          simp only [h2] at h
          cases h4 : fast_forward_loop t seq fuel
              (if p1.current + 1 ≥ seq.events.length then
                { p1 with current := p1.current + 1, done := true }
               else { p1 with current := p1.current + 1 }) with
          | none => simp only [h4] at h; exact absurd h (by simp)
          | some res =>
            obtain ⟨q', rest⟩ := res
            simp only [h4] at h
            have e := Option.some.inj h
            have e1 : q' = q := congrArg Prod.fst e
            have e2 : cur.event :: rest = log := congrArg Prod.snd e
            subst e1
            exact ⟨p1, rest, rfl, h4, e2.symm⟩

theorem fast_forward_loop_pool (t : Tables) (seq : MDV_Sequence) :
    ∀ (fuel : Nat) (p q : MDV_Player) (log : List MDV_Event), PoolOK p →
      fast_forward_loop t seq fuel p = some (q, log) → PoolOK q := by
  intro fuel
  induction fuel with
  | zero => intro p q log _ h; simp [fast_forward_loop] at h
  | succ fuel ih =>
    intro p q log hp h
    rcases fast_forward_loop_inv h with ⟨_, rfl, _⟩ | ⟨_, cur, _, h2⟩
    · exact hp
    · rcases h2 with ⟨_, rfl, _⟩ | ⟨_, p1, rest, h3, h4, _⟩
      · exact hp
      · refine ih _ q rest ?_ h4
        obtain ⟨free, act, hpl⟩ := do_event_pool hp h3
        split_ifs
        · exact ⟨free, act, pool_congr hpl rfl (fun _ _ => rfl) (fun _ => rfl)⟩
        · exact ⟨free, act, pool_congr hpl rfl (fun _ _ => rfl) (fun _ => rfl)⟩

theorem mdv_fast_forward_pool {t : Tables} {p q : MDV_Player} {log : List MDV_Event}
    (hp : PoolOK p) (h : mdv_fast_forward_to_note t p = some (q, log)) : PoolOK q := by
  simp only [mdv_fast_forward_to_note] at h
  cases hs : p.seq with
  | none =>
    simp only [hs] at h
    have e : p = q := congrArg Prod.fst (Option.some.inj h)
    subst e
    exact hp
  | some seq =>
    simp only [hs] at h
    refine fast_forward_loop_pool t seq _ _ q log ?_ h
    obtain ⟨free, act, hpl⟩ := hp
    exact ⟨free, act, pool_congr hpl rfl (fun _ _ => rfl) (fun _ => rfl)⟩

theorem mdv_play_sequence_pool {p q : MDV_Player} {seq : MDV_Sequence} (hp : PoolOK p)
    (h : mdv_play_sequence p seq = some q) : PoolOK q := by
  simp only [mdv_play_sequence] at h
  split_ifs at h
  cases h0 : seq.events[0]? with
  | none => simp only [h0] at h; exact absurd h (by simp)
  | some ev =>
    simp only [h0] at h
    have e := Option.some.inj h
    subst e
    obtain ⟨free, act, hpl⟩ := hp
    exact ⟨free, act, pool_congr hpl rfl (fun _ _ => rfl) (fun _ => rfl)⟩

theorem reachable_pool {t : Tables} {s : MDV_Player} (h : Reachable t s) : PoolOK s := by
  induction h with
  | reset p => exact ⟨_, _, pool_reset p⟩
  | play seq _ h ih => exact mdv_play_sequence_pool ih h
  | event e _ h ih => exact do_event_pool ih h
  | forward log _ h ih => exact mdv_fast_forward_pool ih h
  | audio len fs _ h ih => exact mdv_get_audio_pool ih h

theorem pool_perm {p : MDV_Player} {free : List Nat} {act : Nat → List Nat}
    (hp : Pool p free act) : (all_listed free act).Perm (List.range 255) := by
  have hmem : ∀ i, i ∈ all_listed free act ↔ i ∈ List.range 255 := by
    intro i
    simp only [all_listed, List.mem_append, List.mem_flatMap, List.mem_range]
    constructor
    · rintro (h | ⟨c, hc, h⟩)
      · exact chain_lt hp.free_list i h
      · exact chain_lt (hp.act_list c hc) i h
    · intro h
      rcases hp.cover i h with h | ⟨c, hc, h⟩
      · exact Or.inl h
      · exact Or.inr ⟨c, hc, h⟩
  have hnd : (all_listed free act).Nodup := by
    simp only [all_listed]
    refine List.nodup_append.mpr ⟨chain_nodup hp.free_list, ?_, ?_⟩
    · refine List.nodup_flatMap.mpr ⟨?_, ?_⟩
      · intro c hc
        exact chain_nodup (hp.act_list c (List.mem_range.mp hc))
      · refine List.Pairwise.imp_of_mem ?_ (List.pairwise_lt_range 16)
        intro a b ha hb hab
        intro i hia hib
        exact hp.act_act a b (List.mem_range.mp ha) (List.mem_range.mp hb) (by omega) i hia hib
    · intro i hif hia
      obtain ⟨c, hc, h⟩ := List.mem_flatMap.mp hia
      exact hp.free_act c (List.mem_range.mp hc) i h hif
  exact (List.perm_ext_iff_of_nodup hnd (List.nodup_range 255)).mpr hmem

/-- C1. Voice pool partition: in every state reachable from `mdv_reset_player`
by `mdv_play_sequence`, `do_event`, `mdv_fast_forward_to_note` and
`mdv_get_audio`, the inactive chain and the 16 channel chains are lists that
end in the sentinel 255 (so none has a cycle), every voice index below 255
occurs exactly once on the 17 lists taken together, nothing else occurs on
them, and their lengths sum to 255. -/
theorem pool_partition (t : Tables) (s : MDV_Player) (h : Reachable t s) :
    ∃ (free : List Nat) (act : Nat → List Nat),
      IsList s.voices s.inactive free ∧
      (∀ c, c < 16 → IsList s.voices (s.channels c).voices (act c)) ∧
      (∀ i, i < 255 → (all_listed free act).count i = 1) ∧
      (∀ i, i ∈ all_listed free act → i < 255) ∧
      free.length + ((List.range 16).map (fun c => (act c).length)).sum = 255 := by
  obtain ⟨free, act, hp⟩ := reachable_pool h
  have hperm := pool_perm hp
  refine ⟨free, act, hp.free_list, hp.act_list, ?_, ?_, ?_⟩
  · intro i hi
    rw [hperm.count_eq]
    exact List.count_eq_one_of_mem (List.nodup_range 255) (List.mem_range.mpr hi)
  · intro i hi
    exact List.mem_range.mp (hperm.subset hi)
  · have hl := hperm.length_eq
    simp only [all_listed, List.length_append, List.length_flatMap, List.length_range] at hl
    exact hl

theorem reachable_do_events {t : Tables} :
    ∀ (es : List MDV_Event) (p q : MDV_Player), Reachable t p → do_events t es p = some q →
      Reachable t q := by
  intro es
  induction es with
  | nil =>
    intro p q hp h
    simp only [do_events] at h
    have e := Option.some.inj h
    subst e
    exact hp
  | cons e es ih =>
    intro p q hp h
    simp only [do_events] at h
    cases he : do_event t p e with
    | none => simp only [he] at h; exact absurd h (by simp)
    | some p1 =>
      simp only [he] at h
      exact ih p1 q (Reachable.event e hp he) h

theorem reachable_three_mixed : Reachable tables0 three_mixed := by
  have h1 : Reachable tables0 three_notes :=
    reachable_do_events [note_on 0 60 100, note_on 0 60 90, note_on 3 64 80] fresh_player
      three_notes (Reachable.reset player0) rfl
  have h2 : Reachable tables0 three_playing := Reachable.play tempo_seq h1 rfl
  exact Reachable.audio 8 ((mdv_get_audio tables0 three_playing 8).map Prod.snd |>.getD []) h2 rfl

/-- C1, witness: the state after three NoteOn events, `mdv_play_sequence` and
two frames of `mdv_get_audio`. -/
theorem pool_partition_witness :
    Reachable tables0 three_mixed ∧
    ∃ (free : List Nat) (act : Nat → List Nat),
      IsList three_mixed.voices three_mixed.inactive free ∧
      (∀ c, c < 16 → IsList three_mixed.voices (three_mixed.channels c).voices (act c)) ∧
      (∀ i, i < 255 → (all_listed free act).count i = 1) ∧
      (∀ i, i ∈ all_listed free act → i < 255) ∧
      free.length + ((List.range 16).map (fun c => (act c).length)).sum = 255 :=
  ⟨reachable_three_mixed, pool_partition tables0 three_mixed reachable_three_mixed⟩

/-! ## ProgramChange -/

theorem silence_channel_channels (c : Nat) :
    ∀ (fuel : Nat) (p q : MDV_Player), silence_channel c fuel p = some q →
      (q.channels c).voices = 255 ∧ ∀ d, d ≠ c → q.channels d = p.channels d := by
  intro fuel
  induction fuel with
  | zero =>
    intro p q h
    simp only [silence_channel] at h
    split_ifs at h with hc
    cases h
    exact ⟨hc, fun _ _ => rfl⟩
  | succ fuel ih =>
    intro p q h
    simp only [silence_channel] at h
    split_ifs at h with hc
    · cases h
      exact ⟨hc, fun _ _ => rfl⟩
    · obtain ⟨a, b⟩ := ih _ _ h
      refine ⟨a, fun d hd => ?_⟩
      rw [b d hd]
      simp [Function.update_noteq hd]

theorem do_event_quiet {t : Tables} {p q : MDV_Player} {e : MDV_Event} {ch : Nat}
    (hq : (p.channels ch).voices = 255) (hne : ¬ allocates_on ch e)
    (h : do_event t p e = some q) : (q.channels ch).voices = 255 := by
  have hoff : ∀ q, do_note_off p e = some q → (q.channels ch).voices = 255 := by
    intro q h
    simp only [do_note_off] at h
    split_ifs at h
    · cases hs : note_off_scan e.param1 255 (p.channels e.channel).voices p.voices with
      | none => simp [hs] at h
      | some ws =>
        simp only [hs, Option.map_some', Option.some.injEq] at h
        subst h
        exact hq
    · cases h
      exact hq
  have hctl : ∀ (c : Channel), c.voices = (p.channels e.channel).voices →
      (Function.update p.channels e.channel c ch).voices = 255 := by
    intro c hc
    by_cases hcc : ch = e.channel
    · subst hcc
      simp only [Function.update_same]
      rw [hc]
      exact hq
    · simp only [Function.update_noteq hcc]
      exact hq
  unfold do_event at h
  split at h
  · exact hoff q h
  · rename_i htype
    by_cases h1 : e.param2 = 0
    · simp only [h1, if_true] at h
      exact hoff q h
    · by_cases h2 : p.inactive ≠ 255
      · by_cases h3 : e.channel < 16
        · simp only [h1, h2, h3, if_true, if_false, ne_eq, not_false_eq_true] at h
          cases hb : bank_patch p.bank e.channel e.param1 (p.channels e.channel).program with
          | none => simp only [hb] at h; exact absurd h (by simp)
          | some patch =>
            simp only [hb] at h
            cases h
            have hcc : ch ≠ e.channel := fun hc => hne ⟨htype, hc.symm, h1⟩
            simp only [Function.update_noteq hcc]
            exact hq
        · simp only [h1, h2, h3, if_true, if_false, ne_eq, not_false_eq_true] at h
          cases h
      · simp only [h1, h2, if_false] at h
        cases h
        exact hq
  · split_ifs at h <;> cases h <;> first | exact hctl _ rfl | exact hq
  · split_ifs at h with h1
    cases hs : silence_channel e.channel 255 p with
    | none => simp [hs] at h
    | some s =>
      simp only [hs, Option.map_some', Option.some.injEq] at h
      subst h
      obtain ⟨a, b⟩ := silence_channel_channels _ _ _ _ hs
      by_cases hcc : ch = e.channel
      · subst hcc
        simpa using a
      · simp only [Function.update_noteq hcc]
        rw [b ch hcc]
        exact hq
  · split_ifs at h
    have := Option.some.inj h
    subst this
    exact hctl _ rfl
  · split at h
    · cases h
    · split_ifs at h
      cases h
      exact hq
  · cases h
    exact hq

theorem drain_events_quiet (t : Tables) (seq : MDV_Sequence) (ch : Nat) :
    ∀ (fuel : Nat) (p q : MDV_Player) (log : List MDV_Event),
      (p.channels ch).voices = 255 → (∀ e, e ∈ log → ¬ allocates_on ch e) →
      drain_events t seq fuel p = some (q, log) → (q.channels ch).voices = 255 := by
  intro fuel
  induction fuel with
  | zero => intro p q log _ _ h; simp [drain_events] at h
  | succ fuel ih =>
    intro p q log hq hlog h
    rcases drain_events_inv h with ⟨_, rfl, _⟩ | ⟨_, _, cur, p1, p3, rest, _, h2, h3, h4, h5⟩
    · exact hq
    · subst h5
      have hq1 := do_event_quiet hq (hlog _ (List.mem_cons_self _ _)) h2
      obtain ⟨_, _, _, _, _, hch, _⟩ := next_event_inv h3
      refine ih p3 q rest ?_ (fun e he => hlog e (List.mem_cons_of_mem _ he)) h4
      rw [hch]
      exact hq1

theorem render_frame_quiet {t : Tables} {seq : MDV_Sequence} {p q : MDV_Player} {f : Frame}
    {ch : Nat} (hq : (p.channels ch).voices = 255)
    (hlog : ∀ e, e ∈ f.dispatched → ¬ allocates_on ch e)
    (h : render_frame t seq p = some (q, f)) : (q.channels ch).voices = 255 := by
  obtain ⟨p1, ha, hm⟩ := render_frame_inv h
  refine mix_voices_quiet ch ?_ hm
  rcases advance_timeline_inv ha with ⟨_, _, rfl⟩ | ⟨_, _, p0, hd, rfl⟩
  · exact hq
  · exact drain_events_quiet t seq ch _ p p0 _ hq hlog hd

theorem quiet_run_quiet {t : Tables} {ch : Nat} {p s : MDV_Player} (h : QuietRun t ch p s)
    (hq : (p.channels ch).voices = 255) : (s.channels ch).voices = 255 := by
  induction h with
  | refl => exact hq
  | event e _ hne he ih => exact do_event_quiet ih hne he
  | frame seq f _ hlog hf ih => exact render_frame_quiet ih hlog hf

/-- C5. ProgramChange silences the channel: on a partitioned pool with inactive
list `free` and channel lists `act`, `ProgramChange(ch, prog, p2)` on a channel
below 16 returns a player in which channel `ch` has no voice and program `prog`,
the inactive list is the former list of `ch` (reversed) followed by the former
inactive list, every other channel keeps its list and all channels keep their
other fields. Until a NoteOn with non-zero velocity is dispatched on `ch`, the
channel stays empty and its voice loop leaves the accumulators of the mixer as
they are. -/
theorem program_change_silences (t : Tables) (p : MDV_Player) (ch prog p2 : Nat)
    (free : List Nat) (act : Nat → List Nat) (hp : Pool p free act) (hch : ch < 16) :
    ∃ q, do_event t p (program_change ch prog p2) = some q ∧
      (q.channels ch).voices = 255 ∧ (q.channels ch).program = prog ∧
      Pool q ((act ch).reverse ++ free) (Function.update act ch []) ∧
      q.channels = Function.update p.channels ch
        { p.channels ch with voices := 255, program := prog } ∧
      (∀ s, QuietRun t ch q s →
        (s.channels ch).voices = 255 ∧
        ∀ left right, mix_channel t ch 255 (Slot.head ch) s left right = some (s, left, right)) := by
  obtain ⟨s, hs, hpool, hchan, _⟩ :=
    silence_channel_spec hch 255 p free act hp (chain_length_le (hp.act_list _ hch))
  refine ⟨{ s with
      channels := Function.update s.channels ch { s.channels ch with program := prog } },
    ?_, ?_, ?_, ?_, ?_, ?_⟩
  · simp only [do_event, program_change, hch, if_true, hs, Option.map_some']
  · simp [hchan]
  · simp
  · refine pool_congr hpool rfl ?_ (fun _ => rfl)
    intro c _
    by_cases hc : c = ch
    · rw [hc]; simp
    · simp [Function.update_noteq hc]
  · simp [hchan]
  · intro s' hrun
    have hq := quiet_run_quiet hrun (by simp [hchan])
    exact ⟨hq, fun l r => mix_channel_empty t ch 255 s' l r hq⟩

/-- C5, witness: `ProgramChange(0, 5, 0)` on `three_notes`, whose channel 0
holds two voices. -/
theorem program_change_silences_witness :
    (0 : Nat) < 16 ∧
    ∃ free act, Pool three_notes free act ∧
    ∃ q, do_event tables0 three_notes (program_change 0 5 0) = some q ∧
      (q.channels 0).voices = 255 ∧ (q.channels 0).program = 5 ∧
      Pool q ((act 0).reverse ++ free) (Function.update act 0 []) := by
  have hr : Reachable tables0 three_notes :=
    reachable_do_events [note_on 0 60 100, note_on 0 60 90, note_on 3 64 80] fresh_player
      three_notes (Reachable.reset player0) rfl
  obtain ⟨free, act, hp⟩ := reachable_pool hr
  obtain ⟨q, h1, h2, h3, h4, _⟩ :=
    program_change_silences tables0 three_notes 0 5 0 free act hp (by decide)
  exact ⟨by decide, free, act, hp, q, h1, h2, h3, h4⟩

/-! ## Fast-forward -/

theorem do_event_defined {t : Tables} {p : MDV_Player} {e : MDV_Event} (hp : PoolOK p)
    (he : dispatchable e) (hn : e.type ≠ MDV_Event_Type.MDV_NOTE_ON)
    (hseq : e.type = MDV_Event_Type.MDV_SET_TEMPO → ∃ seq, p.seq = some seq ∧ seq.tpb ≠ 0) :
    ∃ q, do_event t p e = some q := by
  obtain ⟨free, act, hpl⟩ := hp
  have hch : e.type ≠ MDV_Event_Type.MDV_SET_TEMPO → (∀ code, e.type ≠ MDV_Event_Type.other code) →
      e.channel < 16 := by
    intro h1 h2
    rcases he with h | ⟨code, h⟩ | h
    · exact absurd h h1
    · exact absurd h (h2 code)
    · exact h
  have hoff : e.channel < 16 → ∃ q, do_note_off p e = some q := by
    intro hc
    simp only [do_note_off, hc, if_true]
    split_ifs
    · have hl := hpl.act_list e.channel hc
      rw [note_off_scan_spec e.param1 p.voices _ 255 _ hl (chain_length_le hl)]
      exact ⟨_, rfl⟩
    · exact ⟨_, rfl⟩
  cases ht : e.type with
  | MDV_NOTE_OFF =>
    have hc := hch (by simp [ht]) (by simp [ht])
    simp only [do_event, ht]
    exact hoff hc
  | MDV_NOTE_ON => exact absurd ht hn
  | MDV_CONTROLLER =>
    have hc := hch (by simp [ht]) (by simp [ht])
    simp only [do_event, ht, hc, if_true]
    split_ifs <;> exact ⟨_, rfl⟩
  | MDV_PROGRAM_CHANGE =>
    have hc := hch (by simp [ht]) (by simp [ht])
    obtain ⟨s, hs, _⟩ :=
      silence_channel_spec hc 255 p free act hpl (chain_length_le (hpl.act_list _ hc))
    simp only [do_event, ht, hc, if_true, hs, Option.map_some']
    exact ⟨_, rfl⟩
  | MDV_PITCH_BEND =>
    have hc := hch (by simp [ht]) (by simp [ht])
    simp only [do_event, ht, hc, if_true]
    exact ⟨_, rfl⟩
  | MDV_SET_TEMPO =>
    obtain ⟨seq, h1, h2⟩ := hseq ht
    simp only [do_event, ht, h1, h2, if_false]
    exact ⟨_, rfl⟩
  | other code =>
    simp only [do_event, ht]
    exact ⟨_, rfl⟩

theorem do_event_no_alloc {t : Tables} {p q : MDV_Player} {e : MDV_Event}
    {free : List Nat} {act : Nat → List Nat} (hp : Pool p free act)
    (hne : e.type ≠ MDV_Event_Type.MDV_NOTE_ON) (h : do_event t p e = some q) :
    ∃ free' act', Pool q free' act' ∧ ∀ i, i ∈ free → i ∈ free' := by
  have hoff : ∀ q, do_note_off p e = some q →
      ∃ free' act', Pool q free' act' ∧ ∀ i, i ∈ free → i ∈ free' := by
    intro q h
    simp only [do_note_off] at h
    split_ifs at h
    · cases hs : note_off_scan e.param1 255 (p.channels e.channel).voices p.voices with
      | none => simp [hs] at h
      | some ws =>
        simp only [hs, Option.map_some', Option.some.injEq] at h
        subst h
        exact ⟨free, act, pool_congr hp rfl (fun _ _ => rfl) (note_off_scan_next _ _ _ _ _ hs),
          fun _ hi => hi⟩
    · cases h
      exact ⟨free, act, hp, fun _ hi => hi⟩
  have hctl : ∀ (ch : Channel), ch.voices = (p.channels e.channel).voices →
      ∃ free' act', Pool { p with channels := Function.update p.channels e.channel ch } free' act'
        ∧ ∀ i, i ∈ free → i ∈ free' := by
    intro ch hch
    refine ⟨free, act, pool_congr hp rfl ?_ (fun _ => rfl), fun _ hi => hi⟩
    intro c _
    by_cases hc : c = e.channel
    · subst hc; simpa using hch
    · simp [Function.update_noteq hc]
  unfold do_event at h
  split at h
  · exact hoff q h
  · rename_i ht
    exact absurd ht hne
  · split_ifs at h <;> cases h <;> first | exact hctl _ rfl | exact ⟨free, act, hp, fun _ hi => hi⟩
  · split_ifs at h with h1
    obtain ⟨s, hs, hpool, _⟩ :=
      silence_channel_spec h1 255 p free act hp (chain_length_le (hp.act_list _ h1))
    rw [hs] at h
    simp only [Option.map_some', Option.some.injEq] at h
    subst h
    refine ⟨_, _, pool_congr hpool rfl ?_ (fun _ => rfl), fun i hi => List.mem_append_right _ hi⟩
    intro c _
    by_cases hc : c = e.channel
    · rw [hc]; simp
    · simp [Function.update_noteq hc]
  · split_ifs at h
    have := Option.some.inj h
    subst this
    exact hctl _ rfl
  · split at h
    · cases h
    · split_ifs at h
      cases h
      exact ⟨free, act, pool_congr hp rfl (fun _ _ => rfl) (fun _ => rfl), fun _ hi => hi⟩
  · cases h
    exact ⟨free, act, hp, fun _ hi => hi⟩

theorem event_slice_self (seq : MDV_Sequence) (a : Nat) : event_slice seq a a = [] := by
  simp [event_slice]

theorem event_slice_cons (seq : MDV_Sequence) (a b : Nat) (cur : MDV_Timed_Event)
    (h : seq.events[a]? = some cur) (hab : a < b) :
    event_slice seq a b = cur.event :: event_slice seq (a + 1) b := by
  obtain ⟨hlt, hget⟩ := List.getElem?_eq_some_iff.mp h
  unfold event_slice
  rw [List.drop_eq_getElem_cons hlt, hget]
  have e : b - a = (b - (a + 1)) + 1 := by omega
  rw [e, List.take_succ_cons, List.map_cons]

theorem fast_forward_loop_spec (t : Tables) (seq : MDV_Sequence) (htpb : seq.tpb ≠ 0)
    (hev : ∀ te, te ∈ seq.events → dispatchable te.event) :
    ∀ (fuel : Nat) (p : MDV_Player) (free : List Nat) (act : Nat → List Nat),
      p.seq = some seq → Pool p free act →
      (p.done = true ∨ p.current < seq.events.length) →
      0 < fuel → (p.done = false → seq.events.length < p.current + fuel) →
      ∃ q log, fast_forward_loop t seq fuel p = some (q, log) ∧
        (q.done = true ∧ (p.done = false → seq.events.length ≤ q.current) ∨
         q.done = false ∧ ∃ te, seq.events[q.current]? = some te ∧
           te.event.type = MDV_Event_Type.MDV_NOTE_ON) ∧
        p.current ≤ q.current ∧ log = event_slice seq p.current q.current ∧
        (∀ e, e ∈ log → e.type ≠ MDV_Event_Type.MDV_NOTE_ON) ∧
        q.samples_to_tick = p.samples_to_tick ∧ q.ticks_to_event = p.ticks_to_event ∧
        ∃ free' act', Pool q free' act' ∧ ∀ i, i ∈ free → i ∈ free' := by
  intro fuel
  induction fuel with
  | zero => intro p free act _ _ _ h0; omega
  | succ fuel ih =>
    intro p free act hseq hp hcur _ hfuel
    by_cases hd : p.done = true
    · refine ⟨p, [], by simp [fast_forward_loop, hd], Or.inl ⟨hd, fun h => ?_⟩, le_refl _,
        (event_slice_self seq _).symm, fun e he => absurd he (List.not_mem_nil e), rfl, rfl, free, act, hp,
        fun _ hi => hi⟩
      rw [hd] at h
      cases h
    · have hdf : p.done = false := by simpa using hd
      have hlt : p.current < seq.events.length := by
        rcases hcur with h | h
        · exact absurd h hd
        · exact h
      have hget : seq.events[p.current]? = some seq.events[p.current] :=
        List.getElem?_eq_getElem hlt
      generalize hcurdef : seq.events[p.current] = cur at hget
      by_cases hn : cur.event.type = MDV_Event_Type.MDV_NOTE_ON
      · refine ⟨p, [], by simp [fast_forward_loop, hd, hget, hn], Or.inr ⟨hdf, cur, hget, hn⟩,
          le_refl _, (event_slice_self seq _).symm, fun e he => absurd he (List.not_mem_nil e), rfl, rfl, free, act,
          hp, fun _ hi => hi⟩
      · have hmem : cur ∈ seq.events := by
          rw [← hcurdef]
          exact List.getElem_mem hlt
        obtain ⟨p1, h1⟩ := do_event_defined (t := t) ⟨free, act, hp⟩ (hev cur hmem) hn
          (fun _ => ⟨seq, hseq, htpb⟩)
        obtain ⟨hclock, _, _, _⟩ := do_event_clock h1
        simp only [clock, Prod.mk.injEq] at hclock
        obtain ⟨c1, c2, c3, c4, c5⟩ := hclock
        obtain ⟨free1, act1, hp1, hsub1⟩ := do_event_no_alloc hp hn h1
        have hstep : ∀ p3 : MDV_Player,
            p3 = (if p1.current + 1 ≥ seq.events.length then
              { p1 with current := p1.current + 1, done := true }
             else { p1 with current := p1.current + 1 }) →
            p3.seq = some seq ∧ Pool p3 free1 act1 ∧ p3.current = p.current + 1 ∧
            (p3.done = true ∨ p3.current < seq.events.length) ∧
            (p3.done = true → seq.events.length ≤ p3.current) ∧
            p3.samples_to_tick = p.samples_to_tick ∧ p3.ticks_to_event = p.ticks_to_event := by
          intro p3 hp3
          subst hp3
          split_ifs with hge
          · refine ⟨by simpa [c1] using hseq,
              pool_congr hp1 rfl (fun _ _ => rfl) (fun _ => rfl), by simp [c2],
              Or.inl rfl, fun _ => by simpa using hge, c3, c4⟩
          · refine ⟨by simpa [c1] using hseq,
              pool_congr hp1 rfl (fun _ _ => rfl) (fun _ => rfl), by simp [c2],
              Or.inr (by simpa using hge), fun h => ?_, c3, c4⟩
            have : p1.done = true := h
            rw [c5, hdf] at this
            cases this
        have key : ∀ p3 : MDV_Player,
            p3 = (if p1.current + 1 ≥ seq.events.length then
              { p1 with current := p1.current + 1, done := true }
             else { p1 with current := p1.current + 1 }) →
            fast_forward_loop t seq (fuel + 1) p =
              (fast_forward_loop t seq fuel p3).map (fun r => (r.1, cur.event :: r.2)) := by
          intro p3 hp3
          subst hp3
          simp only [fast_forward_loop, hdf, hget, hn, h1, Bool.false_eq_true, if_false]
          split <;> rename_i h <;> rw [h] <;> rfl
        obtain ⟨p3, hp3⟩ : ∃ p3 : MDV_Player,
            p3 = (if p1.current + 1 ≥ seq.events.length then
              { p1 with current := p1.current + 1, done := true }
             else { p1 with current := p1.current + 1 }) := ⟨_, rfl⟩
        obtain ⟨s1, s2, s3, s4, s5, s6, s7⟩ := hstep p3 hp3
        have hkey := key p3 hp3
        have hfuel0 : 0 < fuel := by
          have := hfuel hdf
          omega
        obtain ⟨q, rest, hq, hdone, hle, hlog, hnn, ht1, ht2, free2, act2, hp2, hsub2⟩ :=
          ih p3 free1 act1 s1 s2 s4 hfuel0 (fun _ => by have := hfuel hdf; omega)
        refine ⟨q, cur.event :: rest, ?_, ?_, by omega, ?_, ?_, ht1.trans s6, ht2.trans s7,
          free2, act2, hp2, fun i hi => hsub2 i (hsub1 i hi)⟩
        · rw [hkey, hq]
          rfl
        · rcases hdone with ⟨a, b⟩ | ⟨a, b⟩
          · refine Or.inl ⟨a, fun _ => ?_⟩
            by_cases h3 : p3.done = true
            · have := s5 h3
              omega
            · exact b (by simpa using h3)
          · exact Or.inr ⟨a, b⟩
        · rw [hlog, s3]
          exact (event_slice_cons seq p.current q.current cur hget (by omega)).symm
        · intro e he
          rcases List.mem_cons.mp he with rfl | he
          · exact hn
          · exact hnn e he

/-- C19. Fast-forward stops before the next NoteOn: for a player with a bound
sequence (non-zero `tpb`, channels below 16 on the events that index
`channels`), a partitioned pool and `current` inside the array unless `done`
is set, `mdv_fast_forward_to_note` returns; afterwards either `done` is set,
and then the loop has run to the end of the array, or `current` points at a
NoteOn that was not dispatched; the events dispatched are exactly those between
the old and the new `current`, in array order, none of them a NoteOn; the clock
is left with `samples_to_tick = 1` and `ticks_to_event = 0`; and every voice
that was inactive is still inactive, so no voice was allocated. -/
theorem fast_forward_stops_before_note_on (t : Tables) (p : MDV_Player) (seq : MDV_Sequence)
    (free : List Nat) (act : Nat → List Nat) (hseq : p.seq = some seq) (htpb : seq.tpb ≠ 0)
    (hev : ∀ te, te ∈ seq.events → dispatchable te.event) (hp : Pool p free act)
    (hcur : p.done = true ∨ p.current < seq.events.length) :
    ∃ q log, mdv_fast_forward_to_note t p = some (q, log) ∧
      (q.done = true ∧ (p.done = false → seq.events.length ≤ q.current) ∨
       q.done = false ∧ ∃ te, seq.events[q.current]? = some te ∧
         te.event.type = MDV_Event_Type.MDV_NOTE_ON) ∧
      p.current ≤ q.current ∧ log = event_slice seq p.current q.current ∧
      (∀ e, e ∈ log → e.type ≠ MDV_Event_Type.MDV_NOTE_ON) ∧
      q.samples_to_tick = 1 ∧ q.ticks_to_event = 0 ∧
      ∃ free' act', Pool q free' act' ∧ ∀ i, i ∈ free → i ∈ free' := by
  have hp' : Pool { p with samples_to_tick := 1, ticks_to_event := 0 } free act :=
    pool_congr hp rfl (fun _ _ => rfl) (fun _ => rfl)
  obtain ⟨q, log, h1, h2, h3, h4, h5, h6, h7, h8⟩ :=
    fast_forward_loop_spec t seq htpb hev (seq.events.length + 1)
      { p with samples_to_tick := 1, ticks_to_event := 0 } free act hseq hp' hcur
      (Nat.succ_pos _) (fun _ => by simp only; omega)
  refine ⟨q, log, ?_, h2, h3, h4, h5, h6, h7, h8⟩
  unfold mdv_fast_forward_to_note
  split
  · rename_i h
    rw [hseq] at h
    cases h
  · rename_i s hs
    rw [hseq] at hs
    cases hs
    exact h1

theorem forward_seq_dispatchable : ∀ te, te ∈ forward_seq.events → dispatchable te.event := by
  intro te hte
  simp only [forward_seq, List.mem_cons, List.mem_singleton, List.not_mem_nil, or_false] at hte
  rcases hte with rfl | rfl | rfl | rfl
  · exact Or.inl rfl
  · exact Or.inr (Or.inr (by decide))
  · exact Or.inr (Or.inr (by decide))
  · exact Or.inr (Or.inr (by decide))

/-- C19, witness: on `forward_seq` the fast-forward dispatches the SetTempo and
the Controller and stops at index 2, the NoteOn. -/
theorem fast_forward_stops_before_note_on_witness :
    forward_player.seq = some forward_seq ∧ forward_seq.tpb ≠ 0 ∧
    (forward_player.done = true ∨ forward_player.current < forward_seq.events.length) ∧
    (∃ free act, Pool forward_player free act ∧
      ∃ q log, mdv_fast_forward_to_note tables0 forward_player = some (q, log) ∧
        log = event_slice forward_seq forward_player.current q.current ∧
        q.samples_to_tick = 1 ∧ q.ticks_to_event = 0) ∧
    (mdv_fast_forward_to_note tables0 forward_player).map
      (fun r => (r.1.current, r.1.done, r.2))
      = some (2, false, [set_tempo 7 161 32, controller 0 7 100]) := by
  have hr : Reachable tables0 forward_player :=
    Reachable.play forward_seq (Reachable.reset player0) rfl
  obtain ⟨free, act, hp⟩ := reachable_pool hr
  obtain ⟨q, log, h1, _, _, h4, _, h6, h7, _⟩ :=
    fast_forward_stops_before_note_on tables0 forward_player forward_seq free act rfl
      (by decide) forward_seq_dispatchable hp (Or.inr (by decide))
  exact ⟨rfl, by decide, Or.inr (by decide), ⟨free, act, hp, q, log, h1, h4, h6, h7⟩, by decide⟩

/-! ## The tick length -/

theorem do_event_tick {t : Tables} {seq : MDV_Sequence} {p q : MDV_Player} {e : MDV_Event}
    (hseq : p.seq = some seq) (htpb : 1 ≤ seq.tpb) (htick : 1 ≤ p.tick_length)
    (hslow : slow_enough seq.tpb e) (h : do_event t p e = some q) :
    q.seq = some seq ∧ 1 ≤ q.tick_length := by
  obtain ⟨hclock, _, _, hother⟩ := do_event_clock h
  simp only [clock, Prod.mk.injEq] at hclock
  refine ⟨hclock.1.trans hseq, ?_⟩
  by_cases ht : e.type = MDV_Event_Type.MDV_SET_TEMPO
  · have hs := hslow ht
    simp only [do_event, ht, hseq] at h
    have h0 : ¬ seq.tpb = 0 := by omega
    simp only [h0, if_false] at h
    have e1 := Option.some.inj h
    subst e1
    show 1 ≤ (SAMPLE_RATE * ((e.channel <<< 16 ||| e.param1 <<< 8 ||| e.param2) % 2 ^ 32)
      / 1000000 / seq.tpb) % 2 ^ 32
    have hm : (e.channel <<< 16 ||| e.param1 <<< 8 ||| e.param2) % 2 ^ 32 < 2 ^ 32 :=
      Nat.mod_lt _ (by norm_num)
    have hb : SAMPLE_RATE * ((e.channel <<< 16 ||| e.param1 <<< 8 ||| e.param2) % 2 ^ 32)
        / 1000000 / seq.tpb < 2 ^ 32 := by
      refine lt_of_le_of_lt (Nat.div_le_self _ _) ?_
      simp only [SAMPLE_RATE]
      omega
    rw [Nat.mod_eq_of_lt hb]
    exact (Nat.one_le_div_iff (by omega)).mpr hs
  · rw [hother ht]
    exact htick

theorem drain_events_tick (t : Tables) (seq : MDV_Sequence) (htpb : 1 ≤ seq.tpb)
    (hev : ∀ te, te ∈ seq.events → slow_enough seq.tpb te.event) :
    ∀ (fuel : Nat) (p q : MDV_Player) (log : List MDV_Event),
      p.seq = some seq → 1 ≤ p.tick_length → drain_events t seq fuel p = some (q, log) →
      q.seq = some seq ∧ 1 ≤ q.tick_length := by
  intro fuel
  induction fuel with
  | zero => intro p q log _ _ h; simp [drain_events] at h
  | succ fuel ih =>
    intro p q log hseq htick h
    rcases drain_events_inv h with ⟨_, rfl, _⟩ | ⟨_, _, cur, p1, p3, rest, h1, h2, h3, h4, _⟩
    · exact ⟨hseq, htick⟩
    · have hmem : cur ∈ seq.events := List.getElem?_mem h1
      obtain ⟨a, b⟩ := do_event_tick hseq htpb htick (hev cur hmem) h2
      obtain ⟨_, c1, c2, _⟩ := next_event_inv h3
      exact ih p3 q rest (c2.trans a) (c1 ▸ b) h4

theorem get_audio_frames_tick (t : Tables) (seq : MDV_Sequence) (htpb : 1 ≤ seq.tpb)
    (hev : ∀ te, te ∈ seq.events → slow_enough seq.tpb te.event) :
    ∀ (n : Nat) (p q : MDV_Player) (fs : List Frame),
      p.seq = some seq → 1 ≤ p.tick_length → get_audio_frames t seq n p = some (q, fs) →
      q.seq = some seq ∧ 1 ≤ q.tick_length := by
  intro n
  induction n with
  | zero =>
    intro p q fs hseq htick h
    simp only [get_audio_frames] at h
    have e : p = q := congrArg Prod.fst (Option.some.inj h)
    subst e
    exact ⟨hseq, htick⟩
  | succ n ih =>
    intro p q fs hseq htick h
    obtain ⟨p1, f, rest, h1, h2, _⟩ := get_audio_frames_inv h
    obtain ⟨p0, ha, hm⟩ := render_frame_inv h1
    obtain ⟨hclock, _, hmt⟩ := mix_voices_clock hm
    simp only [clock, Prod.mk.injEq] at hclock
    have h0 : p0.seq = some seq ∧ 1 ≤ p0.tick_length := by
      rcases advance_timeline_inv ha with ⟨_, _, rfl⟩ | ⟨_, _, pd, hd, rfl⟩
      · exact ⟨hseq, htick⟩
      · exact drain_events_tick t seq htpb hev _ p pd _ hseq htick hd
    exact ih p1 q rest (hclock.1.trans h0.1) (hmt ▸ h0.2) h2

theorem fast_forward_loop_tick (t : Tables) (seq : MDV_Sequence) (htpb : 1 ≤ seq.tpb)
    (hev : ∀ te, te ∈ seq.events → slow_enough seq.tpb te.event) :
    ∀ (fuel : Nat) (p q : MDV_Player) (log : List MDV_Event),
      p.seq = some seq → 1 ≤ p.tick_length → fast_forward_loop t seq fuel p = some (q, log) →
      q.seq = some seq ∧ 1 ≤ q.tick_length := by
  intro fuel
  induction fuel with
  | zero => intro p q log _ _ h; simp [fast_forward_loop] at h
  | succ fuel ih =>
    intro p q log hseq htick h
    rcases fast_forward_loop_inv h with ⟨_, rfl, _⟩ | ⟨_, cur, h1, h2⟩
    · exact ⟨hseq, htick⟩
    · rcases h2 with ⟨_, rfl, _⟩ | ⟨_, p1, rest, h3, h4, _⟩
      · exact ⟨hseq, htick⟩
      · have hmem : cur ∈ seq.events := List.getElem?_mem h1
        obtain ⟨a, b⟩ := do_event_tick hseq htpb htick (hev cur hmem) h3
        refine ih _ q rest ?_ ?_ h4
        · split_ifs <;> exact a
        · split_ifs <;> exact b

theorem two_le_rate_div (tpb : Nat) (h1 : 1 ≤ tpb) (h2 : tpb ≤ 24000) :
    1 ≤ SAMPLE_RATE / tpb / 2 := by
  simp only [SAMPLE_RATE]
  rw [Nat.div_div_eq_div_mul]
  exact (Nat.one_le_div_iff (by omega)).mpr (by omega)

/-- C12, counterexample. After `mdv_play_sequence` on a sequence with 30000
ticks per beat `tick_length` is 0, and on the player that plays `tempo_seq` (480
ticks per beat) the event `SetTempo(0, 0, 100)` sets `tick_length` to 0. -/
theorem tick_length_can_be_zero :
    0 < fine_seq.tpb ∧
    (mdv_play_sequence fresh_player fine_seq).map (fun q => q.tick_length) = some 0 ∧
    0 < tempo_seq.tpb ∧ mdv_play_sequence fresh_player tempo_seq = some tempo_player ∧
    (do_event tables0 tempo_player (set_tempo 0 0 100)).map (fun q => q.tick_length) = some 0 :=
  ⟨by decide, by decide, by decide, rfl, by decide⟩

/-- C12, amended. Clock invariant: for a sequence with between 1 and 24000
ticks per beat all of whose SetTempo events are slow enough
(`floor(48000 * usec / 1000000) >= tpb`), every state reached from
`mdv_play_sequence` by dispatching slow-enough events, fast-forwarding and
rendering frames has the sequence bound and `tick_length >= 1`. -/
theorem tick_length_positive (t : Tables) (seq : MDV_Sequence) (s : MDV_Player)
    (h1 : 1 ≤ seq.tpb) (h2 : seq.tpb ≤ 24000)
    (hev : ∀ te, te ∈ seq.events → slow_enough seq.tpb te.event) (h : ClockRun t seq s) :
    s.seq = some seq ∧ 1 ≤ s.tick_length := by
  induction h with
  | play hp =>
    simp only [mdv_play_sequence] at hp
    have h0 : ¬ seq.tpb = 0 := by omega
    simp only [h0, if_false] at hp
    cases hz : seq.events[0]? with
    | none => simp only [hz] at hp; exact absurd hp (by simp)
    | some ev =>
      simp only [hz] at hp
      have e := Option.some.inj hp
      subst e
      exact ⟨rfl, two_le_rate_div seq.tpb h1 h2⟩
  | event e _ hs he ih => exact do_event_tick ih.1 h1 ih.2 hs he
  | forward log _ hf ih =>
    simp only [mdv_fast_forward_to_note, ih.1] at hf
    refine fast_forward_loop_tick t seq h1 hev _ _ _ _ ?_ ?_ hf
    · rfl
    · exact ih.2
  | audio len fs _ ha ih =>
    simp only [mdv_get_audio, ih.1] at ha
    split_ifs at ha
    · have e := congrArg Prod.fst (Option.some.inj ha)
      simp only at e
      subst e
      exact ih
    · exact get_audio_frames_tick t seq h1 hev _ _ _ _ ih.1 ih.2 ha

theorem tempo_seq_slow : ∀ te, te ∈ tempo_seq.events → slow_enough tempo_seq.tpb te.event := by
  intro te hte
  simp only [tempo_seq, List.mem_cons, List.mem_singleton, List.not_mem_nil, or_false] at hte
  rcases hte with rfl | rfl
  · intro _
    decide
  · intro h
    exact absurd h (by decide)

/-- C12, witness: the player that plays `tempo_seq`, after `SetTempo(7, 161, 32)`
and two frames. -/
theorem tick_length_positive_witness :
    1 ≤ tempo_seq.tpb ∧ tempo_seq.tpb ≤ 24000 ∧
    (∃ q fs, do_event tables0 tempo_player (set_tempo 7 161 32) = some q ∧
      ∃ s, mdv_get_audio tables0 q 8 = some (s, fs) ∧
        ClockRun tables0 tempo_seq s ∧ s.seq = some tempo_seq ∧ 1 ≤ s.tick_length) := by
  refine ⟨by decide, by decide, ?_⟩
  have hr0 : ClockRun tables0 tempo_seq tempo_player := ClockRun.play (p := fresh_player) rfl
  have hr1 := ClockRun.event (q := (do_event tables0 tempo_player (set_tempo 7 161 32)).getD
    player0) (set_tempo 7 161 32) hr0 (fun _ => by decide) rfl
  have hr2 := ClockRun.audio (q := ((mdv_get_audio tables0
    ((do_event tables0 tempo_player (set_tempo 7 161 32)).getD player0) 8).map Prod.fst).getD
      player0) 8 ((mdv_get_audio tables0
    ((do_event tables0 tempo_player (set_tempo 7 161 32)).getD player0) 8).map Prod.snd |>.getD [])
    hr1 rfl
  exact ⟨_, _, rfl, _, rfl, hr2,
    tick_length_positive tables0 tempo_seq _ (by decide) (by decide) tempo_seq_slow hr2⟩

/-! ## The order of the events -/

theorem event_slice_of_ge (seq : MDV_Sequence) (a b : Nat) (h : seq.events.length ≤ a) :
    event_slice seq a b = [] := by
  simp [event_slice, List.drop_eq_nil_of_le h]

theorem event_slice_append (seq : MDV_Sequence) :
    ∀ (d a b c : Nat), b = a + d → b ≤ c →
      event_slice seq a b ++ event_slice seq b c = event_slice seq a c := by
  intro d
  induction d with
  | zero =>
    intro a b c hb _
    have : b = a := by omega
    subst this
    simp [event_slice_self]
  | succ d ih =>
    intro a b c hb hc
    by_cases hlen : a < seq.events.length
    · have hget : seq.events[a]? = some seq.events[a] := List.getElem?_eq_getElem hlen
      rw [event_slice_cons seq a b _ hget (by omega), event_slice_cons seq a c _ hget (by omega),
        List.cons_append, ih (a + 1) b c (by omega) hc]
    · rw [event_slice_of_ge seq a b (by omega), event_slice_of_ge seq a c (by omega),
        event_slice_of_ge seq b c (by omega)]
      rfl

theorem drain_events_trace (t : Tables) (seq : MDV_Sequence) :
    ∀ (fuel : Nat) (p q : MDV_Player) (log : List MDV_Event),
      drain_events t seq fuel p = some (q, log) →
      p.current ≤ q.current ∧ log = event_slice seq p.current q.current ∧
      (p.current ≤ seq.events.length → q.current ≤ seq.events.length) ∧
      (∀ i a b, p.current ≤ i → i < q.current → seq.events[i]? = some a →
        seq.events[i + 1]? = some b → ((b.time : Int) - (a.time : Int)) % 2 ^ 32 = 0 →
        i + 1 < q.current) ∧
      (p.done = false → p.ticks_to_event = 0 → p.current < q.current) := by
  intro fuel
  induction fuel with
  | zero => intro p q log h; simp [drain_events] at h
  | succ fuel ih =>
    intro p q log h
    rcases drain_events_inv h with ⟨hstop, rfl, rfl⟩ | ⟨hd, _, cur, p1, p3, rest, h1, h2, h3, h4, h5⟩
    · refine ⟨le_refl _, (event_slice_self seq _).symm, fun h => h, ?_, ?_⟩
      · intro i a b h1 h2
        omega
      · intro h1 h2
        rcases hstop with h | h
        · rw [h1] at h
          cases h
        · exact absurd h2 h
    · obtain ⟨hlt, _⟩ := List.getElem?_eq_some_iff.mp h1
      obtain ⟨hclock, _⟩ := do_event_clock h2
      simp only [clock, Prod.mk.injEq] at hclock
      obtain ⟨_, c2, _, _, c5⟩ := hclock
      obtain ⟨n1, _, _, _, _, _, _, _, _, n10⟩ := next_event_inv h3
      obtain ⟨i1, i2, i3, i4, i5⟩ := ih p3 q rest h4
      have hcur3 : p3.current = p.current + 1 := by rw [n1, c2]
      refine ⟨by omega, ?_, fun _ => i3 (by omega), ?_, fun _ _ => by omega⟩
      · rw [h5, i2, hcur3]
        exact (event_slice_cons seq p.current q.current cur h1 (by omega)).symm
      · intro i a b hi1 hi2 ha hb hgap
        by_cases hi : i = p.current
        · subst hi
          rw [h1] at ha
          have hca : cur = a := Option.some.inj ha
          subst hca
          rcases n10 with ⟨hlen, _, _⟩ | ⟨nxt, hn1, hn2, hn3⟩
          · obtain ⟨hlt2, _⟩ := List.getElem?_eq_some_iff.mp hb
            omega
          · rw [c2, hb] at hn1
            have hbn : b = nxt := Option.some.inj hn1
            subst hbn
            have h3d : p3.done = false := by rw [hn2, c5, hd]
            have h3t : p3.ticks_to_event = 0 := by rw [hn3, hgap]; rfl
            have := i5 h3d h3t
            omega
        · exact i4 i a b (by omega) hi2 ha hb hgap

theorem advance_timeline_trace {t : Tables} {seq : MDV_Sequence} {p q : MDV_Player}
    {log : List MDV_Event} (h : advance_timeline t seq p = some (q, log)) :
    p.current ≤ q.current ∧ log = event_slice seq p.current q.current ∧
    (p.current ≤ seq.events.length → q.current ≤ seq.events.length) ∧
    (∀ i a b, p.current ≤ i → i < q.current → seq.events[i]? = some a →
      seq.events[i + 1]? = some b → ((b.time : Int) - (a.time : Int)) % 2 ^ 32 = 0 →
      i + 1 < q.current) := by
  rcases advance_timeline_inv h with ⟨_, rfl, rfl⟩ | ⟨_, _, pd, hd, rfl⟩
  · refine ⟨le_refl _, (event_slice_self seq _).symm, fun h => h, ?_⟩
    intro i a b h1 h2
    have h2' : i < p.current := h2
    omega
  · obtain ⟨a, b, c, d, _⟩ := drain_events_trace t seq _ p pd log hd
    exact ⟨a, b, c, d⟩

theorem render_frame_trace {t : Tables} {seq : MDV_Sequence} {p q : MDV_Player} {f : Frame}
    (h : render_frame t seq p = some (q, f)) :
    p.current ≤ q.current ∧ f.dispatched = event_slice seq p.current q.current ∧
    (p.current ≤ seq.events.length → q.current ≤ seq.events.length) := by
  obtain ⟨p1, ha, hm⟩ := render_frame_inv h
  obtain ⟨hclock, _⟩ := mix_voices_clock hm
  simp only [clock, Prod.mk.injEq] at hclock
  obtain ⟨a, b, c, _⟩ := advance_timeline_trace ha
  rw [hclock.2.1]
  exact ⟨a, b, c⟩

theorem get_audio_frames_trace (t : Tables) (seq : MDV_Sequence) :
    ∀ (n : Nat) (p q : MDV_Player) (fs : List Frame),
      get_audio_frames t seq n p = some (q, fs) →
      p.current ≤ q.current ∧
      fs.flatMap Frame.dispatched = event_slice seq p.current q.current ∧
      (p.current ≤ seq.events.length → q.current ≤ seq.events.length) := by
  intro n
  induction n with
  | zero =>
    intro p q fs h
    simp only [get_audio_frames] at h
    have e := Option.some.inj h
    have e1 : p = q := congrArg Prod.fst e
    have e2 : [] = fs := congrArg Prod.snd e
    subst e1 e2
    exact ⟨le_refl _, by simp [event_slice_self], fun h => h⟩
  | succ n ih =>
    intro p q fs h
    obtain ⟨p1, f, rest, h1, h2, h3⟩ := get_audio_frames_inv h
    obtain ⟨a1, a2, a3⟩ := render_frame_trace h1
    obtain ⟨b1, b2, b3⟩ := ih p1 q rest h2
    refine ⟨by omega, ?_, fun h => b3 (a3 h)⟩
    rw [h3, List.flatMap_cons, a2, b2]
    exact event_slice_append seq (p1.current - p.current) p.current p1.current q.current
      (by omega) b1

theorem get_audio_frames_take (t : Tables) (seq : MDV_Sequence) :
    ∀ (n : Nat) (p q : MDV_Player) (fs : List Frame),
      get_audio_frames t seq n p = some (q, fs) →
      ∀ k f, fs[k]? = some f →
        ∃ pk pn, get_audio_frames t seq k p = some (pk, fs.take k) ∧
          render_frame t seq pk = some (pn, f) := by
  intro n
  induction n with
  | zero =>
    intro p q fs h k f hk
    simp only [get_audio_frames] at h
    have e2 : [] = fs := congrArg Prod.snd (Option.some.inj h)
    subst e2
    simp at hk
  | succ n ih =>
    intro p q fs h k f hk
    obtain ⟨p1, f0, rest, h1, h2, h3⟩ := get_audio_frames_inv h
    subst h3
    cases k with
    | zero =>
      simp only [List.getElem?_cons_zero, Option.some.injEq] at hk
      subst hk
      exact ⟨p, p1, by simp [get_audio_frames], h1⟩
    | succ k =>
      simp only [List.getElem?_cons_succ] at hk
      obtain ⟨pk, pn, e1, e2⟩ := ih p1 q rest h2 k f hk
      refine ⟨pk, pn, ?_, e2⟩
      simp only [get_audio_frames, h1, e1, List.take_succ_cons]

/-- C7. Event ordering: for a player that is playing `seq` (sequence bound,
`done` not set), the events that a call of `mdv_get_audio` dispatches are
exactly `events[old current .. new current)` in array order, which is a
beginning of the array when `current` was 0; each frame is mixed from the state
in which all events dispatched for it have been applied; and an event that
follows a dispatched one with a zero time gap is dispatched for the same
frame. -/
theorem events_dispatched_in_order (t : Tables) (p q : MDV_Player) (seq : MDV_Sequence)
    (len : Int) (frames : List Frame) (hseq : p.seq = some seq) (hdone : p.done = false)
    (hrun : mdv_get_audio t p len = some (q, frames)) :
    p.current ≤ q.current ∧
    (p.current ≤ seq.events.length → q.current ≤ seq.events.length) ∧
    frames.flatMap Frame.dispatched = event_slice seq p.current q.current ∧
    (p.current = 0 →
      frames.flatMap Frame.dispatched = (seq.events.take q.current).map (fun te => te.event)) ∧
    (∀ k f, frames[k]? = some f →
      ∃ pk pm pn, get_audio_frames t seq k p = some (pk, frames.take k) ∧
        advance_timeline t seq pk = some (pm, f.dispatched) ∧
        mix_voices t pm = some (pn, f.out) ∧
        f.dispatched = event_slice seq pk.current pm.current ∧
        ∀ i a b, pk.current ≤ i → i < pm.current → seq.events[i]? = some a →
          seq.events[i + 1]? = some b → ((b.time : Int) - (a.time : Int)) % 2 ^ 32 = 0 →
          i + 1 < pm.current) := by
  have hrun' : get_audio_frames t seq (Int.tdiv len 4).toNat p = some (q, frames) := by
    simp only [mdv_get_audio, hseq, hdone] at hrun
    exact hrun
  obtain ⟨a, b, c⟩ := get_audio_frames_trace t seq _ p q frames hrun'
  refine ⟨a, c, b, ?_, ?_⟩
  · intro h0
    rw [b, h0]
    simp [event_slice]
  · intro k f hk
    obtain ⟨pk, pn, e1, e2⟩ := get_audio_frames_take t seq _ p q frames hrun' k f hk
    obtain ⟨pm, ha, hm⟩ := render_frame_inv e2
    obtain ⟨_, d2, _, d4⟩ := advance_timeline_trace ha
    exact ⟨pk, pm, pn, e1, ha, hm, d2, d4⟩

/-- C7, witness: four frames on `order_seq`. Nothing is dispatched for frame 0,
the SetTempo and the NoteOn at tick 0 for frame 1, the NoteOff and the NoteOn at
tick 1 for frame 2. -/
theorem events_dispatched_in_order_witness :
    order_player.seq = some order_seq ∧ order_player.done = false ∧
    mdv_get_audio tables0 order_player 16 = some (order_played, order_frames) ∧
    order_frames.map Frame.dispatched
      = [[], [set_tempo 7 161 32, note_on 0 69 100], [note_off 0 69 0, note_on 1 60 90], []] ∧
    order_frames.flatMap Frame.dispatched
      = (order_seq.events.take order_played.current).map (fun te => te.event) :=
  ⟨rfl, rfl, rfl, by decide,
    (events_dispatched_in_order tables0 order_player order_played order_seq 16 order_frames
      rfl rfl rfl).2.2.2.1 rfl⟩

/-! ## Event timing -/

theorem mix_channels_silent (t : Tables) :
    ∀ (n lo : Nat) (p : MDV_Player) (l r : Int),
      (∀ c, lo ≤ c → c < lo + n → (p.channels c).voices = 255) →
      mix_channels t n lo p l r = some (p, l, r) := by
  intro n
  induction n with
  | zero => intro lo p l r _; rfl
  | succ n ih =>
    intro lo p l r h
    simp only [mix_channels, mix_channel_empty t lo 255 p l r (h lo (le_refl _) (by omega))]
    exact ih (lo + 1) p l r (fun c h1 h2 => h c (by omega) (by omega))

theorem mix_voices_silent (t : Tables) (p : MDV_Player)
    (h : ∀ c, c < 16 → (p.channels c).voices = 255) :
    mix_voices t p
      = some ({ p with clip_count := ((p.clip_count + 0) % 2 ^ 64 + 0) % 2 ^ 64 }, ⟨0, 0⟩) := by
  simp only [mix_voices, mix_channels_silent t 16 0 p 0 0 (fun c _ hc => h c (by omega))]
  rfl

theorem idle_frame_step {t : Tables} {seq : MDV_Sequence} {p : MDV_Player}
    {len cur tte s : Nat} (hw : Waiting seq p len cur tte (s + 1)) (hs : s + 1 < 2 ^ 32) :
    ∃ q, render_frame t seq p = some (q, idle_frame) ∧ Waiting seq q len cur tte s := by
  have hne : ¬ (¬ p.done = true ∧ p.samples_to_tick = 0) := by
    rw [hw.samples]
    omega
  have ha : advance_timeline t seq p
      = some ({ p with samples_to_tick := (p.samples_to_tick + 2 ^ 32 - 1) % 2 ^ 32 }, []) := by
    simp only [advance_timeline, hne, if_false]
  refine ⟨{ p with
      samples_to_tick := (p.samples_to_tick + 2 ^ 32 - 1) % 2 ^ 32
      clip_count := ((p.clip_count + 0) % 2 ^ 64 + 0) % 2 ^ 64 }, ?_, ?_⟩
  · have hm := mix_voices_silent t
      { p with samples_to_tick := (p.samples_to_tick + 2 ^ 32 - 1) % 2 ^ 32 } hw.silent
    simp only [render_frame, ha, hm]
    rfl
  · refine ⟨hw.seq_bound, hw.not_done, hw.tick, hw.at_event, hw.ticks, ?_, hw.silent, hw.programs⟩
    show (p.samples_to_tick + 2 ^ 32 - 1) % 2 ^ 32 = s
    rw [hw.samples]
    omega

theorem idle_frames_run {t : Tables} {seq : MDV_Sequence} {len cur tte s : Nat} :
    ∀ (k : Nat) (p : MDV_Player), Waiting seq p len cur tte (s + k) → s + k < 2 ^ 32 →
      ∃ q, get_audio_frames t seq k p = some (q, List.replicate k idle_frame) ∧
        Waiting seq q len cur tte s := by
  intro k
  induction k with
  | zero => intro p hw _; exact ⟨p, rfl, hw⟩
  | succ k ih =>
    intro p hw hs
    obtain ⟨p1, h1, hw1⟩ := idle_frame_step (t := t) (s := s + k) hw hs
    obtain ⟨q, h2, hw2⟩ := ih p1 hw1 (by omega)
    exact ⟨q, by simp only [get_audio_frames, h1, h2, List.replicate_succ], hw2⟩

theorem get_audio_frames_add (t : Tables) (seq : MDV_Sequence) :
    ∀ (a b : Nat) (p p1 q : MDV_Player) (f1 f2 : List Frame),
      get_audio_frames t seq a p = some (p1, f1) → get_audio_frames t seq b p1 = some (q, f2) →
      get_audio_frames t seq (a + b) p = some (q, f1 ++ f2) := by
  intro a
  induction a with
  | zero =>
    intro b p p1 q f1 f2 h1 h2
    simp only [get_audio_frames] at h1
    have e := Option.some.inj h1
    have e1 : p = p1 := congrArg Prod.fst e
    have e2 : [] = f1 := congrArg Prod.snd e
    subst e1 e2
    simpa using h2
  | succ a ih =>
    intro b p p1 q f1 f2 h1 h2
    obtain ⟨pa, f, rest, e1, e2, e3⟩ := get_audio_frames_inv h1
    subst e3
    have := ih b pa p1 q rest f2 e2 h2
    have hab : a + 1 + b = (a + b) + 1 := by omega
    rw [hab]
    simp only [get_audio_frames, e1, this, List.cons_append]

theorem quiet_tick_step {t : Tables} {seq : MDV_Sequence} {p : MDV_Player}
    {len cur tte : Nat} (hw : Waiting seq p len cur (tte + 1) 0) (hl1 : 1 ≤ len)
    (hl2 : len < 2 ^ 32) (ht : tte + 1 < 2 ^ 32) :
    ∃ q, render_frame t seq p = some (q, idle_frame) ∧ Waiting seq q len cur tte (len - 1) := by
  have hc : ¬ p.done = true ∧ p.samples_to_tick = 0 := by
    rw [hw.samples, hw.not_done]
    simp
  have hstop : ¬ (¬ p.done = true ∧ p.ticks_to_event = 0) := by
    rw [hw.ticks]
    omega
  have ha : advance_timeline t seq p
      = some ({ p with
          ticks_to_event := (p.ticks_to_event + 2 ^ 32 - 1) % 2 ^ 32
          samples_to_tick := (p.tick_length + 2 ^ 32 - 1) % 2 ^ 32 }, []) := by
    have hd : drain_events t seq (seq.events.length + 1) p = some (p, []) := by
      simp only [drain_events]
      rw [if_neg hstop]
    unfold advance_timeline
    rw [if_pos hc, hd]
  refine ⟨{ p with
      ticks_to_event := (p.ticks_to_event + 2 ^ 32 - 1) % 2 ^ 32
      samples_to_tick := (p.tick_length + 2 ^ 32 - 1) % 2 ^ 32
      clip_count := ((p.clip_count + 0) % 2 ^ 64 + 0) % 2 ^ 64 }, ?_, ?_⟩
  · have hm := mix_voices_silent t
      { p with
        ticks_to_event := (p.ticks_to_event + 2 ^ 32 - 1) % 2 ^ 32
        samples_to_tick := (p.tick_length + 2 ^ 32 - 1) % 2 ^ 32 } hw.silent
    simp only [render_frame, ha, hm]
    rfl
  · refine ⟨hw.seq_bound, hw.not_done, hw.tick, hw.at_event, ?_, ?_, hw.silent, hw.programs⟩
    · show (p.ticks_to_event + 2 ^ 32 - 1) % 2 ^ 32 = tte
      rw [hw.ticks]
      omega
    · show (p.tick_length + 2 ^ 32 - 1) % 2 ^ 32 = len - 1
      rw [hw.tick]
      omega

theorem period_step {t : Tables} {seq : MDV_Sequence} {p : MDV_Player} {len cur tte : Nat}
    (hw : Waiting seq p len cur (tte + 1) (len - 1)) (hl1 : 1 ≤ len) (hl2 : len < 2 ^ 32)
    (ht : tte + 1 < 2 ^ 32) :
    ∃ q, get_audio_frames t seq len p = some (q, List.replicate len idle_frame) ∧
      Waiting seq q len cur tte (len - 1) := by
  have hw0 : Waiting seq p len cur (tte + 1) (0 + (len - 1)) := by simpa using hw
  obtain ⟨p1, h1, hw1⟩ := idle_frames_run (t := t) (len - 1) p hw0 (by omega)
  obtain ⟨q, h2, hw2⟩ := quiet_tick_step (t := t) hw1 hl1 hl2 ht
  have h3 : get_audio_frames t seq 1 p1 = some (q, [idle_frame]) := by
    simp only [get_audio_frames, h2]
  have h4 := get_audio_frames_add t seq (len - 1) 1 p p1 q _ _ h1 h3
  have e1 : len - 1 + 1 = len := by omega
  have e2 : List.replicate (len - 1) idle_frame ++ [idle_frame] = List.replicate len idle_frame := by
    rw [← List.replicate_succ', e1]
  rw [e1, e2] at h4
  exact ⟨q, h4, hw2⟩

theorem periods_run {t : Tables} {seq : MDV_Sequence} {len cur tte : Nat} (hl1 : 1 ≤ len)
    (hl2 : len < 2 ^ 32) :
    ∀ (n : Nat) (p : MDV_Player), Waiting seq p len cur (tte + n) (len - 1) →
      tte + n < 2 ^ 32 →
      ∃ q, get_audio_frames t seq (n * len) p = some (q, List.replicate (n * len) idle_frame) ∧
        Waiting seq q len cur tte (len - 1) := by
  intro n
  induction n with
  | zero =>
    intro p hw _
    refine ⟨p, ?_, hw⟩
    simp [get_audio_frames]
  | succ n ih =>
    intro p hw ht
    obtain ⟨p1, h1, hw1⟩ := @period_step t seq p len cur (tte + n) hw hl1 hl2 ht
    obtain ⟨q, h2, hw2⟩ := ih p1 hw1 (by omega)
    have h3 := get_audio_frames_add t seq len (n * len) p p1 q _ _ h1 h2
    have e1 : len + n * len = (n + 1) * len := by ring
    rw [← List.replicate_add, e1] at h3
    exact ⟨q, h3, hw2⟩

theorem do_event_tempo_500000 (t : Tables) (p : MDV_Player) (seq : MDV_Sequence)
    (hseq : p.seq = some seq) (htpb : seq.tpb ≠ 0) :
    do_event t p (set_tempo 7 161 32)
      = some { p with tick_length := 48000 * 500000 / 1000000 / seq.tpb } := by
  have hb : (7 <<< 16 ||| 161 <<< 8 ||| 32) % 2 ^ 32 = 500000 := by decide
  have hlt : 48000 * 500000 / 1000000 / seq.tpb < 2 ^ 32 :=
    lt_of_le_of_lt (Nat.div_le_self _ _) (by norm_num)
  simp only [do_event, set_tempo, hseq, htpb, if_false, hb, SAMPLE_RATE, Nat.mod_eq_of_lt hlt]

theorem do_event_note_on_silent (t : Tables) (p : MDV_Player) (ch note vel : Nat) (hch : ch < 16)
    (hs : (p.channels ch).voices = 255) (hnote : ch = 9 → note < 128)
    (hprog : (p.channels ch).program < 128) :
    ∃ q, do_event t p (note_on ch note vel) = some q := by
  simp only [do_event, note_on, do_note_off, hch, if_true,
    bank_patch_inside p.bank ch note _ hnote (fun _ => hprog)]
  split_ifs
  · exact ⟨_, (by simp [note_off_scan, hs] : (note_off_scan note 255 (p.channels ch).voices
      p.voices).map (fun voices => { p with voices := voices }) = some p)⟩
  all_goals exact ⟨_, rfl⟩

theorem drain_last_note (t : Tables) (T N ch note vel : Nat) (fuel : Nat) (p : MDV_Player)
    (hd : p.done = false) (hc : p.current = 1) (ht : p.ticks_to_event = 0)
    (hdef : ∃ q, do_event t p (note_on ch note vel) = some q) :
    ∃ q log, drain_events t (timing_seq T N (note_on ch note vel)) (fuel + 2) p = some (q, log) ∧
      note_on ch note vel ∈ log := by
  obtain ⟨p1, h1⟩ := hdef
  have hk := (do_event_clock h1).1
  simp only [clock, Prod.mk.injEq] at hk
  have hg : ¬ p.done = true ∧ p.ticks_to_event = 0 := by
    rw [hd, ht]
    simp
  have hcur : p1.current = 1 := by rw [hk.2.1, hc]
  have hn : next_event (timing_seq T N (note_on ch note vel)) N p1
      = some { p1 with current := p1.current + 1, done := true } := by
    simp [next_event, timing_seq, hcur]
  have hstop : drain_events t (timing_seq T N (note_on ch note vel)) (fuel + 1)
      { p1 with current := p1.current + 1, done := true }
      = some ({ p1 with current := p1.current + 1, done := true }, []) := by
    simp [drain_events]
  have he : (timing_seq T N (note_on ch note vel)).events[p.current]?
      = some ⟨N, note_on ch note vel⟩ := by
    rw [hc]
    rfl
  refine ⟨{ p1 with current := p1.current + 1, done := true }, [note_on ch note vel], ?_, by simp⟩
  rw [show fuel + 2 = (fuel + 1) + 1 from rfl, drain_events, if_pos hg, he]
  simp only [h1, hn, hstop]

theorem tempo_tick_step {t : Tables} {T N : Nat} {e : MDV_Event} {p : MDV_Player}
    (hw : Waiting (timing_seq T N e) p (48000 * 500000 / 1000000 / T) 0 0 0) (hT : T ≠ 0)
    (hN1 : 1 ≤ N) (hN : N < 2 ^ 32) (hl1 : 1 ≤ 48000 * 500000 / 1000000 / T) :
    ∃ q, render_frame t (timing_seq T N e) p = some (q, ⟨⟨0, 0⟩, [set_tempo 7 161 32]⟩) ∧
      Waiting (timing_seq T N e) q (48000 * 500000 / 1000000 / T) 1 (N - 1)
        (48000 * 500000 / 1000000 / T - 1) := by
  have hlt : 48000 * 500000 / 1000000 / T < 2 ^ 32 :=
    lt_of_le_of_lt (Nat.div_le_self _ _) (by norm_num)
  have hc : ¬ p.done = true ∧ p.samples_to_tick = 0 := by
    rw [hw.samples, hw.not_done]
    simp
  have hg : ¬ p.done = true ∧ p.ticks_to_event = 0 := by
    rw [hw.ticks, hw.not_done]
    simp
  have h1 := do_event_tempo_500000 t p (timing_seq T N e) hw.seq_bound hT
  have he : (timing_seq T N e).events[p.current]? = some ⟨0, set_tempo 7 161 32⟩ := by
    rw [hw.at_event]
    rfl
  have hNi : (((N : Int) - ((0 : Nat) : Int)) % 2 ^ 32).toNat = N := by
    have : ((N : Int) - ((0 : Nat) : Int)) % 2 ^ 32 = (N : Int) := by
      rw [Int.emod_eq_of_lt] <;> omega
    rw [this]
    rfl
  have hn : next_event (timing_seq T N e) 0
      { p with tick_length := 48000 * 500000 / 1000000 / (timing_seq T N e).tpb }
      = some { p with
          tick_length := 48000 * 500000 / 1000000 / (timing_seq T N e).tpb
          current := p.current + 1
          ticks_to_event := N } := by
    simp only [next_event, hw.at_event]
    rw [if_neg (by simp [timing_seq])]
    simp only [timing_seq, List.getElem?_cons_succ, List.getElem?_cons_zero, hNi]
  have hstop : drain_events t (timing_seq T N e) ((timing_seq T N e).events.length)
      { p with
          tick_length := 48000 * 500000 / 1000000 / (timing_seq T N e).tpb
          current := p.current + 1
          ticks_to_event := N }
      = some ({ p with
          tick_length := 48000 * 500000 / 1000000 / (timing_seq T N e).tpb
          current := p.current + 1
          ticks_to_event := N }, []) := by
    show drain_events t (timing_seq T N e) (1 + 1) _ = _
    rw [drain_events, if_neg (by simp; omega)]
  have hd : drain_events t (timing_seq T N e) ((timing_seq T N e).events.length + 1) p
      = some ({ p with
          tick_length := 48000 * 500000 / 1000000 / (timing_seq T N e).tpb
          current := p.current + 1
          ticks_to_event := N }, [set_tempo 7 161 32]) := by
    rw [drain_events, if_pos hg, he]
    simp only [h1, hn, hstop]
  have ha : advance_timeline t (timing_seq T N e) p
      = some ({ p with
          tick_length := 48000 * 500000 / 1000000 / T
          current := p.current + 1
          ticks_to_event := (N + 2 ^ 32 - 1) % 2 ^ 32
          samples_to_tick := (48000 * 500000 / 1000000 / T + 2 ^ 32 - 1) % 2 ^ 32 },
          [set_tempo 7 161 32]) := by
    unfold advance_timeline
    rw [if_pos hc, hd]
    rfl
  refine ⟨{ p with
      tick_length := 48000 * 500000 / 1000000 / T
      current := p.current + 1
      ticks_to_event := (N + 2 ^ 32 - 1) % 2 ^ 32
      samples_to_tick := (48000 * 500000 / 1000000 / T + 2 ^ 32 - 1) % 2 ^ 32
      clip_count := ((p.clip_count + 0) % 2 ^ 64 + 0) % 2 ^ 64 }, ?_, ?_⟩
  · have hm := mix_voices_silent t
      { p with
        tick_length := 48000 * 500000 / 1000000 / T
        current := p.current + 1
        ticks_to_event := (N + 2 ^ 32 - 1) % 2 ^ 32
        samples_to_tick := (48000 * 500000 / 1000000 / T + 2 ^ 32 - 1) % 2 ^ 32 } hw.silent
    simp only [render_frame, ha, hm]
  · refine ⟨hw.seq_bound, hw.not_done, rfl, ?_, ?_, ?_, hw.silent, hw.programs⟩
    · show p.current + 1 = 1
      rw [hw.at_event]
    · show (N + 2 ^ 32 - 1) % 2 ^ 32 = N - 1
      omega
    · show (48000 * 500000 / 1000000 / T + 2 ^ 32 - 1) % 2 ^ 32 = _
      omega

theorem note_tick {t : Tables} {T N ch note vel len : Nat} {p : MDV_Player}
    (hw : Waiting (timing_seq T N (note_on ch note vel)) p len 1 0 0) (hch : ch < 16)
    (hnote : ch = 9 → note < 128) :
    ∃ q log, advance_timeline t (timing_seq T N (note_on ch note vel)) p = some (q, log) ∧
      note_on ch note vel ∈ log := by
  have hc : ¬ p.done = true ∧ p.samples_to_tick = 0 := by
    rw [hw.samples, hw.not_done]
    simp
  obtain ⟨q, log, hd, hm⟩ := drain_last_note t T N ch note vel 1 p hw.not_done hw.at_event
    hw.ticks
    (do_event_note_on_silent t p ch note vel hch (hw.silent ch hch) hnote (hw.programs ch hch))
  have hd' : drain_events t (timing_seq T N (note_on ch note vel))
      ((timing_seq T N (note_on ch note vel)).events.length + 1) p = some (q, log) := hd
  unfold advance_timeline
  rw [if_pos hc, hd']
  exact ⟨_, _, rfl, hm⟩

theorem tempo_note_same_tick {t : Tables} {T ch note vel len : Nat} {p : MDV_Player}
    (hw : Waiting (timing_seq T 0 (note_on ch note vel)) p len 0 0 0) (hT : T ≠ 0)
    (hch : ch < 16) (hnote : ch = 9 → note < 128) :
    ∃ q log, advance_timeline t (timing_seq T 0 (note_on ch note vel)) p = some (q, log) ∧
      note_on ch note vel ∈ log := by
  have hc : ¬ p.done = true ∧ p.samples_to_tick = 0 := by
    rw [hw.samples, hw.not_done]
    simp
  have hg : ¬ p.done = true ∧ p.ticks_to_event = 0 := by
    rw [hw.ticks, hw.not_done]
    simp
  have h1 := do_event_tempo_500000 t p (timing_seq T 0 (note_on ch note vel)) hw.seq_bound hT
  have he : (timing_seq T 0 (note_on ch note vel)).events[p.current]?
      = some ⟨0, set_tempo 7 161 32⟩ := by
    rw [hw.at_event]
    rfl
  have hn : next_event (timing_seq T 0 (note_on ch note vel)) 0
      { p with
        tick_length := 48000 * 500000 / 1000000 / (timing_seq T 0 (note_on ch note vel)).tpb }
      = some { p with
          tick_length := 48000 * 500000 / 1000000 / (timing_seq T 0 (note_on ch note vel)).tpb
          current := p.current + 1
          ticks_to_event := 0 } := by
    simp only [next_event, hw.at_event]
    rw [if_neg (by simp [timing_seq])]
    simp only [timing_seq, List.getElem?_cons_succ, List.getElem?_cons_zero]
    rfl
  obtain ⟨q, log, hd, hm⟩ := drain_last_note t T 0 ch note vel 0
    { p with
      tick_length := 48000 * 500000 / 1000000 / (timing_seq T 0 (note_on ch note vel)).tpb
      current := p.current + 1
      ticks_to_event := 0 } hw.not_done (by show p.current + 1 = 1; rw [hw.at_event]) rfl
    (do_event_note_on_silent t _ ch note vel hch (hw.silent ch hch) hnote (hw.programs ch hch))
  have hd' : drain_events t (timing_seq T 0 (note_on ch note vel))
      ((timing_seq T 0 (note_on ch note vel)).events.length + 1) p
      = some (q, set_tempo 7 161 32 :: log) := by
    rw [drain_events, if_pos hg, he]
    simp only [h1, hn]
    rw [show (timing_seq T 0 (note_on ch note vel)).events.length = 0 + 2 from rfl, hd]
  unfold advance_timeline
  rw [if_pos hc, hd']
  exact ⟨_, _, rfl, List.mem_cons_of_mem _ hm⟩

theorem play_timing_seq (T N : Nat) (e : MDV_Event) (p : MDV_Player) (hT : T ≠ 0)
    (hs : ∀ c, c < 16 → (p.channels c).voices = 255)
    (hprog : ∀ c, c < 16 → (p.channels c).program < 128) :
    ∃ p0, mdv_play_sequence p (timing_seq T N e) = some p0 ∧
      Waiting (timing_seq T N e) p0 (48000 * 500000 / 1000000 / T) 0 0
        (48000 * 500000 / 1000000 / T) := by
  have hL : SAMPLE_RATE / T / 2 = 48000 * 500000 / 1000000 / T := by
    rw [Nat.div_div_eq_div_mul, Nat.mul_comm, ← Nat.div_div_eq_div_mul]
    rfl
  refine ⟨{ p with
      tick_length := SAMPLE_RATE / T / 2
      seq := some (timing_seq T N e)
      current := 0
      samples_to_tick := SAMPLE_RATE / T / 2
      ticks_to_event := 0
      done := false }, ?_, ?_⟩
  · simp only [mdv_play_sequence, timing_seq, hT, if_false, List.getElem?_cons_zero]
  · exact ⟨rfl, rfl, hL, rfl, rfl, hL, hs, hprog⟩

theorem mdv_get_audio_frames (t : Tables) (p : MDV_Player) (seq : MDV_Sequence) (k : Nat)
    (hseq : p.seq = some seq) (hdone : p.done = false) :
    mdv_get_audio t p (4 * (k : Int)) = get_audio_frames t seq k p := by
  have hk : (Int.tdiv (4 * (k : Int)) 4).toNat = k := by
    rw [Int.mul_tdiv_cancel_left _ (by norm_num)]
    rfl
  simp only [mdv_get_audio, hseq, hdone, hk]
  rfl

theorem timing_run (t : Tables) (T N ch note vel : Nat) (p : MDV_Player) (hT1 : 1 ≤ T)
    (hT2 : T ≤ 24000) (hN : N < 2 ^ 32) (hch : ch < 16)
    (hs : ∀ c, c < 16 → (p.channels c).voices = 255) (hnote : ch = 9 → note < 128)
    (hprog : ∀ c, c < 16 → (p.channels c).program < 128) :
    ∃ p0 q frames,
      mdv_play_sequence p (timing_seq T N (note_on ch note vel)) = some p0 ∧
      mdv_get_audio t p0 (4 * (((N + 1) * (48000 * 500000 / 1000000 / T) : Nat) : Int))
        = some (q, frames) ∧
      (∀ f ∈ frames, note_on ch note vel ∉ f.dispatched) ∧
      ∃ q1 log, advance_timeline t (timing_seq T N (note_on ch note vel)) q = some (q1, log) ∧
        note_on ch note vel ∈ log := by
  have hT : T ≠ 0 := by omega
  have hl1 : 1 ≤ 48000 * 500000 / 1000000 / T := by
    rw [show 48000 * 500000 / 1000000 = 24000 from rfl]
    exact (Nat.one_le_div_iff (by omega)).2 hT2
  have hl2 : 48000 * 500000 / 1000000 / T < 2 ^ 32 :=
    lt_of_le_of_lt (Nat.div_le_self _ _) (by norm_num)
  generalize hL : 48000 * 500000 / 1000000 / T = L at hl1 hl2
  obtain ⟨p0, hp0, hw0⟩ := play_timing_seq T N (note_on ch note vel) p hT hs hprog
  rw [hL] at hw0
  have hw0' : Waiting (timing_seq T N (note_on ch note vel)) p0 L 0 0 (0 + L) := by
    simpa using hw0
  obtain ⟨pa, ha, hwa⟩ := idle_frames_run (t := t) L p0 hw0' (by omega)
  have hidle : ∀ (k : Nat) (f : Frame), f ∈ List.replicate k idle_frame →
      note_on ch note vel ∉ f.dispatched := by
    intro k f hf
    rw [List.eq_of_mem_replicate hf]
    simp [idle_frame]
  rcases Nat.eq_zero_or_pos N with hN0 | hNpos
  · subst hN0
    refine ⟨p0, pa, _, hp0, ?_, hidle L, ?_⟩
    · rw [mdv_get_audio_frames t p0 _ _ hw0.seq_bound hw0.not_done]
      simpa using ha
    exact tempo_note_same_tick hwa hT hch hnote
  · obtain ⟨n, rfl⟩ : ∃ n, N = n + 1 := ⟨N - 1, by omega⟩
    have hwa' : Waiting (timing_seq T (n + 1) (note_on ch note vel)) pa
        (48000 * 500000 / 1000000 / T) 0 0 0 := by
      rw [hL]
      exact hwa
    obtain ⟨pb, hb, hwb⟩ := tempo_tick_step (t := t) hwa' hT (by omega) hN (by omega)
    rw [hL] at hwb
    have hwb' : Waiting (timing_seq T (n + 1) (note_on ch note vel)) pb L 1 (0 + n) (L - 1) := by
      simpa using hwb
    obtain ⟨pc, hc, hwc⟩ := periods_run (t := t) hl1 hl2 n pb hwb' (by omega)
    have hwc' : Waiting (timing_seq T (n + 1) (note_on ch note vel)) pc L 1 0 (0 + (L - 1)) := by
      simpa using hwc
    obtain ⟨pd, hd, hwd⟩ := idle_frames_run (t := t) (L - 1) pc hwc' (by omega)
    have hb1 : get_audio_frames t (timing_seq T (n + 1) (note_on ch note vel)) 1 pa
        = some (pb, [⟨⟨0, 0⟩, [set_tempo 7 161 32]⟩]) := by
      simp only [get_audio_frames, hb]
    have h1 := get_audio_frames_add t _ L 1 p0 pa pb _ _ ha hb1
    have h2 := get_audio_frames_add t _ (L + 1) (n * L) p0 pb pc _ _ h1 hc
    have h3 := get_audio_frames_add t _ (L + 1 + n * L) (L - 1) p0 pc pd _ _ h2 hd
    have hcount : L + 1 + n * L + (L - 1) = (n + 1 + 1) * L := by
      have : (n + 1 + 1) * L = n * L + L + L := by ring
      omega
    rw [hcount] at h3
    have h4 := h3
    rw [← mdv_get_audio_frames t p0 _ _ hw0.seq_bound hw0.not_done] at h4
    refine ⟨p0, pd, _, hp0, h4, ?_, note_tick hwd hch hnote⟩
    intro f hf
    simp only [List.mem_append, List.mem_singleton] at hf
    rcases hf with ((hf | hf) | hf) | hf
    · exact hidle _ f hf
    · rw [hf]
      simp [set_tempo, note_on]
    · exact hidle _ f hf
    · exact hidle _ f hf

/-- C8, counterexample: 480 ticks per beat and a gap of 1 tick. The claimed
frame is `50 * 1 = 50`, give or take one; `mdv_get_audio` writes frames 0 to 99
without dispatching the `NoteOn`, and the tick clock of frame 100 dispatches
it. -/
theorem note_on_frame_not_tick_product :
    48000 * 500000 / 1000000 / 480 * 1 + 1 < 100 ∧
    ∃ p0 q frames,
      mdv_play_sequence fresh_player (timing_seq 480 1 (note_on 0 69 100)) = some p0 ∧
      mdv_get_audio tables0 p0 (4 * ((100 : Nat) : Int)) = some (q, frames) ∧
      (∀ f ∈ frames, note_on 0 69 100 ∉ f.dispatched) ∧
      ∃ q1 log, advance_timeline tables0 (timing_seq 480 1 (note_on 0 69 100)) q
          = some (q1, log) ∧
        note_on 0 69 100 ∈ log :=
  ⟨by decide,
    timing_run tables0 480 1 0 69 100 fresh_player (by decide) (by decide) (by decide)
      (by decide) (fun c hc => by simp [fresh_player, mdv_reset_player, hc]) (by decide)
      (fun c hc => by simp [fresh_player, mdv_reset_player, hc, player0, channel0])⟩

theorem frame_no_tick {t : Tables} {seq : MDV_Sequence} {p q : MDV_Player} {f : Frame}
    (hc : p.done = true ∨ p.samples_to_tick ≠ 0) (h : render_frame t seq p = some (q, f)) :
    f.dispatched = [] ∧ q.seq = p.seq ∧ q.current = p.current ∧
    q.samples_to_tick = (p.samples_to_tick + 2 ^ 32 - 1) % 2 ^ 32 ∧
    q.ticks_to_event = p.ticks_to_event ∧ q.done = p.done ∧ q.tick_length = p.tick_length := by
  obtain ⟨p1, ha, hm⟩ := render_frame_inv h
  obtain ⟨hk, _, ht⟩ := mix_voices_clock hm
  simp only [clock, Prod.mk.injEq] at hk
  obtain ⟨k1, k2, k3, k4, k5⟩ := hk
  rcases advance_timeline_inv ha with ⟨_, hlog, rfl⟩ | ⟨hd, hs, _⟩
  · exact ⟨hlog, k1, k2, k3, k4, k5, ht⟩
  · rcases hc with hc | hc
    · rw [hd] at hc
      cases hc
    · exact absurd hs hc

theorem frame_tick {t : Tables} {seq : MDV_Sequence} {p q : MDV_Player} {f : Frame}
    (hd : p.done = false) (hs : p.samples_to_tick = 0)
    (h : render_frame t seq p = some (q, f)) :
    ∃ p1, drain_events t seq (seq.events.length + 1) p = some (p1, f.dispatched) ∧
      q.seq = p1.seq ∧ q.current = p1.current ∧
      q.samples_to_tick = (p1.tick_length + 2 ^ 32 - 1) % 2 ^ 32 ∧
      q.ticks_to_event = (p1.ticks_to_event + 2 ^ 32 - 1) % 2 ^ 32 ∧ q.done = p1.done ∧
      q.tick_length = p1.tick_length := by
  obtain ⟨p2, ha, hm⟩ := render_frame_inv h
  obtain ⟨hk, _, ht⟩ := mix_voices_clock hm
  simp only [clock, Prod.mk.injEq] at hk
  obtain ⟨k1, k2, k3, k4, k5⟩ := hk
  rcases advance_timeline_inv ha with ⟨hc, _, _⟩ | ⟨_, _, p1, hdr, rfl⟩
  · rcases hc with hc | hc
    · rw [hd] at hc
      cases hc
    · exact absurd hs hc
  · exact ⟨p1, hdr, k1, k2, k3, k4, k5, ht⟩

theorem drain_stop {t : Tables} {seq : MDV_Sequence} {fuel : Nat} {p q : MDV_Player}
    {log : List MDV_Event} (hc : p.done = true ∨ p.ticks_to_event ≠ 0)
    (h : drain_events t seq (fuel + 1) p = some (q, log)) : q = p ∧ log = [] := by
  rcases drain_events_inv h with ⟨_, h1, h2⟩ | ⟨hd, h0, _⟩
  · exact ⟨h1, h2⟩
  · rcases hc with hc | hc
    · rw [hd] at hc
      cases hc
    · exact absurd h0 hc

theorem drain_step {t : Tables} {seq : MDV_Sequence} {fuel : Nat} {p q : MDV_Player}
    {log : List MDV_Event} {cur : MDV_Timed_Event} (hd : p.done = false)
    (h0 : p.ticks_to_event = 0) (hcur : seq.events[p.current]? = some cur)
    (h : drain_events t seq (fuel + 1) p = some (q, log)) :
    ∃ p1 p3 rest, do_event t p cur.event = some p1 ∧ next_event seq cur.time p1 = some p3 ∧
      drain_events t seq fuel p3 = some (q, rest) ∧ log = cur.event :: rest := by
  rcases drain_events_inv h with ⟨hc, _, _⟩ | ⟨_, _, cur', p1, p3, rest, e1, e2, e3, e4, e5⟩
  · rcases hc with hc | hc
    · rw [hd] at hc
      cases hc
    · exact absurd h0 hc
  · rw [hcur] at e1
    have e := Option.some.inj e1
    subst e
    exact ⟨p1, p3, rest, e2, e3, e4, e5⟩

theorem drain_note {t : Tables} {T N : Nat} (fuel : Nat) {e : MDV_Event} {p q : MDV_Player}
    {log : List MDV_Event} (hd : p.done = false) (h0 : p.ticks_to_event = 0)
    (hc : p.current = 1)
    (h : drain_events t (timing_seq T N e) (fuel + 2) p = some (q, log)) :
    e ∈ log ∧ q.done = true ∧ q.seq = p.seq := by
  have hcur : (timing_seq T N e).events[p.current]? = some ⟨N, e⟩ := by
    rw [hc]
    rfl
  obtain ⟨p1, p3, rest, e1, e2, e3, e4⟩ := drain_step hd h0 hcur h
  have hk := (do_event_clock e1).1
  simp only [clock, Prod.mk.injEq] at hk
  obtain ⟨n1, n2, n3, n4, n5, n6, n7, n8, n9, n10⟩ := next_event_inv e2
  have hdone : p3.done = true := by
    rcases n10 with ⟨_, hdn, _⟩ | ⟨nxt, hn, _⟩
    · exact hdn
    · rw [hk.2.1, hc] at hn
      simp [timing_seq] at hn
  obtain ⟨rfl, hrest⟩ := drain_stop (Or.inl hdone) e3
  refine ⟨?_, hdone, ?_⟩
  · rw [e4]
    exact List.mem_cons_self _ _
  · rw [n3, hk.1]

theorem countdown_step {t : Tables} {T N r : Nat} {e : MDV_Event} {p q : MDV_Player} {f : Frame}
    (hT : T ≠ 0) (hN : N < 2 ^ 32) (hl1 : 1 ≤ 48000 * 500000 / 1000000 / T)
    (he : e.type = MDV_Event_Type.MDV_NOTE_ON)
    (hc : Countdown (timing_seq T N e) N (48000 * 500000 / 1000000 / T) p (r + 1))
    (h : render_frame t (timing_seq T N e) p = some (q, f)) :
    e ∉ f.dispatched ∧ Countdown (timing_seq T N e) N (48000 * 500000 / 1000000 / T) q r := by
  have hl2 : 48000 * 500000 / 1000000 / T < 2 ^ 32 :=
    lt_of_le_of_lt (Nat.div_le_self _ _) (by norm_num)
  obtain ⟨hseq, hnd, htick, hsamp, hphase⟩ := hc
  generalize hL : 48000 * 500000 / 1000000 / T = L at hl1 hl2 htick hsamp hphase ⊢
  by_cases hs : p.samples_to_tick = 0
  · obtain ⟨p1, hdr, k1, k2, k3, k4, k5, k6⟩ := frame_tick hnd hs h
    rcases hphase with ⟨c0, t0, hr⟩ | ⟨c1, tle, hr⟩
    · -- the tick of the SetTempo
      have hN1 : 1 ≤ N := by
        rcases Nat.eq_zero_or_pos N with h0 | h0
        · rw [h0, hs] at hr
          simp at hr
        · exact h0
      have hcur : (timing_seq T N e).events[p.current]? = some ⟨0, set_tempo 7 161 32⟩ := by
        rw [c0]
        rfl
      obtain ⟨p2, p3, rest, e1, e2, e3, e4⟩ := drain_step hnd t0 hcur hdr
      have e1' := do_event_tempo_500000 t p (timing_seq T N e) hseq hT
      rw [e1'] at e1
      have ep2 := Option.some.inj e1
      obtain ⟨n1, n2, n3, n4, n5, n6, n7, n8, n9, n10⟩ := next_event_inv e2
      have hp3 : p3.done = false ∧ p3.ticks_to_event = N := by
        rcases n10 with ⟨hlen, _, _⟩ | ⟨nxt, hn, hdn, hte⟩
        · rw [← ep2] at hlen
          simp [timing_seq, c0] at hlen
        · rw [← ep2] at hn hdn
          have hn' : (timing_seq T N e).events[p.current + 1]? = some nxt := hn
          rw [c0] at hn'
          have hnx : nxt = ⟨N, e⟩ := by
            have : (timing_seq T N e).events[0 + 1]? = some ⟨N, e⟩ := rfl
            rw [this] at hn'
            exact (Option.some.inj hn').symm
          refine ⟨hdn.trans hnd, ?_⟩
          rw [hte, hnx]
          show ((((N : Nat) : Int) - ((0 : Nat) : Int)) % 2 ^ 32).toNat = N
          have : ((N : Int) - ((0 : Nat) : Int)) % 2 ^ 32 = (N : Int) := by
            rw [Int.emod_eq_of_lt] <;> omega
          rw [this]
          rfl
      have hstop := drain_stop (Or.inr (by rw [hp3.2]; omega)) e3
      obtain ⟨rfl, hrest⟩ := hstop
      have hp1tick : p1.tick_length = L := by
        rw [n2, ← ep2, ← hL]
        rfl
      have hp1cur : p1.current = 1 := by
        rw [n1, ← ep2]
        show p.current + 1 = 1
        rw [c0]
      have hp1seq : p1.seq = some (timing_seq T N e) := by
        rw [n3, ← ep2]
        exact hseq
      refine ⟨?_, ?_⟩
      · rw [e4, hrest]
        intro hmem
        have := List.mem_singleton.mp hmem
        rw [this] at he
        simp [set_tempo] at he
      · obtain ⟨n, rfl⟩ : ∃ n, N = n + 1 := ⟨N - 1, by omega⟩
        have hmul : (n + 1) * L = n * L + L := Nat.succ_mul n L
        rw [hs, hmul] at hr
        refine ⟨k1.trans hp1seq, k5.trans hp3.1, k6.trans hp1tick, ?_, Or.inr ⟨k2.trans hp1cur, ?_, ?_⟩⟩
        · rw [k3, hp1tick]
          omega
        · rw [k4, hp3.2]
          omega
        · rw [k3, k4, hp1tick, hp3.2]
          have e1 : (L + 2 ^ 32 - 1) % 2 ^ 32 = L - 1 := by omega
          have e2 : (n + 1 + 2 ^ 32 - 1) % 2 ^ 32 = n := by omega
          rw [e1, e2]
          omega
    · -- a tick before the event is due
      have hte : p.ticks_to_event ≠ 0 := by
        intro h0
        rw [h0, hs] at hr
        simp at hr
      obtain ⟨rfl, hlog⟩ := drain_stop (Or.inr hte) hdr
      obtain ⟨j, hj⟩ : ∃ j, p1.ticks_to_event = j + 1 := ⟨p1.ticks_to_event - 1, by omega⟩
      have hmul : (j + 1) * L = j * L + L := Nat.succ_mul j L
      rw [hs, hj, hmul] at hr
      refine ⟨by rw [hlog]; exact List.not_mem_nil _, k1.trans hseq, k5.trans hnd,
        k6.trans htick, ?_, Or.inr ⟨k2.trans c1, ?_, ?_⟩⟩
      · rw [k3, htick]
        omega
      · rw [k4, hj]
        omega
      · rw [k3, k4, htick, hj]
        have e1 : (L + 2 ^ 32 - 1) % 2 ^ 32 = L - 1 := by omega
        have e2 : (j + 1 + 2 ^ 32 - 1) % 2 ^ 32 = j := by omega
        rw [e1, e2]
        omega
  · obtain ⟨hlog, k1, k2, k3, k4, k5, k6⟩ := frame_no_tick (Or.inr hs) h
    have e1 : (p.samples_to_tick + 2 ^ 32 - 1) % 2 ^ 32 = p.samples_to_tick - 1 := by omega
    refine ⟨by rw [hlog]; exact List.not_mem_nil _, k1.trans hseq, k5.trans hnd,
      k6.trans htick, ?_, ?_⟩
    · rw [k3, e1]
      omega
    · rcases hphase with ⟨c0, t0, hr⟩ | ⟨c1, tle, hr⟩
      · refine Or.inl ⟨k2.trans c0, k4.trans t0, ?_⟩
        rw [k3, e1]
        omega
      · refine Or.inr ⟨k2.trans c1, by rw [k4]; exact tle, ?_⟩
        rw [k3, k4, e1]
        omega

theorem countdown_dispatch {t : Tables} {T N : Nat} {e : MDV_Event} {p q : MDV_Player}
    {f : Frame} (hl1 : 1 ≤ 48000 * 500000 / 1000000 / T)
    (hc : Countdown (timing_seq T N e) N (48000 * 500000 / 1000000 / T) p 0)
    (h : render_frame t (timing_seq T N e) p = some (q, f)) :
    e ∈ f.dispatched ∧ q.done = true ∧ q.seq = some (timing_seq T N e) := by
  obtain ⟨hseq, hnd, htick, hsamp, hphase⟩ := hc
  have hs : p.samples_to_tick = 0 := by
    rcases hphase with ⟨_, _, hr⟩ | ⟨_, _, hr⟩ <;> omega
  obtain ⟨p1, hdr, k1, k2, k3, k4, k5, k6⟩ := frame_tick hnd hs h
  rcases hphase with ⟨c0, t0, hr⟩ | ⟨c1, tle, hr⟩
  · have hN : N = 0 := by
      rcases Nat.eq_zero_or_pos N with h0 | h0
      · exact h0
      · have := Nat.mul_le_mul h0 hl1
        omega
    subst hN
    have hcur : (timing_seq T 0 e).events[p.current]? = some ⟨0, set_tempo 7 161 32⟩ := by
      rw [c0]
      rfl
    obtain ⟨p2, p3, rest, e1, e2, e3, e4⟩ := drain_step hnd t0 hcur hdr
    have hk := (do_event_clock e1).1
    simp only [clock, Prod.mk.injEq] at hk
    obtain ⟨n1, n2, n3, n4, n5, n6, n7, n8, n9, n10⟩ := next_event_inv e2
    have hp3 : p3.done = false ∧ p3.ticks_to_event = 0 := by
      rcases n10 with ⟨hlen, _, _⟩ | ⟨nxt, hn, hdn, hte⟩
      · rw [hk.2.1, c0] at hlen
        simp [timing_seq] at hlen
      · rw [hk.2.1, c0] at hn
        have hnx : nxt = ⟨0, e⟩ := by
          have : (timing_seq T 0 e).events[0 + 1]? = some ⟨0, e⟩ := rfl
          rw [this] at hn
          exact (Option.some.inj hn).symm
        refine ⟨by rw [hdn, hk.2.2.2.2]; exact hnd, ?_⟩
        rw [hte, hnx]
        rfl
    have hp3c : p3.current = 1 := by rw [n1, hk.2.1, c0]
    obtain ⟨hm, hdone, hsq⟩ := drain_note 0 hp3.1 hp3.2 hp3c e3
    refine ⟨?_, k5.trans hdone, ?_⟩
    · rw [e4]
      exact List.mem_cons_of_mem _ hm
    · rw [k1, hsq, n3, hk.1]
      exact hseq
  · have ht0 : p.ticks_to_event = 0 := by
      rcases Nat.eq_zero_or_pos p.ticks_to_event with h0 | h0
      · exact h0
      · have := Nat.mul_le_mul h0 hl1
        omega
    obtain ⟨hm, hdone, hsq⟩ := drain_note 1 hnd ht0 c1 hdr
    exact ⟨hm, k5.trans hdone, by rw [k1, hsq]; exact hseq⟩

theorem done_frames_quiet (t : Tables) (seq : MDV_Sequence) :
    ∀ (n : Nat) (p q : MDV_Player) (fs : List Frame), p.done = true →
      get_audio_frames t seq n p = some (q, fs) → ∀ f, f ∈ fs → f.dispatched = [] := by
  intro n
  induction n with
  | zero =>
    intro p q fs _ h f hf
    simp only [get_audio_frames] at h
    have e : [] = fs := congrArg Prod.snd (Option.some.inj h)
    rw [← e] at hf
    exact absurd hf (List.not_mem_nil _)
  | succ n ih =>
    intro p q fs hd h f hf
    obtain ⟨p1, f0, rest, h1, h2, e⟩ := get_audio_frames_inv h
    obtain ⟨hlog, _, _, _, _, k5, _⟩ := frame_no_tick (Or.inl hd) h1
    rw [e] at hf
    rcases List.mem_cons.mp hf with rfl | hf
    · exact hlog
    · exact ih p1 q rest (k5.trans hd) h2 f hf

theorem get_audio_frames_length (t : Tables) (seq : MDV_Sequence) :
    ∀ (n : Nat) (p q : MDV_Player) (fs : List Frame),
      get_audio_frames t seq n p = some (q, fs) → fs.length = n := by
  intro n
  induction n with
  | zero =>
    intro p q fs h
    simp only [get_audio_frames] at h
    have e : [] = fs := congrArg Prod.snd (Option.some.inj h)
    rw [← e]
    rfl
  | succ n ih =>
    intro p q fs h
    obtain ⟨p1, f0, rest, _, h2, e⟩ := get_audio_frames_inv h
    rw [e, List.length_cons, ih p1 q rest h2]

theorem countdown_frames {t : Tables} {T N : Nat} {e : MDV_Event} (hT : T ≠ 0)
    (hN : N < 2 ^ 32) (hl1 : 1 ≤ 48000 * 500000 / 1000000 / T)
    (he : e.type = MDV_Event_Type.MDV_NOTE_ON) :
    ∀ (n : Nat) (p q : MDV_Player) (fs : List Frame) (r : Nat),
      Countdown (timing_seq T N e) N (48000 * 500000 / 1000000 / T) p r →
      get_audio_frames t (timing_seq T N e) n p = some (q, fs) →
      ∀ k f, fs[k]? = some f → (e ∈ f.dispatched ↔ k = r) := by
  intro n
  induction n with
  | zero =>
    intro p q fs r _ h k f hk
    simp only [get_audio_frames] at h
    have e0 : [] = fs := congrArg Prod.snd (Option.some.inj h)
    rw [← e0] at hk
    simp at hk
  | succ n ih =>
    intro p q fs r hc h k f hk
    obtain ⟨p1, f0, rest, h1, h2, e0⟩ := get_audio_frames_inv h
    rw [e0] at hk
    cases r with
    | zero =>
      obtain ⟨hm, hdone, _⟩ := countdown_dispatch hl1 hc h1
      cases k with
      | zero =>
        simp only [List.getElem?_cons_zero, Option.some.injEq] at hk
        rw [← hk]
        exact ⟨fun _ => rfl, fun _ => hm⟩
      | succ k =>
        simp only [List.getElem?_cons_succ] at hk
        have hq := done_frames_quiet t _ n p1 q rest hdone h2 f (List.getElem?_mem hk)
        rw [hq]
        constructor
        · intro hmem
          exact absurd hmem (List.not_mem_nil _)
        · intro hk0
          omega
    | succ r =>
      obtain ⟨hnm, hc1⟩ := countdown_step hT hN hl1 he hc h1
      cases k with
      | zero =>
        simp only [List.getElem?_cons_zero, Option.some.injEq] at hk
        rw [← hk]
        constructor
        · intro hmem
          exact absurd hmem hnm
        · intro hk0
          omega
      | succ k =>
        simp only [List.getElem?_cons_succ] at hk
        have := ih p1 q rest r hc1 h2 k f hk
        rw [this]
        omega

/-- C8, as the code has it. For a sequence with `T` ticks per beat,
`1 ≤ T ≤ 24000`, whose events are `SetTempo(500000)` at tick 0 and a `NoteOn`
`N` ticks later (`N < 2^32`), and `L = 48000 * 500000 / 1000000 / T`:
`mdv_play_sequence` succeeds on any player, and in every call of
`mdv_get_audio` on the resulting player that returns, the buffer has `len / 4`
frames and the `NoteOn` is dispatched for frame `(N + 1) * L`, counting from 0,
and for no other frame. The clock is armed with one full tick before the event
at tick 0, so the frame is `L * (N + 1)` and not `L * N`. -/
theorem note_on_dispatch_frame (t : Tables) (T N ch note vel : Nat) (p : MDV_Player)
    (hT1 : 1 ≤ T) (hT2 : T ≤ 24000) (hN : N < 2 ^ 32) :
    ∃ p0, mdv_play_sequence p (timing_seq T N (note_on ch note vel)) = some p0 ∧
      ∀ (len : Int) (q : MDV_Player) (frames : List Frame),
        mdv_get_audio t p0 len = some (q, frames) →
        frames.length = (Int.tdiv len 4).toNat ∧
        ∀ k f, frames[k]? = some f →
          (note_on ch note vel ∈ f.dispatched ↔ k = (N + 1) * (48000 * 500000 / 1000000 / T)) := by
  have hT : T ≠ 0 := by omega
  have hl1 : 1 ≤ 48000 * 500000 / 1000000 / T := by
    rw [show 48000 * 500000 / 1000000 = 24000 from rfl]
    exact (Nat.one_le_div_iff (by omega)).2 hT2
  have hL : SAMPLE_RATE / T / 2 = 48000 * 500000 / 1000000 / T := by
    rw [Nat.div_div_eq_div_mul, Nat.mul_comm, ← Nat.div_div_eq_div_mul]
    rfl
  refine ⟨{ p with
      tick_length := SAMPLE_RATE / T / 2
      seq := some (timing_seq T N (note_on ch note vel))
      current := 0
      samples_to_tick := SAMPLE_RATE / T / 2
      ticks_to_event := 0
      done := false }, ?_, ?_⟩
  · simp only [mdv_play_sequence, timing_seq, hT, if_false, List.getElem?_cons_zero]
  · intro len q frames h
    have hc : Countdown (timing_seq T N (note_on ch note vel)) N
        (48000 * 500000 / 1000000 / T)
        { p with
          tick_length := SAMPLE_RATE / T / 2
          seq := some (timing_seq T N (note_on ch note vel))
          current := 0
          samples_to_tick := SAMPLE_RATE / T / 2
          ticks_to_event := 0
          done := false }
        ((N + 1) * (48000 * 500000 / 1000000 / T)) := by
      refine ⟨rfl, rfl, hL, le_of_eq hL, Or.inl ⟨rfl, rfl, ?_⟩⟩
      show (N + 1) * (48000 * 500000 / 1000000 / T) = SAMPLE_RATE / T / 2 + _
      rw [hL, Nat.succ_mul]
      omega
    simp only [mdv_get_audio] at h
    exact ⟨get_audio_frames_length t _ _ _ q frames h,
      countdown_frames hT hN hl1 rfl _ _ q frames _ hc h⟩

/-- C8, witness: 12000 ticks per beat (a tick of 2 frames) and a gap of 1 tick,
on the fresh player. A call for 6 frames returns; the `SetTempo` is dispatched
for frame 2 and the `NoteOn` for frame 4. -/
theorem note_on_dispatch_frame_witness :
    1 ≤ 12000 ∧ 12000 ≤ 24000 ∧ 1 < 2 ^ 32 ∧
    mdv_play_sequence fresh_player (timing_seq 12000 1 (note_on 0 69 100))
      = some timing_player ∧
    (mdv_get_audio tables0 timing_player 24).map (fun r => r.2.map Frame.dispatched)
      = some [[], [], [set_tempo 7 161 32], [], [note_on 0 69 100], []] ∧
    (1 + 1) * (48000 * 500000 / 1000000 / 12000) = 4 ∧
    ∃ p0, mdv_play_sequence fresh_player (timing_seq 12000 1 (note_on 0 69 100)) = some p0 ∧
      ∀ (len : Int) (q : MDV_Player) (frames : List Frame),
        mdv_get_audio tables0 p0 len = some (q, frames) →
        frames.length = (Int.tdiv len 4).toNat ∧
        ∀ k f, frames[k]? = some f →
          (note_on 0 69 100 ∈ f.dispatched ↔
            k = (1 + 1) * (48000 * 500000 / 1000000 / 12000)) :=
  ⟨by decide, by decide, by decide, rfl, by decide, by decide,
    note_on_dispatch_frame tables0 12000 1 0 69 100 fresh_player (by decide) (by decide)
      (by decide)⟩

/-! ## The default tempo -/
/-- C23. Default tempo is 120 bpm: for a sequence with `tpb ≥ 1` and a first
event, the `tick_length` that `mdv_play_sequence` sets, `48000 / tpb / 2`, is
the `tick_length` that `do_event` computes for a `SetTempo` of 500000
microseconds per beat, `48000 * 500000 / 1000000 / tpb`; such a `SetTempo`
right after `mdv_play_sequence` leaves the whole player unchanged. -/
theorem default_tempo_is_120_bpm (t : Tables) (p : MDV_Player) (seq : MDV_Sequence)
    (ev : MDV_Timed_Event) (e : MDV_Event) (htpb : 1 ≤ seq.tpb)
    (hev : seq.events[0]? = some ev) (htype : e.type = MDV_Event_Type.MDV_SET_TEMPO)
    (husec : ms_per_beat e = 500000) :
    48000 / seq.tpb / 2 = 48000 * 500000 / 1000000 / seq.tpb ∧
    ∃ p0, mdv_play_sequence p seq = some p0 ∧ p0.tick_length = 48000 / seq.tpb / 2 ∧
      do_event t p0 e = some p0 := by
  have hne : seq.tpb ≠ 0 := by omega
  have harith : 48000 / seq.tpb / 2 = 48000 * 500000 / 1000000 / seq.tpb := by
    rw [Nat.div_div_eq_div_mul, Nat.mul_comm, ← Nat.div_div_eq_div_mul]
  have hlt : 48000 * 500000 / 1000000 / seq.tpb < 2 ^ 32 :=
    lt_of_le_of_lt (Nat.div_le_self _ _) (by norm_num)
  refine ⟨harith, { p with
      tick_length := SAMPLE_RATE / seq.tpb / 2
      seq := some seq
      current := 0
      samples_to_tick := SAMPLE_RATE / seq.tpb / 2
      ticks_to_event := ev.time
      done := false }, ?_, rfl, ?_⟩
  · simp only [mdv_play_sequence, hne, if_false, hev]
  · simp only [ms_per_beat] at husec
    have hlt2 : 48000 / seq.tpb / 2 < 2 ^ 32 := by rw [harith]; exact hlt
    simp only [do_event, htype, hne, if_false, husec, SAMPLE_RATE, ← harith,
      Nat.mod_eq_of_lt hlt2]

/-- C23, witness: `tempo_seq` has 480 ticks per beat; `mdv_play_sequence` sets
a `tick_length` of 50 and `SetTempo(0x07, 0xA1, 0x20)` keeps it. -/
theorem default_tempo_is_120_bpm_witness :
    1 ≤ tempo_seq.tpb ∧ ms_per_beat (set_tempo 7 161 32) = 500000 ∧
    48000 / tempo_seq.tpb / 2 = 50 ∧
    ∃ p0, mdv_play_sequence fresh_player tempo_seq = some p0 ∧
      p0.tick_length = 48000 / tempo_seq.tpb / 2 ∧
      do_event tables0 p0 (set_tempo 7 161 32) = some p0 :=
  ⟨by decide, by decide, by decide,
    (default_tempo_is_120_bpm tables0 fresh_player tempo_seq ⟨0, set_tempo 7 161 32⟩
      (set_tempo 7 161 32) (by decide) rfl rfl (by decide)).2⟩

/-! ## The envelope invariant and the sample position -/

theorem clamp_envelope_env (v : Voice) :
    (clamp_envelope v).envelope_phase = v.envelope_phase ∧
    (clamp_envelope v).envelope_value ≤ 1023 <<< 20 := by
  unfold clamp_envelope
  split_ifs with h
  · exact ⟨rfl, le_refl _⟩
  · exact ⟨rfl, not_lt.mp h⟩

theorem output_stage_env {t : Tables} {ch : Channel} {patch : MDV_Patch} {sample : MDV_Sample}
    {v : Voice} {n : Nat} {l r : Int} {res : Rendered}
    (h : output_stage t ch patch sample v n l r = some res) :
    res.voice.envelope_phase = v.envelope_phase ∧ res.voice.envelope_value ≤ 1023 <<< 20 := by
  unfold output_stage at h
  split at h
  · exact absurd h (by simp)
  · dsimp only at h
    split at h
    · exact absurd h (by simp)
    · have h2 := Option.some.inj h
      rw [← h2]
      exact clamp_envelope_env v

theorem envelope_step_phase {sample : MDV_Sample} {v : Voice} {value phase : Nat}
    (h : envelope_step sample v = some (some (value, phase))) (hv : v.envelope_phase ≤ 5) :
    phase ≤ 5 := by
  unfold envelope_step at h
  split at h
  · dsimp only at h
    split_ifs at h <;>
      first
      | (have e := congrArg Prod.snd (Option.some.inj (Option.some.inj h))
         dsimp only at e
         omega)
      | simp at h
  · exact absurd h (by simp)

theorem envelope_stage_phase {ne : Bool} {sample : MDV_Sample} {v w : Voice}
    (h : envelope_stage ne sample v = some (some w)) (hv : v.envelope_phase ≤ 5) :
    w.envelope_phase ≤ 5 := by
  unfold envelope_stage at h
  split at h
  · rw [← Option.some.inj (Option.some.inj h)]
    exact hv
  · split at h
    · exact absurd h (by simp)
    · exact absurd h (by simp)
    · rename_i value phase hs
      rw [← Option.some.inj (Option.some.inj h)]
      exact envelope_step_phase hs hv

theorem loop_stage_phase {nl : Bool} {sample : MDV_Sample} {v w : Voice} {n m : Nat}
    (h : loop_stage nl sample v n = some (w, m)) : w.envelope_phase = v.envelope_phase := by
  unfold loop_stage at h
  split_ifs at h <;> first | (cases h; rfl)

theorem render_patched_env {t : Tables} {ch : Channel} {ne nl : Bool} {patch : MDV_Patch}
    {v w : Voice} {l r a b : Int}
    (h : render_patched t ch ne nl patch v l r = some (Rendered.mixed w a b))
    (hv : v.envelope_phase ≤ 5) : env_ok w := by
  unfold render_patched at h
  split at h
  · exact absurd h (by simp)
  · dsimp only at h
    split at h
    · exact absurd h (by simp)
    · exact absurd (Option.some.inj h) (by simp)
    · rename_i v1 he
      have e1 := envelope_stage_phase he hv
      split at h
      · exact absurd h (by simp)
      · split at h
        · exact absurd (Option.some.inj h) (by simp)
        · rename_i v3 np hl
          have e2 := output_stage_env h
          have e3 := loop_stage_phase hl
          refine ⟨?_, e2.2⟩
          show (Rendered.mixed w a b).voice.envelope_phase ≤ 5
          rw [e2.1, e3]
          exact e1

theorem render_square_env (t : Tables) (ch : Channel) (v : Voice) (l r : Int) :
    ∃ w a b, render_square t ch v l r = Rendered.mixed w a b ∧
      w.envelope_phase = v.envelope_phase ∧ w.envelope_value = v.envelope_value := by
  unfold render_square
  exact ⟨_, _, _, rfl, rfl, rfl⟩

theorem render_voice_env {t : Tables} {c : Nat} {ch : Channel} {v w : Voice} {l r a b : Int}
    (h : render_voice t c ch v l r = some (Rendered.mixed w a b)) (hv : env_ok v) :
    env_ok w := by
  unfold render_voice at h
  dsimp only at h
  split at h
  · exact absurd h (by simp)
  · split at h
    · exact render_patched_env h hv.1
    · obtain ⟨w1, a1, b1, hs, e1, e2⟩ := render_square_env t ch v l r
      rw [hs] at h
      have e := Option.some.inj h
      have ew : w1 = w := by injection e
      subst ew
      exact ⟨e1 ▸ hv.1, e2 ▸ hv.2⟩

theorem delete_voice_env (p : MDV_Player) (ip : Slot) (i j : Nat) :
    ((delete_voice p ip i).voices j).envelope_phase = (p.voices j).envelope_phase ∧
    ((delete_voice p ip i).voices j).envelope_value = (p.voices j).envelope_value := by
  cases ip with
  | head c =>
    simp only [delete_voice, ip_write]
    by_cases hj : j = i
    · subst hj; simp
    · simp [Function.update_noteq hj]
  | next k =>
    simp only [delete_voice, ip_write]
    by_cases hj : j = i
    · subst hj
      by_cases hk : j = k
      · subst hk; simp
      · simp [Function.update_noteq hk]
    · by_cases hk : j = k
      · subst hk; simp [Function.update_noteq hj]
      · simp [Function.update_noteq hj, Function.update_noteq hk]

theorem mix_channel_env (t : Tables) {c : Nat} (hc : c < 16) :
    ∀ (fuel : Nat) (ip : Slot) (p : MDV_Player) (l r : Int) (q : MDV_Player) (l' r' : Int)
      (free : List Nat) (act : Nat → List Nat) (pre rest : List Nat),
      Pool p free act → (∀ d, d < 16 → ∀ j, j ∈ act d → env_ok (p.voices j)) →
      act c = pre ++ rest → SlotAt c ip pre →
      mix_channel t c fuel ip p l r = some (q, l', r') → EnvOK q := by
  intro fuel
  induction fuel with
  | zero =>
    intro ip p l r q l' r' free act pre rest hp henv _ _ h
    simp only [mix_channel] at h
    split_ifs at h
    have h2 := Option.some.inj h
    have h3 : p = q := congrArg Prod.fst h2
    subst h3
    exact ⟨free, act, hp, henv⟩
  | succ fuel ih =>
    intro ip p l r q l' r' free act pre rest hp henv hact hip h
    simp only [mix_channel] at h
    by_cases hi : ip_read p ip = 255
    · simp only [hi, if_true] at h
      have h3 : p = q := congrArg Prod.fst (Option.some.inj h)
      subst h3
      exact ⟨free, act, hp, henv⟩
    · simp only [hi, if_false] at h
      have hchain : Chain p.voices (ip_read p ip) rest 255 :=
        slot_chain hip (hact ▸ hp.act_list c hc)
      obtain ⟨rest', hrest, _, _⟩ := chain_head hchain hi
      have hmem : ip_read p ip ∈ act c := by
        rw [hact, hrest]
        simp
      cases hr : render_voice t c (p.channels c) (p.voices (ip_read p ip)) l r with
      | none => simp only [hr] at h; exact absurd h (by simp)
      | some res =>
        have hnext := render_voice_next hr
        have hp1 : ∀ v : Voice, v.next = (p.voices (ip_read p ip)).next →
            Pool { p with voices := Function.update p.voices (ip_read p ip) v } free act := by
          intro v hv
          refine pool_congr hp rfl (fun _ _ => rfl) ?_
          intro j
          by_cases hj : j = ip_read p ip
          · subst hj; simpa using hv
          · simp [Function.update_noteq hj]
        cases res with
        | deleted v =>
          simp only [hr] at h
          have hp2 := pool_delete (hp1 v hnext) hc (hact.trans (by rw [hrest])) hip
          refine ih ip _ l r q l' r' _ _ pre rest' hp2 ?_ (by simp) hip h
          intro d hd j hj
          have hji : j ≠ ip_read p ip := by
            intro e
            exact hp2.free_act d hd j hj (by rw [e]; simp)
          have hjd : j ∈ act d := by
            by_cases hdc : d = c
            · subst hdc
              rw [Function.update_same] at hj
              rw [hact, hrest]
              rcases List.mem_append.mp hj with h1 | h1
              · exact List.mem_append_left _ h1
              · exact List.mem_append_right _ (List.mem_cons_of_mem _ h1)
            · rwa [Function.update_noteq hdc] at hj
          have e := delete_voice_env
            { p with voices := Function.update p.voices (ip_read p ip) v } ip (ip_read p ip) j
          have e0 : Function.update p.voices (ip_read p ip) v j = p.voices j :=
            Function.update_noteq hji _ _
          have hold := henv d hd j hjd
          refine ⟨?_, ?_⟩
          · rw [e.1]
            show (Function.update p.voices (ip_read p ip) v j).envelope_phase ≤ 5
            rw [e0]
            exact hold.1
          · rw [e.2]
            show (Function.update p.voices (ip_read p ip) v j).envelope_value ≤ 1023 <<< 20
            rw [e0]
            exact hold.2
        | mixed v l1 r1 =>
          simp only [hr] at h
          refine ih (Slot.next (ip_read p ip)) _ l1 r1 q l' r' free act (pre ++ [ip_read p ip])
            rest' (hp1 v hnext) ?_ (by simp [hact, hrest]) (Or.inr ⟨_, pre, rfl, rfl⟩) h
          intro d hd j hj
          show env_ok (Function.update p.voices (ip_read p ip) v j)
          by_cases hji : j = ip_read p ip
          · rw [hji, Function.update_same]
            exact render_voice_env hr (henv c hc _ hmem)
          · rw [Function.update_noteq hji]
            exact henv d hd j hj

theorem mix_channels_env (t : Tables) :
    ∀ (n c : Nat) (p : MDV_Player) (l r : Int) (q : MDV_Player) (l' r' : Int),
      c + n ≤ 16 → EnvOK p → mix_channels t n c p l r = some (q, l', r') → EnvOK q := by
  intro n
  induction n with
  | zero =>
    intro c p l r q l' r' _ hp h
    simp only [mix_channels] at h
    have h3 : p = q := congrArg Prod.fst (Option.some.inj h)
    subst h3
    exact hp
  | succ n ih =>
    intro c p l r q l' r' hc hp h
    simp only [mix_channels] at h
    cases hm : mix_channel t c 255 (Slot.head c) p l r with
    | none => simp only [hm] at h; exact absurd h (by simp)
    | some res =>
      obtain ⟨p1, l1, r1⟩ := res
      simp only [hm] at h
      obtain ⟨free, act, hpool, henv⟩ := hp
      have hp1 := mix_channel_env t (by omega : c < 16) 255 (Slot.head c) p l r p1 l1 r1 free act
        [] (act c) hpool henv rfl (Or.inl ⟨rfl, rfl⟩) hm
      exact ih (c + 1) p1 l1 r1 q l' r' (by omega) hp1 h

theorem env_clock {p q : MDV_Player} (hp : EnvOK p) (h1 : q.channels = p.channels)
    (h2 : q.inactive = p.inactive) (h3 : q.voices = p.voices) : EnvOK q := by
  obtain ⟨free, act, hpool, henv⟩ := hp
  refine ⟨free, act, pool_congr hpool h2 (fun c _ => by rw [h1]) (fun i => by rw [h3]), ?_⟩
  intro c hc i hi
  rw [h3]
  exact henv c hc i hi

theorem mix_voices_env {t : Tables} {p q : MDV_Player} {out : Samp} (hp : EnvOK p)
    (h : mix_voices t p = some (q, out)) : EnvOK q := by
  unfold mix_voices at h
  cases hm : mix_channels t 16 0 p 0 0 with
  | none => simp only [hm] at h; exact absurd h (by simp)
  | some res =>
    obtain ⟨p1, l1, r1⟩ := res
    simp only [hm] at h
    have hp1 := mix_channels_env t 16 0 p 0 0 p1 l1 r1 (by omega) hp hm
    have h3 : _ = q := congrArg Prod.fst (Option.some.inj h)
    rw [← h3]
    exact env_clock hp1 rfl rfl rfl

theorem note_off_scan_env (note : Nat) :
    ∀ (fuel i : Nat) (vs ws : Nat → Voice), note_off_scan note fuel i vs = some ws →
      ∀ j, env_ok (vs j) → env_ok (ws j) := by
  intro fuel
  induction fuel with
  | zero =>
    intro i vs ws h j hj
    simp only [note_off_scan] at h
    split_ifs at h
    cases h
    exact hj
  | succ fuel ih =>
    intro i vs ws h j hj
    simp only [note_off_scan] at h
    split_ifs at h
    · cases h; exact hj
    · cases h
      by_cases e : j = i
      · subst e
        rw [Function.update_same]
        exact ⟨(by norm_num : (3 : Nat) ≤ 5), hj.2⟩
      · rw [Function.update_noteq e]
        exact hj
    · exact ih _ _ _ h j hj

theorem silence_channel_env (c : Nat) :
    ∀ (fuel : Nat) (p q : MDV_Player), silence_channel c fuel p = some q →
      ∀ j, (q.voices j).envelope_phase = (p.voices j).envelope_phase ∧
        (q.voices j).envelope_value = (p.voices j).envelope_value := by
  intro fuel
  induction fuel with
  | zero =>
    intro p q h j
    simp only [silence_channel] at h
    split_ifs at h
    cases h
    exact ⟨rfl, rfl⟩
  | succ fuel ih =>
    intro p q h j
    simp only [silence_channel] at h
    split_ifs at h
    · cases h
      exact ⟨rfl, rfl⟩
    · rw [silence_step_eq] at h
      have e1 := ih _ _ h j
      have e2 := delete_voice_env p (Slot.head c) (p.channels c).voices j
      exact ⟨e1.1.trans e2.1, e1.2.trans e2.2⟩

theorem do_event_env {t : Tables} {p q : MDV_Player} {e : MDV_Event} (hp : EnvOK p)
    (h : do_event t p e = some q) : EnvOK q := by
  obtain ⟨free, act, hp, henv⟩ := hp
  have hoff : ∀ q, do_note_off p e = some q → EnvOK q := by
    intro q h
    simp only [do_note_off] at h
    split_ifs at h
    · cases hs : note_off_scan e.param1 255 (p.channels e.channel).voices p.voices with
      | none => simp [hs] at h
      | some ws =>
        simp only [hs, Option.map_some', Option.some.injEq] at h
        subst h
        exact ⟨free, act,
          pool_congr hp rfl (fun _ _ => rfl) (note_off_scan_next _ _ _ _ _ hs),
          fun c hc i hi => note_off_scan_env _ _ _ _ _ hs i (henv c hc i hi)⟩
    · cases h
      exact ⟨free, act, hp, henv⟩
  have hctl : ∀ (ch : Channel), ch.voices = (p.channels e.channel).voices →
      EnvOK { p with channels := Function.update p.channels e.channel ch } := by
    intro ch hch
    refine ⟨free, act, pool_congr hp rfl ?_ (fun _ => rfl), henv⟩
    intro c _
    by_cases hc : c = e.channel
    · subst hc; simpa using hch
    · simp [Function.update_noteq hc]
  unfold do_event at h
  split at h
  · exact hoff q h
  · by_cases h1 : e.param2 = 0
    · simp only [h1, if_true] at h
      exact hoff q h
    · by_cases h2 : p.inactive ≠ 255
      · by_cases h3 : e.channel < 16
        · simp only [h1, h2, h3, if_true, if_false, ne_eq, not_false_eq_true] at h
          cases hb : bank_patch p.bank e.channel e.param1 (p.channels e.channel).program with
          | none => simp only [hb] at h; exact absurd h (by simp)
          | some patch =>
            simp only [hb] at h
            cases h
            have hpool := pool_note_on hp h2 h3
              (new_voice t (p.channels e.channel).voices e patch) rfl
            refine ⟨_, _, hpool, ?_⟩
            intro d hd j hj
            show env_ok (Function.update p.voices p.inactive _ j)
            by_cases hji : j = p.inactive
            · rw [hji, Function.update_same]
              exact ⟨Nat.zero_le _, Nat.zero_le _⟩
            · rw [Function.update_noteq hji]
              refine henv d hd j ?_
              by_cases hdc : d = e.channel
              · subst hdc
                rw [Function.update_same] at hj
                rcases List.mem_cons.mp hj with h4 | h4
                · exact absurd h4 hji
                · exact h4
              · rwa [Function.update_noteq hdc] at hj
        · simp only [h1, h2, h3, if_true, if_false, ne_eq, not_false_eq_true] at h
          cases h
      · simp only [h1, h2, if_false] at h
        cases h
        exact ⟨free, act, hp, henv⟩
  · split_ifs at h <;> cases h <;> first | exact hctl _ rfl | exact ⟨free, act, hp, henv⟩
  · split_ifs at h with h1
    obtain ⟨s, hs, hpool, _⟩ :=
      silence_channel_spec h1 255 p free act hp (chain_length_le (hp.act_list _ h1))
    have hse := silence_channel_env _ _ _ _ hs
    rw [hs] at h
    simp only [Option.map_some', Option.some.injEq] at h
    subst h
    refine ⟨_, _, pool_congr hpool rfl ?_ (fun _ => rfl), ?_⟩
    · intro c _
      by_cases hc : c = e.channel
      · rw [hc]; simp
      · simp [Function.update_noteq hc]
    · intro d hd j hj
      show env_ok (s.voices j)
      have hjd : j ∈ act d := by
        by_cases hdc : d = e.channel
        · subst hdc
          rw [Function.update_same] at hj
          exact absurd hj (List.not_mem_nil _)
        · rwa [Function.update_noteq hdc] at hj
      have hold := henv d hd j hjd
      exact ⟨(hse j).1 ▸ hold.1, (hse j).2 ▸ hold.2⟩
  · split_ifs at h
    have := Option.some.inj h
    subst this
    exact hctl _ rfl
  · split at h
    · cases h
    · split_ifs at h
      cases h
      exact ⟨free, act, pool_congr hp rfl (fun _ _ => rfl) (fun _ => rfl), henv⟩
  · cases h
    exact ⟨free, act, hp, henv⟩

theorem reachable_induct {t : Tables} {I : MDV_Player → Prop}
    (hclock : ∀ p q : MDV_Player, I p → q.channels = p.channels → q.inactive = p.inactive →
      q.voices = p.voices → I q)
    (hreset : ∀ p, I (mdv_reset_player p))
    (hevent : ∀ p q e, I p → do_event t p e = some q → I q)
    (hmix : ∀ p q out, I p → mix_voices t p = some (q, out) → I q) :
    ∀ s, Reachable t s → I s := by
  have hdrain : ∀ (seq : MDV_Sequence) (fuel : Nat) (p q : MDV_Player) (log : List MDV_Event),
      I p → drain_events t seq fuel p = some (q, log) → I q := by
    intro seq fuel
    induction fuel with
    | zero => intro p q log _ h; simp [drain_events] at h
    | succ fuel ih =>
      intro p q log hp h
      rcases drain_events_inv h with ⟨_, rfl, _⟩ | ⟨_, _, cur, p1, p3, rest, _, h2, h3, h4, _⟩
      · exact hp
      · obtain ⟨_, _, _, _, _, e1, e2, e3, _⟩ := next_event_inv h3
        exact ih p3 q rest (hclock p1 p3 (hevent p p1 _ hp h2) e1 e2 e3) h4
  have hadv : ∀ (seq : MDV_Sequence) (p q : MDV_Player) (log : List MDV_Event),
      I p → advance_timeline t seq p = some (q, log) → I q := by
    intro seq p q log hp h
    rcases advance_timeline_inv h with ⟨_, _, rfl⟩ | ⟨_, _, p1, hd, rfl⟩
    · exact hclock p _ hp rfl rfl rfl
    · exact hclock p1 _ (hdrain seq _ p p1 log hp hd) rfl rfl rfl
  have hframes : ∀ (seq : MDV_Sequence) (n : Nat) (p q : MDV_Player) (fs : List Frame),
      I p → get_audio_frames t seq n p = some (q, fs) → I q := by
    intro seq n
    induction n with
    | zero =>
      intro p q fs hp h
      simp only [get_audio_frames] at h
      have e : p = q := congrArg Prod.fst (Option.some.inj h)
      subst e
      exact hp
    | succ n ih =>
      intro p q fs hp h
      obtain ⟨p1, f, rest, h1, h2, _⟩ := get_audio_frames_inv h
      obtain ⟨p0, ha, hm⟩ := render_frame_inv h1
      exact ih p1 q rest (hmix p0 p1 _ (hadv seq p p0 _ hp ha) hm) h2
  have hloop : ∀ (seq : MDV_Sequence) (fuel : Nat) (p q : MDV_Player) (log : List MDV_Event),
      I p → fast_forward_loop t seq fuel p = some (q, log) → I q := by
    intro seq fuel
    induction fuel with
    | zero => intro p q log _ h; simp [fast_forward_loop] at h
    | succ fuel ih =>
      intro p q log hp h
      rcases fast_forward_loop_inv h with ⟨_, rfl, _⟩ | ⟨_, cur, _, h2⟩
      · exact hp
      · rcases h2 with ⟨_, rfl, _⟩ | ⟨_, p1, rest, h3, h4, _⟩
        · exact hp
        · refine ih _ q rest ?_ h4
          have hp1 := hevent p p1 _ hp h3
          split_ifs
          · exact hclock p1 _ hp1 rfl rfl rfl
          · exact hclock p1 _ hp1 rfl rfl rfl
  intro s hs
  induction hs with
  | reset p => exact hreset p
  | @play p q seq _ h ih =>
    simp only [mdv_play_sequence] at h
    split_ifs at h
    cases h0 : seq.events[0]? with
    | none => simp only [h0] at h; exact absurd h (by simp)
    | some ev =>
      simp only [h0] at h
      have e := Option.some.inj h
      subst e
      exact hclock p _ ih rfl rfl rfl
  | @event p q e _ h ih => exact hevent p q e ih h
  | @forward p q log _ h ih =>
    simp only [mdv_fast_forward_to_note] at h
    cases hs : p.seq with
    | none =>
      simp only [hs] at h
      have e : p = q := congrArg Prod.fst (Option.some.inj h)
      subst e
      exact ih
    | some seq =>
      simp only [hs] at h
      refine hloop seq _ _ q log ?_ h
      exact hclock p _ ih rfl rfl rfl
  | @audio p q len fs _ h ih =>
    simp only [mdv_get_audio] at h
    cases hs : p.seq with
    | none =>
      simp only [hs] at h
      have e : p = q := congrArg Prod.fst (Option.some.inj h)
      subst e
      exact ih
    | some seq =>
      simp only [hs] at h
      split_ifs at h
      · have e : p = q := congrArg Prod.fst (Option.some.inj h)
        subst e
        exact ih
      · exact hframes seq _ p q fs ih h

theorem reachable_env {t : Tables} {s : MDV_Player} (h : Reachable t s) : EnvOK s := by
  refine @reachable_induct t EnvOK ?_ ?_ ?_ ?_ s h
  · intro p q hp h1 h2 h3
    exact env_clock hp h1 h2 h3
  · intro p
    exact ⟨_, _, pool_reset p, fun _ _ _ hi => absurd hi (List.not_mem_nil _)⟩
  · intro p q e hp h
    exact do_event_env hp h
  · intro p q out hp h
    exact mix_voices_env hp h

/-- C21. Envelope invariant: in every state reachable from `mdv_reset_player`
by `mdv_play_sequence`, `do_event`, `mdv_fast_forward_to_note` and
`mdv_get_audio` (any bank, so any envelope rates and offsets), each channel
below 16 has a list of active voices, and every voice on such a list has
`envelope_phase ≤ 5` and `envelope_value ≤ 1023 << 20`. -/
theorem envelope_invariant (t : Tables) (s : MDV_Player) (h : Reachable t s) :
    (∃ act : Nat → List Nat, ∀ c, c < 16 → IsList s.voices (s.channels c).voices (act c)) ∧
    ∀ c, c < 16 → ∀ l, IsList s.voices (s.channels c).voices l → ∀ i, i ∈ l →
      (s.voices i).envelope_phase ≤ 5 ∧ (s.voices i).envelope_value ≤ 1023 <<< 20 := by
  obtain ⟨free, act, hpool, henv⟩ := reachable_env h
  refine ⟨⟨act, hpool.act_list⟩, ?_⟩
  intro c hc l hl i hi
  have e : l = act c := chain_unique hl (hpool.act_list c hc)
  rw [e] at hi
  exact henv c hc i hi

theorem reachable_ramp_mixed (loop : Bool) : Reachable tables0 (ramp_mixed loop) := by
  have h1 : Reachable tables0 ((do_event tables0 (ramp_fresh loop) (note_on 0 60 100)).getD
      player0) :=
    Reachable.event (note_on 0 60 100) (Reachable.reset (ramp_loaded loop))
      (by cases loop <;> rfl)
  have h2 : Reachable tables0 (ramp_player loop) :=
    Reachable.play tempo_seq h1 (by cases loop <;> rfl)
  exact Reachable.audio 4 ((mdv_get_audio tables0 (ramp_player loop) 4).map Prod.snd |>.getD [])
    h2 (by cases loop <;> rfl)

/-- C21, witness: the state after `NoteOn(0, 60, 100)` on a patch whose
envelope targets are `2^32 - 1`, `mdv_play_sequence` and one frame. Voice 0 is
the active voice of channel 0; its envelope went to the target and was clamped
to `1023 << 20`, in phase 1. -/
theorem envelope_invariant_witness :
    Reachable tables0 (ramp_mixed false) ∧
    IsList (ramp_mixed false).voices ((ramp_mixed false).channels 0).voices [0] ∧
    ((ramp_mixed false).voices 0).envelope_phase = 1 ∧
    ((ramp_mixed false).voices 0).envelope_value = 1023 <<< 20 ∧
    ∀ c, c < 16 → ∀ l, IsList (ramp_mixed false).voices ((ramp_mixed false).channels c).voices l →
      ∀ i, i ∈ l →
        ((ramp_mixed false).voices i).envelope_phase ≤ 5 ∧
        ((ramp_mixed false).voices i).envelope_value ≤ 1023 <<< 20 :=
  ⟨reachable_ramp_mixed false, by decide, rfl, rfl,
    (envelope_invariant tables0 (ramp_mixed false) (reachable_ramp_mixed false)).2⟩

/-- C22, the failing input. A sample of two points is played at one point per
frame, not looped or looped over the whole sample (`0 = loop_start < loop_end =
data_size = 2`). After the first frame the voice is still on the list of channel
0 with `sample_pos = 1 << 32`. In the second frame the test
`sample_pos >= data_size * 0x100000000LL - 1` (or the loop test against
`loop_end`) lets the voice pass, and the interpolation reads `data[1]` and
`data[2]`: the index `floor(pos) + 1` is `data_size`, outside the array, and
the frame is undefined. For the sample that is not looped the position is not
below `(data_size - 1) << 32`. -/
theorem interpolation_reads_past_end (loop : Bool) :
    (ramp_sample loop).loop = loop ∧
    (ramp_sample loop).loop_start < (ramp_sample loop).loop_end ∧
    (ramp_sample loop).loop_end ≤ (ramp_sample loop).data.length ∧
    (mdv_get_audio tables0 (ramp_player loop) 4).map Prod.fst = some (ramp_mixed loop) ∧
    IsList (ramp_mixed loop).voices ((ramp_mixed loop).channels 0).voices [0] ∧
    ((ramp_mixed loop).voices 0).patch = some (ramp_patch loop) ∧
    (ramp_patch loop).samples[((ramp_mixed loop).voices 0).sample_index]?
      = some (ramp_sample loop) ∧
    ((ramp_mixed loop).voices 0).sample_pos = 1 <<< 32 ∧
    ¬ ((ramp_mixed loop).voices 0).sample_pos < ((ramp_sample loop).data.length - 1) <<< 32 ∧
    ((ramp_mixed loop).voices 0).sample_pos / 2 ^ 32 + 1 = (ramp_sample loop).data.length ∧
    (loop_stage false (ramp_sample loop) ((ramp_mixed loop).voices 0) (2 <<< 32)).isSome = true ∧
    interpolate (ramp_sample loop) ((ramp_mixed loop).voices 0) = none ∧
    render_voice tables0 0 ((ramp_mixed loop).channels 0) ((ramp_mixed loop).voices 0) 0 0
      = none ∧
    mdv_get_audio tables0 (ramp_mixed loop) 4 = none := by
  cases loop
  · exact ⟨rfl, by decide, by decide, rfl, by decide, rfl, rfl, rfl, by decide, rfl, rfl, rfl,
      rfl, rfl⟩
  · exact ⟨rfl, by decide, by decide, rfl, by decide, rfl, rfl, rfl, by decide, rfl, rfl, rfl,
      rfl, rfl⟩

end Midival
